import Mathlib

/-!
# Shell-completion engine of `scaleway-cli` (`internal/core/autocomplete.go`)

A shallow embedding of the autocomplete tree, of the cursor locator, of the usage
tracker and of the suggestion generator, followed by theorems about them.

Conventions of the embedding:

* a Go `string` is a `List Char` (`Str`); comparing two strings by code point is the
  same as comparing their UTF-8 encodings byte-wise;
* pointers to nodes and to `map` objects are addresses into an explicit `Heap`, so that
  two nodes can share one child mapping exactly as in the source;
* a Go `map` is an association list with unique keys; the order in which `range`
  enumerates it is unspecified in Go and is an explicit parameter `order` here;
* a `*Command` or `*ArgSpec` pointer is the position of the object in the command
  registry;
* a run-time panic is a value of `Fault`, and every function that can panic returns
  `Except Fault _`.
-/

set_option autoImplicit false

namespace Core

/-- A Go string. -/
abbrev Str := List Char

/-! ## The `strings` and `strconv` functions used by the source -/

/-- The Go function `strings.HasPrefix(s, p)`. -/
def HasPrefix : Str → Str → Bool
  | _, [] => true
  | [], _ :: _ => false
  | c :: s, d :: p => c == d && HasPrefix s p

/-- The Go function `strings.Contains(s, sub)`. -/
def Contains : Str → Str → Bool
  | [], sub => HasPrefix [] sub
  | c :: s, sub => HasPrefix (c :: s) sub || Contains s sub

/-- Worker of `ReplaceAll` for a non-empty `old`: the first argument counts the characters
of the occurrence being replaced that are still to be skipped. -/
def replaceAllAux (old new : Str) : Nat → Str → Str
  | _, [] => []
  | skip + 1, _ :: s => replaceAllAux old new skip s
  | 0, c :: s =>
    if HasPrefix (c :: s) old then new ++ replaceAllAux old new (old.length - 1) s
    else c :: replaceAllAux old new 0 s

/-- The Go function `strings.ReplaceAll(s, old, new)`: the non-overlapping occurrences of
`old` are replaced from left to right; an empty `old` matches before every character and
at the end. -/
def ReplaceAll (s old new : Str) : Str :=
  if old = [] then new ++ s.flatMap (fun c => c :: new) else replaceAllAux old new 0 s

/-- The Go call `strings.SplitN(s, string(sep), 2)`: `none` when the result has one
element (no separator in `s`), otherwise the text before and after the first separator. -/
def splitFirst (sep : Char) : Str → Option (Str × Str)
  | [] => none
  | c :: s =>
    if c = sep then some ([], s)
    else match splitFirst sep s with
      | none => none
      | some (l, r) => some (c :: l, r)

/-- The Go function `strconv.Itoa` on a non-negative integer. -/
def Itoa (n : Nat) : Str := Nat.toDigits 10 n

/-! ## The fragment of Go regular expressions that child keys give rise to -/

/-- One element of a compiled pattern. -/
inductive Atom where
  /-- A literal character. -/
  | lit (c : Char)
  /-- The pattern `.`: any character but a newline. -/
  | any
  /-- The pattern `[0-9]+`. -/
  | digits
  /-- The pattern `[0-9a-zA-Z-]+`. -/
  | word
  /-- The capturing pattern `([0-9]+)`. -/
  | group
  deriving DecidableEq, Repr

/-- The character class `[0-9]`. -/
def isDigit (c : Char) : Bool := 48 ≤ c.toNat && c.toNat ≤ 57

/-- The character class `[0-9a-zA-Z-]`. -/
def isWordChar (c : Char) : Bool :=
  isDigit c || (97 ≤ c.toNat && c.toNat ≤ 122) || (65 ≤ c.toNat && c.toNat ≤ 90) || c == '-'

/-- Characters with a special meaning in a Go pattern; `{` is treated apart. -/
def isMeta (c : Char) : Bool :=
  c == '\\' || c == '.' || c == '+' || c == '*' || c == '?' || c == '(' || c == ')' ||
  c == '|' || c == '[' || c == ']' || c == '^' || c == '$'

/-- Worker of `regexpCompile`; the first argument counts the characters of the token being
read that are still to be skipped. -/
def compileAux : Nat → Str → Option (List Atom)
  | _, [] => some []
  | skip + 1, _ :: s => compileAux skip s
  | 0, c :: s =>
    if HasPrefix (c :: s) "([0-9]+)".toList then (compileAux 7 s).map (Atom.group :: ·)
    else if HasPrefix (c :: s) "[0-9a-zA-Z-]+".toList then (compileAux 12 s).map (Atom.word :: ·)
    else if HasPrefix (c :: s) "[0-9]+".toList then (compileAux 5 s).map (Atom.digits :: ·)
    else if c = '.' then (compileAux 0 s).map (Atom.any :: ·)
    else if c = '{' then
      match s with
      | d :: _ => if isDigit d then none else (compileAux 0 s).map (Atom.lit c :: ·)
      | [] => some [Atom.lit c]
    else if isMeta c then none
    else (compileAux 0 s).map (Atom.lit c :: ·)

/-- The Go function `regexp.Compile` on the patterns that the source builds from child
keys: literal characters, `.`, the classes `[0-9]+` and `[0-9a-zA-Z-]+` substituted for the
placeholders, the group `([0-9]+)`, and a `{` that does not open a repetition (Go reads it
as a literal). Every other pattern is outside the modelled fragment and gives `none`. -/
def regexpCompile (pattern : Str) : Option (List Atom) := compileAux 0 pattern

/-- Greedy repetition `p+` followed by the continuation `k`, with backtracking: the longest
run is tried first. `acc` is the text consumed so far, reversed. -/
def plusGreedy {α : Type} (p : Char → Bool) (k : Str → Str → Option α) : Str → Str → Option α
  | _, [] => none
  | acc, c :: s =>
    if p c then
      match plusGreedy p k (c :: acc) s with
      | some r => some r
      | none => k (c :: acc).reverse s
    else none

/-- Match a compiled pattern at the start of the text; the result is the list of the
captured groups, in order. -/
def matchHere : List Atom → Str → Option (List Str)
  | [], _ => some []
  | Atom.lit c :: as, s =>
    match s with
    | x :: xs => if x = c then matchHere as xs else none
    | [] => none
  | Atom.any :: as, s =>
    match s with
    | x :: xs => if x = '\n' then none else matchHere as xs
    | [] => none
  | Atom.digits :: as, s => plusGreedy isDigit (fun _ rest => matchHere as rest) [] s
  | Atom.word :: as, s => plusGreedy isWordChar (fun _ rest => matchHere as rest) [] s
  | Atom.group :: as, s =>
    plusGreedy isDigit (fun got rest => (matchHere as rest).map (got :: ·)) [] s

/-- The Go method `(*Regexp).FindStringSubmatch` without the whole match: the captured groups
of the leftmost match, the one a backtracking search finds first; `none` when the pattern
matches nowhere in the text. -/
def FindStringSubmatch (r : List Atom) : Str → Option (List Str)
  | [] => matchHere r []
  | c :: s =>
    match matchHere r (c :: s) with
    | some caps => some caps
    | none => FindStringSubmatch r s

/-- The Go method `(*Regexp).MatchString`: the pattern matches somewhere in the text. -/
def MatchString (r : List Atom) (s : Str) : Bool := (FindStringSubmatch r s).isSome

/-! ## `sort.Strings` -/

/-- Lexicographic order on strings, character by character. -/
def strLe : Str → Str → Bool
  | [], _ => true
  | _ :: _, [] => false
  | c :: s, d :: t => c.toNat < d.toNat || (c == d && strLe s t)

/-- The Go function `sort.Strings`: the ascending rearrangement of the list. -/
def sortStrings (l : List Str) : List Str :=
  l.insertionSort (fun a b => strLe a b = true)

/-! ## Data model -/

/-- A run-time failure of the Go program. -/
inductive Fault where
  /-- Indexing a slice outside its bounds. -/
  | indexOutOfRange
  /-- Reading a field through a nil pointer. -/
  | nilDereference
  /-- The function `regexp.MustCompile` was given a pattern outside the modelled fragment:
  Go panics when the pattern is malformed, and otherwise builds a matcher that is not
  modelled here. -/
  | regexpPattern
  /-- A loop of the model used up its fuel. -/
  | outOfFuel
  deriving DecidableEq, Repr

/-- The suffix of the key of a free-form flag value. -/
def variableFlagValueSuffix : Str := "-value".toList

/-- Modelled from the spec: the constant `sliceSchema` is declared outside the files at
hand; it is the list-index placeholder `{idx}` of an argument name. -/
def sliceSchema : Str := "{idx}".toList

/-- Modelled from the spec: the constant `mapSchema` is declared outside the files at
hand; it is the map-key placeholder `{key}` of an argument name. -/
def mapSchema : Str := "{key}".toList

/-- The Go type `AutoCompleteNodeType`. -/
inductive AutoCompleteNodeType where
  | Command
  | Argument
  | Flag
  | FlagValueConst
  | FlagValueVariable
  deriving DecidableEq, Repr

/-- Modelled from the spec: the type `ArgSpec` is declared outside the files at hand; these
are the fields the completion engine reads. `AutoCompleteFunc` is `none` for a nil
callback. -/
structure ArgSpec where
  Name : Str
  EnumValues : List Str
  AutoCompleteFunc : Option (Str → List Str)

/-- Modelled from the spec: the type `Command` is declared outside the files at hand; these
are the fields the completion engine reads. `WaitFunc` tells whether the wait function is
set. -/
structure Command where
  Namespace : Str
  Resource : Str
  Verb : Str
  ArgSpecs : List ArgSpec
  WaitFunc : Bool

/-- The Go type `AutoCompleteNode`. `Children` is the address of a map object, `Command` the
position of a command in the registry, `ArgSpec` the position of a command together with
the position of one of its argument specs (both `none` for nil), and `NodeType` the field
`Type`. -/
structure AutoCompleteNode where
  Children : Nat
  Command : Option Nat
  ArgSpec : Option (Nat × Nat)
  NodeType : AutoCompleteNodeType
  Name : Str
  deriving DecidableEq, Repr

instance : Inhabited AutoCompleteNode :=
  ⟨{ Children := 0, Command := none, ArgSpec := none,
     NodeType := AutoCompleteNodeType.Command, Name := [] }⟩

/-- A Go map from child key to node pointer. -/
abbrev ChildMap := List (Str × Nat)

/-- The order in which a `range` loop enumerates a map. -/
abbrev RangeOrder := ChildMap → ChildMap

/-- A range order enumerates every entry of the map once. -/
def RangeOrder.Valid (order : RangeOrder) : Prop := ∀ m : ChildMap, (order m).Perm m

/-- The node objects and the map objects allocated so far; an address is a position. -/
structure Heap where
  nodes : List AutoCompleteNode
  maps : List ChildMap
  deriving DecidableEq, Repr

/-- The argument spec an `*ArgSpec` pointer refers to. -/
def argSpecAt (commands : List Command) (p : Nat × Nat) : Option ArgSpec :=
  match commands.get? p.1 with
  | some cmd => cmd.ArgSpecs.get? p.2
  | none => none

/-- Apply `f` to the element at position `i`. -/
def updateAt {α : Type} (f : α → α) : Nat → List α → List α
  | _, [] => []
  | 0, a :: l => f a :: l
  | i + 1, a :: l => a :: updateAt f i l

/-- The Go expression `m[key]`. -/
def mapGet : ChildMap → Str → Option Nat
  | [], _ => none
  | (k, v) :: m, key => if k = key then some v else mapGet m key

/-- The Go statement `m[key] = v`. -/
def mapSet : ChildMap → Str → Nat → ChildMap
  | [], key, v => [(key, v)]
  | (k, w) :: m, key, v => if k = key then (k, v) :: m else (k, w) :: mapSet m key v

/-- The node at address `p`. -/
def Heap.node (h : Heap) (p : Nat) : AutoCompleteNode := h.nodes.getD p default

/-- The child mapping of the node at address `p`. -/
def Heap.children (h : Heap) (p : Nat) : ChildMap := h.maps.getD (h.node p).Children []

/-- Update the fields of the node at address `p`. -/
def Heap.setNode (h : Heap) (p : Nat) (f : AutoCompleteNode → AutoCompleteNode) : Heap :=
  { h with nodes := updateAt f p h.nodes }

/-- The Go statement `m[key] = v` on the map object at address `m`. -/
def Heap.mapSet (h : Heap) (m : Nat) (key : Str) (v : Nat) : Heap :=
  { h with maps := updateAt (fun cm => Core.mapSet cm key v) m h.maps }

/-! ## Tree nodes and the tree builder -/

/-- The Go function `NewAutoCompleteNode`: a command node with a fresh, empty child
mapping. -/
def NewAutoCompleteNode (h : Heap) : Heap × Nat :=
  ({ nodes := h.nodes ++ [{ Children := h.maps.length, Command := none, ArgSpec := none,
                            NodeType := AutoCompleteNodeType.Command, Name := [] }],
     maps := h.maps ++ [[]] }, h.nodes.length)

/-- The Go function `NewArgAutoCompleteNode`. -/
def NewArgAutoCompleteNode (h : Heap) (argSpec : Nat × Nat) : Heap × Nat :=
  let (h, node) := NewAutoCompleteNode h
  (h.setNode node (fun n => { n with ArgSpec := some argSpec,
                                     NodeType := AutoCompleteNodeType.Argument }), node)

/-- One value node of a flag: a fresh node stored under `key` in the flag's own mapping,
whose child mapping is the one of the flag's parent. -/
def addFlagValue (h : Heap) (node parent : Nat) (key : Str) (t : AutoCompleteNodeType) :
    Heap :=
  let (h, c) := NewAutoCompleteNode h
  let h := h.mapSet (h.node node).Children key c
  h.setNode c (fun n => { n with Children := (h.node parent).Children, NodeType := t })

/-- The Go function `NewFlagAutoCompleteNode`. -/
def NewFlagAutoCompleteNode (h : Heap) (name : Str) (parent : Nat) (values : List Str)
    (hasVariableValue : Bool) : Heap × Nat :=
  let (h, node) := NewAutoCompleteNode h
  let h := h.setNode node (fun n => { n with NodeType := AutoCompleteNodeType.Flag, Name := name })
  let h := values.foldl
    (fun h value => addFlagValue h node parent value AutoCompleteNodeType.FlagValueConst) h
  let h := if hasVariableValue then
      addFlagValue h node parent (name ++ variableFlagValueSuffix)
        AutoCompleteNodeType.FlagValueVariable
    else h
  let h := if (h.children node).length = 0 then
      h.setNode node (fun n => { n with Children := (h.node parent).Children })
    else h
  (h, node)

/-- The Go statement `n.Children[name] = NewFlagAutoCompleteNode(name, n, values, v)`. -/
def addFlag (h : Heap) (n : Nat) (name : Str) (values : List Str) (hasVariableValue : Bool) :
    Heap :=
  let m := (h.node n).Children
  let (h, f) := NewFlagAutoCompleteNode h name n values hasVariableValue
  h.mapSet m name f

/-- The Go method `addGlobalFlags`. -/
def addGlobalFlags (h : Heap) (n : Nat) : Heap :=
  let h := addFlag h n "--access-key".toList [] true
  let h := addFlag h n "-D".toList [] false
  let h := addFlag h n "--debug".toList [] false
  let h := addFlag h n "-h".toList [] false
  let h := addFlag h n "--help".toList [] false
  let h := addFlag h n "-o".toList ["json".toList, "human".toList] false
  let h := addFlag h n "--output".toList ["json".toList, "human".toList] false
  let h := addFlag h n "-p".toList [] false
  let h := addFlag h n "--profile".toList [] false
  addFlag h n "--secret-key".toList [] true

/-- The Go method `GetChildOrCreate`. -/
def GetChildOrCreate (h : Heap) (node : Nat) (name : Str) : Heap × Nat :=
  match mapGet (h.children node) name with
  | some c => (h, c)
  | none =>
    let m := (h.node node).Children
    let (h, c) := NewAutoCompleteNode h
    (h.mapSet m name c, c)

/-- The inner loop of `BuildAutoCompleteTree` over namespace, resource and verb. -/
def descendPath (h : Heap) (node : Nat) : List Str → Heap × Nat
  | [] => (h, node)
  | part :: parts =>
    if part ≠ [] then
      let (h, node) := GetChildOrCreate h node part
      descendPath (addGlobalFlags h node) node parts
    else descendPath h node parts

/-- The loop of `BuildAutoCompleteTree` over the argument specs of the command at position
`i`; `j` is the position of the first spec of the list. -/
def addArgSpecs (node i : Nat) : Heap → Nat → List ArgSpec → Heap
  | h, _, [] => h
  | h, j, argSpec :: rest =>
    let m := (h.node node).Children
    let (h, a) := NewArgAutoCompleteNode h (i, j)
    addArgSpecs node i (h.mapSet m (argSpec.Name ++ "=".toList) a) (j + 1) rest

/-- The body of the loop of `BuildAutoCompleteTree` over the commands, for the command `cmd`
at position `i` of the registry. -/
def addCommand (h : Heap) (scwCommand i : Nat) (cmd : Command) : Heap :=
  let (h, node) := descendPath h scwCommand [cmd.Namespace, cmd.Resource, cmd.Verb]
  let h := h.setNode node (fun n => { n with Command := some i })
  let h := addArgSpecs node i h 0 cmd.ArgSpecs
  if cmd.WaitFunc then
    let h := addFlag h node "-w".toList [] false
    addFlag h node "--wait".toList [] false
  else h

/-- The loop of `BuildAutoCompleteTree` over the commands; `i` is the position of the first
command of the list. -/
def addCommands (scwCommand : Nat) : Heap → Nat → List Command → Heap
  | h, _, [] => h
  | h, i, cmd :: rest => addCommands scwCommand (addCommand h scwCommand i cmd) (i + 1) rest

/-- The Go function `BuildAutoCompleteTree`: the heap holding the tree and the address of
its root. -/
def BuildAutoCompleteTree (commands : List Command) : Heap × Nat :=
  let (h, root) := NewAutoCompleteNode { nodes := [], maps := [] }
  let (h, scwCommand) := GetChildOrCreate h root "scw".toList
  let h := addGlobalFlags h scwCommand
  (addCommands scwCommand h 0 commands, root)

/-- The loop of `GetChildMatch` over the enumerated children. -/
def getChildMatchLoop (name : Str) : ChildMap → Except Fault (Option Nat)
  | [] => .ok none
  | (key, child) :: rest =>
    let key := ReplaceAll key sliceSchema "[0-9]+".toList
    let key := ReplaceAll key mapSchema "[0-9a-zA-Z-]+".toList
    match regexpCompile key with
    | none => .error Fault.regexpPattern
    | some r => if MatchString r name then .ok (some child) else getChildMatchLoop name rest

/-- The Go method `GetChildMatch`: the first enumerated child whose key, read as a pattern,
matches `name`. -/
def GetChildMatch (order : RangeOrder) (h : Heap) (node : Nat) (name : Str) :
    Except Fault (Option Nat) :=
  getChildMatchLoop name (order (h.children node))

/-- The Go method `isLeafCommand`. -/
def isLeafCommand (order : RangeOrder) (h : Heap) (n : Nat) : Bool :=
  if (h.node n).NodeType ≠ AutoCompleteNodeType.Command then false
  else (order (h.children n)).all
    (fun e => decide ((h.node e.2).NodeType ≠ AutoCompleteNodeType.Command))

/-! ## Words, prefixes and index assignment -/

/-- The Go function `isCompletingArgValue`. -/
def isCompletingArgValue (wordToComplete : Str) : Bool := (splitFirst '=' wordToComplete).isSome

/-- The Go function `splitArgWord`; reading `wordParts[1]` fails on a word without `=`. -/
def splitArgWord (wordToComplete : Str) : Except Fault (Str × Str) :=
  match splitFirst '=' wordToComplete with
  | some (l, r) => .ok (l ++ "=".toList, r)
  | none => .error Fault.indexOutOfRange

/-- The Go function `wordKey`. -/
def wordKey (word : Str) : Str :=
  match splitFirst '=' word with
  | some (l, _) => l
  | none => word

/-- The Go function `isArg`. -/
def isArg (wordToComplete : Str) : Bool := Contains wordToComplete "=".toList

/-- The Go function `isFlag`. -/
def isFlag (wordToComplete : Str) : Bool := HasPrefix wordToComplete "-".toList

/-- The Go function `hasPrefix`, with a bound on the depth of the recursion. -/
def hasPrefixFuel : Nat → Str → Str → Bool
  | 0, _, _ => false
  | fuel + 1, key, wordToComplete =>
    if HasPrefix key wordToComplete then true
    else if !Contains wordToComplete ".".toList &&
        (HasPrefix key sliceSchema || HasPrefix key mapSchema) then true
    else if !Contains key ".".toList || !Contains wordToComplete ".".toList then false
    else
      match splitFirst '.' key, splitFirst '.' wordToComplete with
      | some (leftKey, rightKey), some (leftWord, rightWord) =>
        if leftKey = leftWord || leftKey = sliceSchema || leftKey = mapSchema then
          hasPrefixFuel fuel rightKey rightWord
        else false
      | _, _ => false

/-- The Go function `hasPrefix`: every recursive call is on a strictly shorter key, so a
depth of one more than the length of the key is never reached. -/
def hasPrefix (key wordToComplete : Str) : Bool :=
  hasPrefixFuel (key.length + 1) key wordToComplete

/-- The first loop of `keySuggestion`: the first captured group of every completed argument
that the pattern matches; reading `matches[1]` fails when the pattern has no group. -/
def usedIndexes (r : List Atom) : List Str → Except Fault (List Str)
  | [] => .ok []
  | arg :: rest =>
    match FindStringSubmatch r arg with
    | none => usedIndexes r rest
    | some [] => .error Fault.indexOutOfRange
    | some (m :: _) =>
      match usedIndexes r rest with
      | .ok used => .ok (used.insert m)
      | .error e => .error e

/-- The second loop of `keySuggestion`, started at `i` and run for at most `fuel` turns. -/
def nextFreeIndex (usedIndex : List Str) : Nat → Nat → Option Nat
  | 0, _ => none
  | fuel + 1, i =>
    if Itoa i ∈ usedIndex then nextFreeIndex usedIndex fuel (i + 1) else some i

/-- The Go function `keySuggestion`. -/
def keySuggestion (key keySchema : Str) (completedArg : List Str) : Except Fault Str :=
  let key := ReplaceAll key keySchema "([0-9]+)".toList
  match regexpCompile key with
  | none => .error Fault.regexpPattern
  | some r =>
    match usedIndexes r completedArg with
    | .error e => .error e
    | .ok usedIndex =>
      match nextFreeIndex usedIndex (usedIndex.length + 1) 0 with
      | none => .error Fault.outOfFuel
      | some i => .ok (ReplaceAll key "([0-9]+)".toList (Itoa i))

/-- The length of a Go string, in bytes. -/
def goLen (s : Str) : Nat := (s.map Char.utf8Size).sum

/-- The loop of `WordIndex`. -/
def wordIndexLoop (charIndex : Int) : List Str → Nat → Int → Option Nat
  | [], _, _ => none
  | word :: rest, i, charCount =>
    if charIndex ≤ charCount + goLen word then some i
    else wordIndexLoop charIndex rest (i + 1) (charCount + goLen word + 1)

/-- The Go function `WordIndex`. -/
def WordIndex (charIndex : Int) (words : List Str) : Nat :=
  (wordIndexLoop charIndex words 0 0).getD words.length

/-! ## The completion entry point -/

instance {ε α : Type} [DecidableEq ε] [DecidableEq α] : DecidableEq (Except ε α)
  | .ok a, .ok b =>
    if h : a = b then isTrue (by rw [h]) else isFalse (by intro h2; cases h2; exact h rfl)
  | .error a, .error b =>
    if h : a = b then isTrue (by rw [h]) else isFalse (by intro h2; cases h2; exact h rfl)
  | .ok _, .error _ => isFalse (by intro h; cases h)
  | .error _, .ok _ => isFalse (by intro h; cases h)

/-- The Go type `AutocompleteResponse`. -/
structure AutocompleteResponse where
  Suggestions : List Str
  deriving DecidableEq, Repr

/-- The Go function `newAutoCompleteResponse`. -/
def newAutoCompleteResponse (suggestions : List Str) : AutocompleteResponse :=
  { Suggestions := sortStrings suggestions }

/-- The first loop of `AutoComplete`, from the node `node` on; `previous` is the word
`leftWords[i-1]`, absent at `i = 0`. The result `none` stands for the early
`return &AutocompleteResponse{}`. -/
def locate (order : RangeOrder) (h : Heap) : Nat → Option Str → List Str →
    Except Fault (Option Nat)
  | node, _, [] => .ok (some node)
  | node, previous, word :: rest =>
    match mapGet (h.children node) word with
    | none =>
      if isLeafCommand order h node then locate order h node (some word) rest
      else
        match previous with
        | none => .error Fault.indexOutOfRange
        | some previousWord =>
          match mapGet (h.children node) (previousWord ++ variableFlagValueSuffix) with
          | some children2 => locate order h children2 (some word) rest
          | none => .ok none
    | some children =>
      if (h.node children).NodeType = AutoCompleteNodeType.Argument then
        locate order h node (some word) rest
      else locate order h children (some word) rest

/-- One turn of the second loop of `AutoComplete`; the state is the pair of the completed
arguments and of the completed flags (two sets, kept as lists without repetition). -/
def trackWord (h : Heap) (node : Nat) (acc : List Str × List Str) (word : Str) :
    List Str × List Str :=
  if isFlag word then (acc.1, acc.2.insert (wordKey word))
  else if isArg word then (acc.1.insert (wordKey word ++ "=".toList), acc.2)
  else
    match mapGet (h.children node) (word ++ "=".toList) with
    | some children =>
      if (h.node children).NodeType = AutoCompleteNodeType.Argument then
        (acc.1.insert (word ++ "=".toList), acc.2)
      else acc
    | none => acc

/-- The second loop of `AutoComplete`: the completed arguments and the completed flags. -/
def trackUsage (h : Heap) (node : Nat) (words : List Str) : List Str × List Str :=
  words.foldl (trackWord h node) ([], [])

/-- The Go function `AutoCompleteArgValue`; `argSpec` is `none` for a nil pointer. -/
def AutoCompleteArgValue (argSpec : Option ArgSpec) (argValuePrefix : Str) :
    Except Fault (List Str) :=
  match argSpec with
  | none => .error Fault.nilDereference
  | some spec =>
    match spec.AutoCompleteFunc with
    | some f => .ok (f argValuePrefix)
    | none => .ok (spec.EnumValues.filter (fun value => HasPrefix value argValuePrefix))

/-- The last loop of `AutoComplete`, over the enumerated children of the node. -/
def nameSuggestions (wordToComplete : Str) (completedArgs completedFlags : List Str) :
    ChildMap → Except Fault (List Str)
  | [] => .ok []
  | (key, _) :: rest =>
    if !hasPrefix key wordToComplete then
      nameSuggestions wordToComplete completedArgs completedFlags rest
    else if Contains key sliceSchema then
      match keySuggestion key sliceSchema completedArgs with
      | .error e => .error e
      | .ok s => (nameSuggestions wordToComplete completedArgs completedFlags rest).map (s :: ·)
    else if Contains key mapSchema then
      match keySuggestion key mapSchema completedArgs with
      | .error e => .error e
      | .ok s => (nameSuggestions wordToComplete completedArgs completedFlags rest).map (s :: ·)
    else if key ∈ completedArgs then
      nameSuggestions wordToComplete completedArgs completedFlags rest
    else if key ∈ completedFlags then
      nameSuggestions wordToComplete completedArgs completedFlags rest
    else if isFlag key && wordToComplete = [] then
      nameSuggestions wordToComplete completedArgs completedFlags rest
    else (nameSuggestions wordToComplete completedArgs completedFlags rest).map (key :: ·)

/-- The part of `AutoComplete` after the two loops over the words. -/
def suggest (order : RangeOrder) (commands : List Command) (h : Heap) (node : Nat)
    (completedArgs completedFlags : List Str) (wordToComplete : Str) :
    Except Fault AutocompleteResponse :=
  if isCompletingArgValue wordToComplete then
    match splitArgWord wordToComplete with
    | .error e => .error e
    | .ok (argName, argValuePrefix) =>
      match GetChildMatch order h node argName with
      | .error e => .error e
      | .ok none => .ok { Suggestions := [] }
      | .ok (some argNode) =>
        match AutoCompleteArgValue ((h.node argNode).ArgSpec.bind (argSpecAt commands))
            argValuePrefix with
        | .error e => .error e
        | .ok suggestions => .ok (newAutoCompleteResponse (suggestions.map (argName ++ ·)))
  else
    match nameSuggestions wordToComplete completedArgs completedFlags
        (order (h.children node)) with
    | .error e => .error e
    | .ok suggestions => .ok (newAutoCompleteResponse suggestions)

/-- The Go function `AutoComplete`; the command registry, which the source extracts from the
context, and the enumeration order of the maps are explicit arguments. -/
def AutoComplete (order : RangeOrder) (commands : List Command) (leftWords : List Str)
    (wordToComplete : Str) (rightWords : List Str) : Except Fault AutocompleteResponse :=
  let commandTree := BuildAutoCompleteTree commands
  match locate order commandTree.1 commandTree.2 none leftWords with
  | .error e => .error e
  | .ok none => .ok { Suggestions := [] }
  | .ok (some node) =>
    let completed := trackUsage commandTree.1 node (leftWords ++ rightWords)
    suggest order commands commandTree.1 node completed.1 completed.2 wordToComplete

/-! ## Registries and inputs used as examples -/

/-- An argument spec with enum values and no completion callback. -/
def enumArg (name : String) (values : List String) : ArgSpec :=
  { Name := name.toList, EnumValues := values.map String.toList, AutoCompleteFunc := none }

/-- The command `instance server list` with the given argument specs and no wait mode. -/
def serverList (specs : List ArgSpec) : Command :=
  { Namespace := "instance".toList, Resource := "server".toList, Verb := "list".toList,
    ArgSpecs := specs, WaitFunc := false }

/-- The left words that lead to the node of `instance server list`. -/
def serverListPath : List Str :=
  ["scw".toList, "instance".toList, "server".toList, "list".toList]

/-- The registry of the first scenario: the argument `zone` of `instance server list`. -/
def zoneRegistry : List Command :=
  [serverList [enumArg "zone" ["fr-par-1", "nl-ams-1"]]]

/-- The registry of the first scenario with arbitrary enum values for `zone`. -/
def zoneRegistryWith (values : List Str) : List Command :=
  [serverList [{ Name := "zone".toList, EnumValues := values, AutoCompleteFunc := none }]]

/-- The registry of the second scenario: the free-form repeated argument `tags.{idx}`. -/
def tagsRegistry : List Command := [serverList [enumArg "tags.{idx}" []]]

/-- A registry with an argument that is a list inside a map. -/
def nestedRegistry : List Command := [serverList [enumArg "ip.{key}.tags.{idx}" []]]

/-- A registry with two arguments, the name of one ending with the name of the other. -/
def idRegistry : List Command :=
  [serverList [enumArg "id" ["11"], enumArg "project-id" ["22"]]]

/-- A registry whose only command has a namespace that is a flag with a placeholder. -/
def dashRegistry : List Command :=
  [{ Namespace := "-{idx}".toList, Resource := [], Verb := [], ArgSpecs := [],
     WaitFunc := false }]

/-- The argument key `tags.i=`. -/
def tagKey (i : Nat) : Str := "tags.".toList ++ Itoa i ++ ['=']

/-- The word `tags.i=v`. -/
def tagWord (i : Nat) (v : Str) : Str := "tags.".toList ++ Itoa i ++ '=' :: v

/-! ## Auxiliary notions used in the statements -/

/-- Two commands with the same path, the same argument names and the same wait mode. -/
def Command.sameNames (a b : Command) : Prop :=
  a.Namespace = b.Namespace ∧ a.Resource = b.Resource ∧ a.Verb = b.Verb ∧
    a.ArgSpecs.map (fun s => s.Name) = b.ArgSpecs.map (fun s => s.Name) ∧
    a.WaitFunc = b.WaitFunc

/-- The pattern that `GetChildMatch` builds from a child key. -/
def childPattern (key : Str) : Str :=
  ReplaceAll (ReplaceAll key sliceSchema "[0-9]+".toList) mapSchema "[0-9a-zA-Z-]+".toList

/-- Whether the pattern of a child key matches `name`; `none` when the pattern is outside
the modelled fragment. -/
def keyMatches (key name : Str) : Option Bool :=
  (regexpCompile (childPattern key)).map (fun r => MatchString r name)

/-- The Go call `strings.Join(segs, ".")`. -/
def joinDots : List Str → Str
  | [] => []
  | [s] => s
  | s :: t :: rest => s ++ '.' :: joinDots (t :: rest)

/-- A segment of an argument name: a placeholder, or letters, digits and hyphens only. -/
def IsSegment (seg : Str) : Prop :=
  seg = sliceSchema ∨ seg = mapSchema ∨ ∀ c ∈ seg, isWordChar c = true

/-- The name consists of letters, digits, hyphens, dots and placeholder segments: it is a
list of segments joined by dots. -/
def SegmentedName (name : Str) : Prop :=
  ∃ segs : List Str, (∀ seg ∈ segs, IsSegment seg) ∧ name = joinDots segs

/-- The name contains no placeholder. -/
def PlainName (name : Str) : Prop :=
  Contains name sliceSchema = false ∧ Contains name mapSchema = false

instance (name : Str) : Decidable (PlainName name) := by
  unfold PlainName
  infer_instance

/-- The text of a segment once the placeholder `schema` is replaced by `new`. -/
def segText (schema new seg : Str) : Str := if seg = schema then new else seg

/-- The compiled pattern of a segment in which the placeholder `schema` is a group. -/
def segAtoms (schema seg : Str) : List Atom :=
  if seg = schema then [Atom.group] else seg.map Atom.lit

/-- The compiled pattern of a list of segments joined by dots. -/
def joinAtoms (schema : Str) : List Str → List Atom
  | [] => []
  | [s] => segAtoms schema s
  | s :: t :: rest => segAtoms schema s ++ Atom.any :: joinAtoms schema (t :: rest)

/-- A child key without placeholder, or an argument key made of segments. -/
def KeyOK (key : Str) : Prop :=
  PlainName key ∨ ∃ segs : List Str, (∀ seg ∈ segs, IsSegment seg) ∧ key = joinDots segs ++ ['=']

/-- Every child key of every map object of the heap is without placeholder or is an
argument key made of segments. -/
def Heap.KeysOK (h : Heap) : Prop := ∀ m ∈ h.maps, ∀ e ∈ m, KeyOK e.1

/-- The offset of the end of word `i` when the words are laid out with one separator
between them: `len(words[0]) + ... + len(words[i]) + i`. -/
def wordEnd : List Str → Nat → Int
  | [], _ => 0
  | w :: _, 0 => goLen w
  | w :: rest, i + 1 => goLen w + 1 + wordEnd rest i

/-- The Go call `strings.Split(s, ".")`. -/
def splitDots : Str → List Str
  | [] => [[]]
  | c :: s =>
    if c = '.' then [] :: splitDots s
    else
      match splitDots s with
      | seg :: rest => (c :: seg) :: rest
      | [] => [[c]]

/-- The relation between the segments of a key and the segments of a word: every word
segment but the last equals the key segment at the same place or that key segment is a
placeholder, and the last word segment is a literal prefix of the key segment at the same
place or that key segment begins with a placeholder. -/
def dottedPrefix : List Str → List Str → Bool
  | k :: _, [w] => HasPrefix k w || HasPrefix k sliceSchema || HasPrefix k mapSchema
  | k :: ks, w :: w2 :: ws =>
    (decide (w = k) || decide (k = sliceSchema) || decide (k = mapSchema)) &&
      dottedPrefix ks (w2 :: ws)
  | _, _ => false

/-- Every child key of every map object of the heap satisfies `P`. -/
def Heap.KeysAll (P : Str → Prop) (h : Heap) : Prop := ∀ m ∈ h.maps, ∀ e ∈ m, P e.1

/-- A child key that begins with `-` contains no placeholder. -/
def FlagKeyPlain (key : Str) : Prop := isFlag key = true → PlainName key

/-- The keys of the global flags, in the order in which `addGlobalFlags` attaches them. -/
def globalFlagNames : List Str :=
  ["--access-key".toList, "-D".toList, "--debug".toList, "-h".toList, "--help".toList,
   "-o".toList, "--output".toList, "-p".toList, "--profile".toList, "--secret-key".toList]

/-- The keys of the two wait flags. -/
def waitFlagNames : List Str := ["-w".toList, "--wait".toList]

/-- The keys of all the flags that the tree builder attaches. -/
def flagNames : List Str := globalFlagNames ++ waitFlagNames

/-- The key ends with `=`, as the key of an argument does. -/
def endsEq (key : Str) : Bool := key.getLast? == some '='

/-- A namespace, resource or verb that is neither flag-shaped nor argument-shaped: it does
not begin with `-` and does not end with `=`. -/
def sanePart (part : Str) : Bool := !isFlag part && !endsEq part

/-- The path of a command: its namespace, resource and verb, empty segments skipped. -/
def cmdPath (cmd : Command) : List Str :=
  [cmd.Namespace, cmd.Resource, cmd.Verb].filter (fun part => decide (part ≠ []))

/-- The value nodes that the builder gives to the flag `name`, with their types. -/
def flagValues (name : Str) : List (Str × AutoCompleteNodeType) :=
  if name = "-o".toList ∨ name = "--output".toList then
    [("json".toList, AutoCompleteNodeType.FlagValueConst),
     ("human".toList, AutoCompleteNodeType.FlagValueConst)]
  else if name = "--access-key".toList ∨ name = "--secret-key".toList then
    [(name ++ variableFlagValueSuffix, AutoCompleteNodeType.FlagValueVariable)]
  else []

/-- A place of the tree, described without addresses: the root, the command node at a path
below `scw`, a node that shares the child mapping of the command node at a path (a flag
without value node, or a value node), a flag with value nodes, an argument node. -/
inductive Pos where
  | root
  | cmd (q : List Str)
  | shared (q : List Str) (ty : AutoCompleteNodeType)
  | valued (q : List Str) (name : Str)
  | arg (spec : ArgSpec)

/-- The tree described as functions of the path below `scw`: which paths have a command
node, which flags are attached there, which command and which argument specs. -/
structure ATree where
  present : List Str → Bool
  flags : List Str → Str → Bool
  command : List Str → Option Command
  args : List Str → Str → Option ArgSpec

/-- The child under `key` of the command node at path `q`. -/
def ATree.child (t : ATree) (q : List Str) (key : Str) : Option Pos :=
  if key ∈ flagNames then
    if t.flags q key then
      some (if flagValues key = [] then Pos.shared q AutoCompleteNodeType.Flag
            else Pos.valued q key)
    else none
  else if endsEq key then (t.args q key).map Pos.arg
  else if t.present (q ++ [key]) then some (Pos.cmd (q ++ [key]))
  else none

/-- The child under `key` of a place. -/
def ATree.step (t : ATree) : Pos → Str → Option Pos
  | Pos.root, key => if key = "scw".toList then some (Pos.cmd []) else none
  | Pos.cmd q, key => t.child q key
  | Pos.shared q _, key => t.child q key
  | Pos.valued q name, key => ((flagValues name).lookup key).map (Pos.shared q)
  | Pos.arg _, _ => none

/-- The place reached from a place by a list of keys. -/
def ATree.descend (t : ATree) : Pos → List Str → Option Pos
  | pos, [] => some pos
  | pos, key :: keys =>
    match t.step pos key with
    | none => none
    | some next => t.descend next keys

/-- What is seen at a place: the node type, the attached command, the argument spec. -/
def ATree.view (t : ATree) : Pos → AutoCompleteNodeType × Option Command × Option ArgSpec
  | Pos.root => (AutoCompleteNodeType.Command, none, none)
  | Pos.cmd q => (AutoCompleteNodeType.Command, t.command q, none)
  | Pos.shared _ ty => (ty, none, none)
  | Pos.valued _ _ => (AutoCompleteNodeType.Flag, none, none)
  | Pos.arg spec => (AutoCompleteNodeType.Argument, none, some spec)

/-- A command node appears at path `q`. -/
def ATree.addPos (t : ATree) (q : List Str) : ATree :=
  { t with present := fun x => t.present x || decide (x = q) }

/-- The flags `names` are attached at path `q`. -/
def ATree.setFlags (t : ATree) (q : List Str) (names : List Str) : ATree :=
  { t with flags := fun x key => t.flags x key || (decide (x = q) && decide (key ∈ names)) }

/-- The command `cmd` is attached at path `q`. -/
def ATree.setCommand (t : ATree) (q : List Str) (cmd : Command) : ATree :=
  { t with command := fun x => if x = q then some cmd else t.command x }

/-- The argument `spec` is attached under `key` at path `q`. -/
def ATree.setArg (t : ATree) (q : List Str) (key : Str) (spec : ArgSpec) : ATree :=
  { t with args := fun x k => if x = q ∧ k = key then some spec else t.args x k }

/-- The command nodes along `parts` below path `q`, each with the global flags. -/
def ATree.addPath (t : ATree) : List Str → List Str → ATree
  | _, [] => t
  | q, part :: parts =>
    ATree.addPath ((t.addPos (q ++ [part])).setFlags (q ++ [part]) globalFlagNames)
      (q ++ [part]) parts

/-- The argument specs of a command, attached at path `q`. -/
def ATree.addArgs (t : ATree) (q : List Str) : List ArgSpec → ATree
  | [] => t
  | spec :: rest => ATree.addArgs (t.setArg q (spec.Name ++ "=".toList) spec) q rest

/-- The effect of one command of the registry on the described tree. -/
def ATree.addCommand (t : ATree) (cmd : Command) : ATree :=
  let t := ((t.addPath [] (cmdPath cmd)).setCommand (cmdPath cmd) cmd).addArgs (cmdPath cmd)
    cmd.ArgSpecs
  if cmd.WaitFunc then t.setFlags (cmdPath cmd) waitFlagNames else t

/-- The described tree before the first command: the node `scw` with the global flags. -/
def ATree.base : ATree :=
  { present := fun x => decide (x = []),
    flags := fun x key => decide (x = []) && decide (key ∈ globalFlagNames),
    command := fun _ => none,
    args := fun _ _ => none }

/-- The described tree of a registry. -/
def ATree.build (commands : List Command) : ATree := commands.foldl ATree.addCommand ATree.base

/-- The paths of a described tree are closed under prefix and made of parts that are
neither flag-shaped nor argument-shaped, and nothing is attached where there is no node. -/
structure ATree.WF (t : ATree) : Prop where
  nil : t.present [] = true
  closed : ∀ q part, t.present (q ++ [part]) = true → t.present q = true ∧ sanePart part = true
  supp : ∀ q, t.present q = false →
    t.command q = none ∧ ∀ key, t.flags q key = false ∧ t.args q key = none

/-- The address of the child mapping of the command node at path `q`. -/
def Heap.mapOf (h : Heap) (addr : List Str → Nat) (q : List Str) : Nat :=
  (h.node (addr q)).Children

/-- The map object at `m` is the child mapping of no command node and not the one of the
root. -/
def PrivateMap (h : Heap) (t : ATree) (addr : List Str → Nat) (m : Nat) : Prop :=
  m < h.maps.length ∧ m ≠ 0 ∧ ∀ q, t.present q = true → h.mapOf addr q ≠ m

/-- The node at `c` has type `ty`, no command and no argument spec, and its child mapping is
the one of the command node at path `q`. -/
def SharedOK (h : Heap) (t : ATree) (addr : List Str → Nat) (q : List Str)
    (ty : AutoCompleteNodeType) (c : Nat) : Prop :=
  t.present q = true ∧ c < h.nodes.length ∧ (h.node c).NodeType = ty ∧
    ty ≠ AutoCompleteNodeType.Command ∧ (h.node c).Children = h.mapOf addr q ∧
    (h.node c).Command = none ∧ (h.node c).ArgSpec = none

/-- The entry of a flag's own mapping is a value node of the expected type, or is absent
when no value is expected. -/
def SharedOpt (h : Heap) (t : ATree) (addr : List Str → Nat) (q : List Str) :
    Option AutoCompleteNodeType → Option Nat → Prop
  | some ty, some c => SharedOK h t addr q ty c
  | none, none => True
  | _, _ => False

/-- The node at address `c` of the heap is the place `pos` of the described tree. -/
def Rep (commands : List Command) (h : Heap) (t : ATree) (addr : List Str → Nat) :
    Pos → Nat → Prop
  | Pos.root, c => c = 0
  | Pos.cmd q, c => t.present q = true ∧ c = addr q
  | Pos.shared q ty, c => SharedOK h t addr q ty c
  | Pos.valued q name, c =>
    t.present q = true ∧ c < h.nodes.length ∧
      (h.node c).NodeType = AutoCompleteNodeType.Flag ∧
      (h.node c).Command = none ∧ (h.node c).ArgSpec = none ∧
      PrivateMap h t addr (h.node c).Children ∧
      ∀ key, SharedOpt h t addr q ((flagValues name).lookup key)
        (mapGet (h.maps.getD (h.node c).Children []) key)
  | Pos.arg spec, c =>
    c < h.nodes.length ∧ (h.node c).NodeType = AutoCompleteNodeType.Argument ∧
      (h.node c).Command = none ∧
      (h.node c).ArgSpec.bind (argSpecAt commands) = some spec ∧
      PrivateMap h t addr (h.node c).Children ∧ h.maps.getD (h.node c).Children [] = []

/-- The entry of a child mapping is the expected place, or is absent when no child is
expected. -/
def RepOpt (commands : List Command) (h : Heap) (t : ATree) (addr : List Str → Nat) :
    Option Pos → Option Nat → Prop
  | some pos, some c => Rep commands h t addr pos c
  | none, none => True
  | _, _ => False

/-- The heap holds the described tree: `addr` gives the address of the command node of every
path, the child mappings of the command nodes are pairwise distinct, and every entry of the
child mapping of a command node is the child that the described tree has there. -/
structure Inv (commands : List Command) (h : Heap) (t : ATree) (addr : List Str → Nat) :
    Prop where
  wf : t.WF
  rootNode : (h.node 0).NodeType = AutoCompleteNodeType.Command ∧ (h.node 0).Children = 0 ∧
    (h.node 0).Command = none ∧ (h.node 0).ArgSpec = none
  rootMap : h.maps.getD 0 [] = [("scw".toList, 1)]
  scw : addr [] = 1
  node : ∀ q, t.present q = true →
    addr q < h.nodes.length ∧ addr q ≠ 0 ∧
      (h.node (addr q)).NodeType = AutoCompleteNodeType.Command ∧
      h.mapOf addr q < h.maps.length ∧ h.mapOf addr q ≠ 0 ∧
      (h.node (addr q)).Command.bind commands.get? = t.command q ∧
      (h.node (addr q)).ArgSpec = none
  inj : ∀ q q2, t.present q = true → t.present q2 = true →
    h.mapOf addr q = h.mapOf addr q2 → q = q2
  entries : ∀ q, t.present q = true → ∀ key,
    RepOpt commands h t addr (t.child q key) (mapGet (h.maps.getD (h.mapOf addr q) []) key)

/-- The heap `h2` with the tree `t2` extends the heap `h` with the tree `t`: nodes that are
not command nodes, the child mapping address of every node, the map objects that are the
child mapping of no command node, and the addresses of the command nodes are kept. -/
structure Grows (h : Heap) (t : ATree) (addr : List Str → Nat) (h2 : Heap) (t2 : ATree)
    (addr2 : List Str → Nat) : Prop where
  nodesLen : h.nodes.length ≤ h2.nodes.length
  mapsLen : h.maps.length ≤ h2.maps.length
  nodeEq : ∀ p, p < h.nodes.length → (h.node p).NodeType ≠ AutoCompleteNodeType.Command →
    h2.node p = h.node p
  children : ∀ p, p < h.nodes.length → (h2.node p).Children = (h.node p).Children
  mapEq : ∀ m, PrivateMap h t addr m → h2.maps.getD m [] = h.maps.getD m []
  present : ∀ q, t.present q = true → t2.present q = true ∧ addr2 q = addr q
  fresh : ∀ q, t2.present q = true → t.present q = false → h.maps.length ≤ h2.mapOf addr2 q

/-- The heap after the creation of the root and of the node `scw`. -/
def startHeap : Heap :=
  (GetChildOrCreate (NewAutoCompleteNode { nodes := [], maps := [] }).1 0 "scw".toList).1

/-- The described tree after the creation of the node `scw`: nothing is attached yet. -/
def ATree.start : ATree :=
  { present := fun x => decide (x = []),
    flags := fun _ _ => false,
    command := fun _ => none,
    args := fun _ _ => none }

/-- The node reached from a node by a list of child keys. -/
def descend (h : Heap) : Nat → List Str → Option Nat
  | n, [] => some n
  | n, key :: keys =>
    match mapGet (h.children n) key with
    | none => none
    | some c => descend h c keys

/-- What is seen at a node: its type, the command attached to it and its argument spec. -/
def nodeView (commands : List Command) (h : Heap) (n : Nat) :
    AutoCompleteNodeType × Option Command × Option ArgSpec :=
  ((h.node n).NodeType, (h.node n).Command.bind commands.get?,
    (h.node n).ArgSpec.bind (argSpecAt commands))

/-- What is seen in the tree of a registry at the end of a list of child keys from the
root; `none` when the keys lead nowhere. -/
def viewAt (commands : List Command) (path : List Str) :
    Option (AutoCompleteNodeType × Option Command × Option ArgSpec) :=
  (descend (BuildAutoCompleteTree commands).1 (BuildAutoCompleteTree commands).2 path).map
    (nodeView commands (BuildAutoCompleteTree commands).1)

/-- The path `x` is one of the paths `q ++ [p1]`, `q ++ [p1, p2]`, ... along `parts`. -/
def onPath : List Str → List Str → List Str → Bool
  | _, [], _ => false
  | q, part :: parts, x => decide (x = q ++ [part]) || onPath (q ++ [part]) parts x

/-- The argument specs under the keys of a command node after the specs `specs` are
attached: a later spec replaces an earlier one with the same name. -/
def argsAfter : List ArgSpec → (Str → Option ArgSpec) → Str → Option ArgSpec
  | [], f => f
  | spec :: rest, f =>
    argsAfter rest (fun key => if key = spec.Name ++ "=".toList then some spec else f key)

/-- The node at `n` has under `key` a child of type `ty`. -/
def HasChild (h : Heap) (n : Nat) (key : Str) (ty : AutoCompleteNodeType) : Prop :=
  ∃ c, mapGet (h.children n) key = some c ∧ (h.node c).NodeType = ty

/-- A registry in which a resource is named like the key of an argument of the command
that is one level up. -/
def eqRegistry : List Command :=
  [{ Namespace := "a".toList, Resource := "b=".toList, Verb := [], ArgSpecs := [],
     WaitFunc := false },
   { Namespace := "a".toList, Resource := [], Verb := [], ArgSpecs := [enumArg "b" []],
     WaitFunc := false }]

/-- The registry `eqRegistry` with its two commands exchanged. -/
def eqRegistrySwapped : List Command :=
  [{ Namespace := "a".toList, Resource := [], Verb := [], ArgSpecs := [enumArg "b" []],
     WaitFunc := false },
   { Namespace := "a".toList, Resource := "b=".toList, Verb := [], ArgSpecs := [],
     WaitFunc := false }]

/-- A registry of two commands with distinct triples that end at the same node: `a b` as
namespace and verb, and `a b` as namespace and resource. -/
def verbRegistry : List Command :=
  [{ Namespace := "a".toList, Resource := [], Verb := "b".toList, ArgSpecs := [],
     WaitFunc := false },
   { Namespace := "a".toList, Resource := "b".toList, Verb := [], ArgSpecs := [],
     WaitFunc := false }]

/-- The registry `verbRegistry` with its two commands exchanged. -/
def verbRegistrySwapped : List Command :=
  [{ Namespace := "a".toList, Resource := "b".toList, Verb := [], ArgSpecs := [],
     WaitFunc := false },
   { Namespace := "a".toList, Resource := [], Verb := "b".toList, ArgSpecs := [],
     WaitFunc := false }]

/-- The command `instance server get`, with a wait mode and no argument. -/
def serverGet : Command :=
  { Namespace := "instance".toList, Resource := "server".toList, Verb := "get".toList,
    ArgSpecs := [], WaitFunc := true }

/-- A registry of two commands that share the path `instance server`. -/
def twoRegistry : List Command := [serverList [enumArg "zone" ["fr-par-1", "nl-ams-1"]], serverGet]

/-- The registry `twoRegistry` with its two commands exchanged. -/
def twoRegistrySwapped : List Command :=
  [serverGet, serverList [enumArg "zone" ["fr-par-1", "nl-ams-1"]]]

/-- The heap `h2` comes from the heap `h` by steps at the node `n`: the other nodes are
kept, the node `n` keeps its child mapping and its type, and among the map objects of `h`
only the child mapping of `n` may differ. -/
structure Pres (h h2 : Heap) (n : Nat) : Prop where
  nodesLen : h.nodes.length ≤ h2.nodes.length
  mapsLen : h.maps.length ≤ h2.maps.length
  nodeEq : ∀ p, p < h.nodes.length → p ≠ n → h2.node p = h.node p
  self : (h2.node n).Children = (h.node n).Children ∧ (h2.node n).NodeType = (h.node n).NodeType
  mapEq : ∀ k, k < h.maps.length → k ≠ (h.node n).Children →
    h2.maps.getD k [] = h.maps.getD k []

/-- The heap before the first command: the root and the node `scw` with the global flags. -/
def baseHeap : Heap := addGlobalFlags startHeap 1

/-- A command that only has a namespace. -/
def nsCommand (ns : Str) (wait : Bool) : Command :=
  { Namespace := ns, Resource := [], Verb := [], ArgSpecs := [], WaitFunc := wait }

/-- The contribution of one child key to the name-completion loop: a fault, nothing, or one
suggestion. -/
def keyEntry (wordToComplete : Str) (completedArgs completedFlags : List Str) (key : Str) :
    Except Fault (Option Str) :=
  if !hasPrefix key wordToComplete then .ok none
  else if Contains key sliceSchema then
    match keySuggestion key sliceSchema completedArgs with
    | .error e => .error e
    | .ok s => .ok (some s)
  else if Contains key mapSchema then
    match keySuggestion key mapSchema completedArgs with
    | .error e => .error e
    | .ok s => .ok (some s)
  else if key ∈ completedArgs then .ok none
  else if key ∈ completedFlags then .ok none
  else if isFlag key && wordToComplete = [] then .ok none
  else .ok (some key)

/-- Every map object of the heap satisfies `P`. -/
def Heap.MapsAll (P : ChildMap → Prop) (h : Heap) : Prop := ∀ m ∈ h.maps, P m

/-- The keys of a map object are pairwise distinct. -/
def KeysNodup (m : ChildMap) : Prop := (m.map Prod.fst).Nodup

/-- A registry in which the command `x`, with the free-form repeated argument `tags.{idx}`,
has the sub-command `x y`. -/
def subRegistry : List Command :=
  [{ Namespace := "x".toList, Resource := [], Verb := [], ArgSpecs := [enumArg "tags.{idx}" []],
     WaitFunc := false },
   { Namespace := "x".toList, Resource := "y".toList, Verb := [], ArgSpecs := [],
     WaitFunc := false }]

/-! ## Theorems -/

/-- Claim C3, evaluated on the code: for the key `tags.{idx}=` and the completed arguments
`{mytags.0=}` the function `keySuggestion` returns `tags.1=`, although `tags.0=` is not a
completed argument: the pattern built from the key is searched for anywhere in a completed
argument, so the index of `mytags.0=` counts as used. -/
theorem C3_keySuggestion_counts_other_argument :
    keySuggestion "tags.{idx}=".toList sliceSchema ["mytags.0=".toList] = .ok "tags.1=".toList ∧
      "tags.0=".toList ∉ ["mytags.0=".toList] := by
  decide!

set_option maxRecDepth 100000 in
/-- Claim C5, evaluated on the code: completing `xzone=fr` on `instance server list`, whose
only argument is `zone`, returns the suggestion `xzone=fr-par-1` and not the empty set: the
pattern `zone=` is found inside `xzone=`. -/
theorem C5_unknown_argument_completed :
    AutoComplete id zoneRegistry serverListPath "xzone=fr".toList [] =
      .ok { Suggestions := ["xzone=fr-par-1".toList] } := by
  decide!

set_option maxRecDepth 100000 in
/-- Claim C6, evaluated on the code: when the child matching the typed name is a flag or a
command, `AutoCompleteArgValue` reads the callback through the nil `ArgSpec` of that child
and the program fails, for `-o=js` and `--output=` at a command node and for `instance=` at
the top-level node. -/
theorem C6_non_argument_child_fails :
    AutoComplete id zoneRegistry serverListPath "-o=js".toList [] =
        .error Fault.nilDereference ∧
      AutoComplete id zoneRegistry serverListPath "--output=".toList [] =
        .error Fault.nilDereference ∧
      AutoComplete id zoneRegistry ["scw".toList] "instance=".toList [] =
        .error Fault.nilDereference := by
  decide!

set_option maxRecDepth 100000 in
/-- Claim C8, evaluated on the code: for the argument `ip.{key}.tags.{idx}` the name
completion of `ip.` returns `ip.{key}.tags.0=`, a suggestion that still contains the raw
map-key placeholder: only the list-index placeholder of the key has been replaced. -/
theorem C8_suggestion_keeps_placeholder :
    AutoComplete id nestedRegistry serverListPath "ip.".toList [] =
        .ok { Suggestions := ["ip.{key}.tags.0=".toList] } ∧
      Contains "ip.{key}.tags.0=".toList mapSchema = true := by
  decide!

set_option maxRecDepth 100000 in
/-- Claim C10, evaluated on the code: with the arguments `id` and `project-id`, the value
completion of `project-id=` depends on the order in which the children of the node are
enumerated, because both keys match the name and `GetChildMatch` returns the first one. -/
theorem C10_result_depends_on_enumeration_order :
    RangeOrder.Valid id ∧ RangeOrder.Valid List.reverse ∧
      AutoComplete id idRegistry serverListPath "project-id=".toList [] =
        .ok { Suggestions := ["project-id=11".toList] } ∧
      AutoComplete List.reverse idRegistry serverListPath "project-id=".toList [] =
        .ok { Suggestions := ["project-id=22".toList] } := by
  refine ⟨fun m => List.Perm.refl m, fun m => List.reverse_perm m, ?_, ?_⟩ <;> decide!

/-! ### Sorting -/

theorem char_eq_of_toNat_eq {c d : Char} (h : c.toNat = d.toNat) : c = d := by
  apply Char.ext
  apply UInt32.ext
  exact h

theorem strLe_nil (b : Str) : strLe [] b = true := by
  cases b <;> rfl

theorem strLe_total : ∀ a b : Str, strLe a b = true ∨ strLe b a = true
  | [], b => Or.inl (strLe_nil b)
  | _ :: _, [] => Or.inr rfl
  | c :: s, d :: t => by
    rcases Nat.lt_trichotomy c.toNat d.toNat with h | h | h
    · left; simp [strLe, h]
    · have hcd : c = d := char_eq_of_toNat_eq h
      subst hcd
      rcases strLe_total s t with h2 | h2
      · left; simp [strLe, h2]
      · right; simp [strLe, h2]
    · right; simp [strLe, h]

theorem strLe_trans : ∀ a b c : Str, strLe a b = true → strLe b c = true → strLe a c = true
  | [], _, c, _, _ => strLe_nil c
  | _ :: _, [], _, h, _ => by simp [strLe] at h
  | _ :: _, _ :: _, [], _, h => by simp [strLe] at h
  | x :: a, y :: b, z :: c, h1, h2 => by
    simp only [strLe, Bool.or_eq_true, decide_eq_true_eq, Bool.and_eq_true, beq_iff_eq] at h1 h2 ⊢
    rcases h1 with h1 | ⟨h1, h1'⟩
    · rcases h2 with h2 | ⟨h2, _⟩
      · left; omega
      · subst h2; left; exact h1
    · subst h1
      rcases h2 with h2 | ⟨h2, h2'⟩
      · left; exact h2
      · subst h2; right; exact ⟨rfl, strLe_trans a b c h1' h2'⟩

theorem sortStrings_sorted (l : List Str) :
    (sortStrings l).Sorted (fun a b => strLe a b = true) :=
  @List.sorted_insertionSort Str (fun a b => strLe a b = true) _
    ⟨strLe_total⟩ ⟨strLe_trans⟩ l

theorem mem_sortStrings {l : List Str} {x : Str} : x ∈ sortStrings l ↔ x ∈ l :=
  List.mem_insertionSort _

/-- Claim C9: whenever `AutoComplete` returns a response, in value completion as in name
completion, its list of suggestions is in ascending lexicographic order. -/
theorem C9_suggestions_sorted (order : RangeOrder) (commands : List Command)
    (leftWords : List Str) (wordToComplete : Str) (rightWords : List Str)
    (r : AutocompleteResponse)
    (h : AutoComplete order commands leftWords wordToComplete rightWords = .ok r) :
    r.Suggestions.Sorted (fun a b => strLe a b = true) := by
  unfold AutoComplete at h
  simp only at h
  split at h
  · cases h
  · cases h; exact List.sorted_nil
  · unfold suggest at h
    split at h
    · split at h
      · cases h
      · split at h
        · cases h
        · cases h; exact List.sorted_nil
        · split at h
          · cases h
          · cases h; exact sortStrings_sorted _
    · split at h
      · cases h
      · cases h; exact sortStrings_sorted _

set_option maxRecDepth 100000 in
/-- The sortedness theorem applied to the completion of `-` on `instance server list`. -/
theorem C9_suggestions_sorted_witness :
    List.Sorted (fun a b => strLe a b = true)
      ["--access-key".toList, "--debug".toList, "--help".toList, "--output".toList,
       "--profile".toList, "--secret-key".toList, "-D".toList, "-h".toList, "-o".toList,
       "-p".toList] :=
  C9_suggestions_sorted id zoneRegistry serverListPath "-".toList []
    { Suggestions := ["--access-key".toList, "--debug".toList, "--help".toList,
        "--output".toList, "--profile".toList, "--secret-key".toList, "-D".toList,
        "-h".toList, "-o".toList, "-p".toList] }
    (by decide!)

/-! ### The tree depends on the names of the registry only -/

theorem addArgSpecs_congr (node i : Nat) :
    ∀ (l1 l2 : List ArgSpec) (h : Heap) (j : Nat),
      l1.map (fun s => s.Name) = l2.map (fun s => s.Name) →
      addArgSpecs node i h j l1 = addArgSpecs node i h j l2
  | [], [], _, _, _ => rfl
  | [], _ :: _, _, _, e => by simp at e
  | _ :: _, [], _, _, e => by simp at e
  | a :: l1, b :: l2, h, j, e => by
    simp only [List.map_cons, List.cons.injEq] at e
    simp only [addArgSpecs, e.1]
    exact addArgSpecs_congr node i l1 l2 _ _ e.2

theorem addCommand_congr (h : Heap) (scw i : Nat) {a b : Command} (e : a.sameNames b) :
    addCommand h scw i a = addCommand h scw i b := by
  obtain ⟨e1, e2, e3, e4, e5⟩ := e
  simp only [addCommand, e1, e2, e3, e5, addArgSpecs_congr _ _ a.ArgSpecs b.ArgSpecs _ _ e4]

theorem addCommands_congr (scw : Nat) :
    ∀ (l1 l2 : List Command) (h : Heap) (i : Nat), List.Forall₂ Command.sameNames l1 l2 →
      addCommands scw h i l1 = addCommands scw h i l2
  | _, _, _, _, List.Forall₂.nil => rfl
  | _, _, h, i, List.Forall₂.cons e es => by
    simp only [addCommands, addCommand_congr h scw i e]
    exact addCommands_congr scw _ _ _ _ es

theorem BuildAutoCompleteTree_congr {l1 l2 : List Command}
    (e : List.Forall₂ Command.sameNames l1 l2) :
    BuildAutoCompleteTree l1 = BuildAutoCompleteTree l2 := by
  simp only [BuildAutoCompleteTree, addCommands_congr _ l1 l2 _ _ e]

/-! ### The enumeration order of a map -/

theorem all_perm {α : Type} {l1 l2 : List α} (p : α → Bool) (h : l1.Perm l2) :
    l1.all p = l2.all p := by
  rw [Bool.eq_iff_iff, List.all_eq_true, List.all_eq_true]
  constructor
  · intro H x hx; exact H x (h.mem_iff.mpr hx)
  · intro H x hx; exact H x (h.mem_iff.mp hx)

theorem isLeafCommand_order {order : RangeOrder} (hv : order.Valid) (h : Heap) (n : Nat) :
    isLeafCommand order h n = isLeafCommand id h n := by
  unfold isLeafCommand
  rw [all_perm _ (hv (h.children n))]
  rfl

theorem locate_order {order : RangeOrder} (hv : order.Valid) (h : Heap) :
    ∀ (ws : List Str) (n : Nat) (prev : Option Str),
      locate order h n prev ws = locate id h n prev ws
  | [], _, _ => rfl
  | w :: ws, n, prev => by
    simp only [locate, isLeafCommand_order hv, locate_order hv h ws]

theorem getChildMatchLoop_eq_some (name : Str) (c : Nat) :
    ∀ m : ChildMap,
      (∀ e ∈ m, keyMatches e.1 name ≠ none) →
      (∀ e ∈ m, keyMatches e.1 name = some true → e.2 = c) →
      (∃ e ∈ m, keyMatches e.1 name = some true) →
      getChildMatchLoop name m = .ok (some c)
  | [], _, _, hex => by simp at hex
  | (key, child) :: rest, hc, hall, hex => by
    have h1 := hc (key, child) (List.mem_cons_self _ _)
    have h2 := hall (key, child) (List.mem_cons_self _ _)
    simp only [keyMatches, childPattern] at h1 h2
    simp only [getChildMatchLoop]
    cases hr : regexpCompile
        (ReplaceAll (ReplaceAll key sliceSchema "[0-9]+".toList) mapSchema
          "[0-9a-zA-Z-]+".toList) with
    | none => rw [hr] at h1; exact absurd rfl h1
    | some r =>
      simp only [hr, Option.map_some', Option.some.injEq] at h2
      by_cases hm : MatchString r name = true
      · simp only [hm, if_true]
        rw [h2 hm]
      · simp only [hm]
        apply getChildMatchLoop_eq_some name c rest
        · intro e he; exact hc e (List.mem_cons_of_mem _ he)
        · intro e he; exact hall e (List.mem_cons_of_mem _ he)
        · obtain ⟨e, he, hem⟩ := hex
          rcases List.mem_cons.mp he with rfl | he'
          · simp only [keyMatches, childPattern, hr, Option.map_some', Option.some.injEq] at hem
            exact absurd hem hm
          · exact ⟨e, he', hem⟩

theorem GetChildMatch_eq_some {order : RangeOrder} (hv : order.Valid) (h : Heap) (n : Nat)
    (name : Str) (c : Nat)
    (hc : ∀ e ∈ h.children n, keyMatches e.1 name ≠ none)
    (hall : ∀ e ∈ h.children n, keyMatches e.1 name = some true → e.2 = c)
    (hex : ∃ e ∈ h.children n, keyMatches e.1 name = some true) :
    GetChildMatch order h n name = .ok (some c) := by
  have hp := hv (h.children n)
  apply getChildMatchLoop_eq_some
  · intro e he; exact hc e (hp.mem_iff.mp he)
  · intro e he; exact hall e (hp.mem_iff.mp he)
  · obtain ⟨e, he, hem⟩ := hex
    exact ⟨e, hp.mem_iff.mpr he, hem⟩

/-! ### Value completion on `instance server list` -/

theorem splitFirst_append_eq (l r : Str) (hl : '=' ∉ l) :
    splitFirst '=' (l ++ '=' :: r) = some (l, r) := by
  induction l with
  | nil => simp [splitFirst]
  | cons c l ih =>
    simp only [List.mem_cons, not_or] at hl
    have hc : c ≠ '=' := fun h => hl.1 h.symm
    simp [splitFirst, hc, ih hl.2]

set_option maxRecDepth 100000 in
theorem zoneRegistry_located :
    locate id (BuildAutoCompleteTree zoneRegistry).1 (BuildAutoCompleteTree zoneRegistry).2 none
      serverListPath = .ok (some 52) := by
  decide!

set_option maxRecDepth 100000 in
theorem zoneRegistry_zone_child :
    (∀ e ∈ (BuildAutoCompleteTree zoneRegistry).1.children 52,
        keyMatches e.1 "zone=".toList ≠ none) ∧
      (∀ e ∈ (BuildAutoCompleteTree zoneRegistry).1.children 52,
        keyMatches e.1 "zone=".toList = some true → e.2 = 69) ∧
      (∃ e ∈ (BuildAutoCompleteTree zoneRegistry).1.children 52,
        keyMatches e.1 "zone=".toList = some true) ∧
      ((BuildAutoCompleteTree zoneRegistry).1.node 69).ArgSpec = some (0, 0) := by
  decide!

/-- Claim C2: on the registry whose only command is `instance server list` with the single
argument `zone`, with enum values `values` and no completion callback, for every
enumeration order, for left words that lead to the node of that command, and for every value
prefix `p`, completing `zone=p` returns exactly the sorted list of `zone=v` for the enum
values `v` that have `p` as a literal prefix. -/
theorem C2_value_completion_from_enum (order : RangeOrder) (hv : order.Valid)
    (values : List Str) (leftWords : List Str) (p : Str) (rightWords : List Str)
    (hleft : locate order (BuildAutoCompleteTree (zoneRegistryWith values)).1
        (BuildAutoCompleteTree (zoneRegistryWith values)).2 none leftWords =
      locate order (BuildAutoCompleteTree (zoneRegistryWith values)).1
        (BuildAutoCompleteTree (zoneRegistryWith values)).2 none serverListPath) :
    AutoComplete order (zoneRegistryWith values) leftWords ("zone=".toList ++ p) rightWords =
      .ok { Suggestions := (sortStrings
        ((values.filter (fun v => HasPrefix v p)).map (fun v => "zone=".toList ++ v))) } := by
  have hT : BuildAutoCompleteTree (zoneRegistryWith values) = BuildAutoCompleteTree zoneRegistry :=
    BuildAutoCompleteTree_congr
      (List.Forall₂.cons ⟨rfl, rfl, rfl, rfl, rfl⟩ List.Forall₂.nil)
  rw [hT, locate_order hv, locate_order hv, zoneRegistry_located] at hleft
  obtain ⟨hc, hall, hex, hspec⟩ := zoneRegistry_zone_child
  have hsplit : splitFirst '=' ("zone=".toList ++ p) = some ("zone".toList, p) :=
    splitFirst_append_eq "zone".toList p (by decide)
  have hget := GetChildMatch_eq_some hv _ 52 "zone=".toList 69 hc hall hex
  unfold AutoComplete
  simp only [hT, locate_order hv, hleft]
  unfold suggest
  simp only [isCompletingArgValue, splitArgWord, hsplit, Option.isSome_some, if_true]
  have hname : "zone".toList ++ "=".toList = "zone=".toList := by decide
  rw [hname, hget]
  simp only [hspec, Option.bind, argSpecAt, zoneRegistryWith, serverList, List.get?,
    AutoCompleteArgValue, newAutoCompleteResponse]

set_option maxRecDepth 100000 in
/-- The scenario of the spec: with the enum values `fr-par-1` and `nl-ams-1`, completing
`zone=fr` after `scw instance server list` returns `zone=fr-par-1`. -/
theorem C2_value_completion_from_enum_witness :
    AutoComplete id zoneRegistry serverListPath "zone=fr".toList [] =
      .ok { Suggestions := ["zone=fr-par-1".toList] } :=
  (C2_value_completion_from_enum id (fun m => List.Perm.refl m)
    ["fr-par-1".toList, "nl-ams-1".toList] serverListPath "fr".toList [] rfl).trans
    (by decide!)

/-! ### The cursor locator -/

theorem locate_append (order : RangeOrder) (h : Heap) :
    ∀ (pre : List Str) (n : Nat) (prev : Option Str) (rest : List Str),
      locate order h n prev (pre ++ rest) =
        match locate order h n prev pre with
        | .ok (some n') => locate order h n' ((pre.getLast?).or prev) rest
        | r => r
  | [], n, prev, rest => by simp [locate]
  | w :: pre, n, prev, rest => by
    have hlast : ((w :: pre).getLast?).or prev = (pre.getLast?).or (some w) := by
      cases pre with
      | nil => rfl
      | cons a l =>
        rw [List.getLast?_cons_cons, List.getLast?_eq_getLast _ (List.cons_ne_nil a l)]
        rfl
    simp only [List.cons_append, locate, hlast]
    split
    · split
      · exact locate_append order h pre _ _ rest
      · split
        · rfl
        · split
          · exact locate_append order h pre _ _ rest
          · rfl
    · split
      · exact locate_append order h pre _ _ rest
      · exact locate_append order h pre _ _ rest

set_option maxRecDepth 100000 in
/-- Claim C1, refuted on the code at two inputs. With the single left word `bogus`, which is
not a child of the tree root, the locator reads `leftWords[i-1]` at `i = 0` and the program
fails. With the left words `scw --access-key XYZ`, the locator meets `XYZ` at the flag node
`--access-key`, which is not a leaf command and has no child `XYZ`, yet the response is not
empty: the word is taken as the value of the flag. -/
theorem C1_counterexample :
    AutoComplete id [] ["bogus".toList] [] [] = .error Fault.indexOutOfRange ∧
      locate id (BuildAutoCompleteTree zoneRegistry).1 (BuildAutoCompleteTree zoneRegistry).2
        none ["scw".toList, "--access-key".toList] = .ok (some 2) ∧
      mapGet ((BuildAutoCompleteTree zoneRegistry).1.children 2) "XYZ".toList = none ∧
      isLeafCommand id (BuildAutoCompleteTree zoneRegistry).1 2 = false ∧
      AutoComplete id zoneRegistry ["scw".toList, "--access-key".toList, "XYZ".toList] [] [] =
        .ok { Suggestions := ["instance".toList] } := by
  decide!

/-- Claim C1 as amended: whenever the locator, having consumed the left words up to
`previousWord`, stands at a node that is not a leaf command and meets a left word that is
neither a child of that node nor the value of a free-form flag (`previousWord` followed by
`-value` is not a child of the node), `AutoComplete` returns the empty suggestion set. -/
theorem C1_unresolved_word_gives_empty (order : RangeOrder) (commands : List Command)
    (pre : List Str) (previousWord word : Str) (post : List Str) (wordToComplete : Str)
    (rightWords : List Str) (node : Nat)
    (hpre : locate order (BuildAutoCompleteTree commands).1 (BuildAutoCompleteTree commands).2
      none (pre ++ [previousWord]) = .ok (some node))
    (hchild : mapGet ((BuildAutoCompleteTree commands).1.children node) word = none)
    (hleaf : isLeafCommand order (BuildAutoCompleteTree commands).1 node = false)
    (hvalue : mapGet ((BuildAutoCompleteTree commands).1.children node)
      (previousWord ++ variableFlagValueSuffix) = none) :
    AutoComplete order commands (pre ++ previousWord :: word :: post) wordToComplete
      rightWords = .ok { Suggestions := [] } := by
  have hsplit : pre ++ previousWord :: word :: post = (pre ++ [previousWord]) ++ word :: post := by
    simp
  have hloc : locate order (BuildAutoCompleteTree commands).1 (BuildAutoCompleteTree commands).2
      none (pre ++ previousWord :: word :: post) = .ok none := by
    rw [hsplit, locate_append, hpre]
    simp [locate, hchild, hleaf, hvalue]
  unfold AutoComplete
  simp only [hloc]

set_option maxRecDepth 100000 in
/-- The amended claim applied to the left words `scw bogus`: the node `scw` has the child
command `instance`, so it is not a leaf command, and `bogus` is not one of its children. -/
theorem C1_unresolved_word_gives_empty_witness :
    AutoComplete id zoneRegistry ["scw".toList, "bogus".toList, "list".toList] "z".toList [] =
      .ok { Suggestions := [] } :=
  C1_unresolved_word_gives_empty id zoneRegistry [] "scw".toList "bogus".toList
    ["list".toList] "z".toList [] 1 (by decide!) (by decide!) (by decide!) (by decide!)

/-! ### Decimal numerals -/

theorem toDigitsCore_append (fuel : Nat) :
    ∀ (n : Nat) (ds : List Char),
      Nat.toDigitsCore 10 fuel n ds = Nat.toDigitsCore 10 fuel n [] ++ ds := by
  induction fuel with
  | zero => intro n ds; rfl
  | succ fuel ih =>
    intro n ds
    simp only [Nat.toDigitsCore]
    split
    · rfl
    · rw [ih (n / 10) (Nat.digitChar (n % 10) :: ds), ih (n / 10) [Nat.digitChar (n % 10)]]
      simp

theorem toDigitsCore_fuel (fuel1 : Nat) :
    ∀ (fuel2 n : Nat) (ds : List Char), n < fuel1 → n < fuel2 →
      Nat.toDigitsCore 10 fuel1 n ds = Nat.toDigitsCore 10 fuel2 n ds := by
  induction fuel1 with
  | zero => intro fuel2 n ds h; omega
  | succ fuel1 ih =>
    intro fuel2 n ds h1 h2
    cases fuel2 with
    | zero => omega
    | succ fuel2 =>
      simp only [Nat.toDigitsCore]
      split
      · rfl
      · apply ih <;> omega

theorem Itoa_small {n : Nat} (h : n < 10) : Itoa n = [Nat.digitChar n] := by
  have h0 : n / 10 = 0 := by omega
  have h1 : n % 10 = n := by omega
  simp [Itoa, Nat.toDigits, Nat.toDigitsCore, h0, h1]

theorem Itoa_big {n : Nat} (h : 10 ≤ n) :
    Itoa n = Itoa (n / 10) ++ [Nat.digitChar (n % 10)] := by
  have h0 : n / 10 ≠ 0 := by omega
  have e1 : Itoa n = Nat.toDigitsCore 10 n (n / 10) [Nat.digitChar (n % 10)] := by
    simp only [Itoa, Nat.toDigits, Nat.toDigitsCore, h0, if_false]
  rw [e1, toDigitsCore_append, toDigitsCore_fuel n (n / 10 + 1) (n / 10) [] (by omega) (by omega)]
  rfl

theorem digitChar_isDigit : ∀ d : Nat, d < 10 → isDigit (Nat.digitChar d) = true := by
  decide

theorem digitChar_inj : ∀ a : Nat, a < 10 → ∀ b : Nat, b < 10 →
    Nat.digitChar a = Nat.digitChar b → a = b := by
  decide

theorem Itoa_ne_nil (n : Nat) : Itoa n ≠ [] := by
  by_cases h : n < 10
  · rw [Itoa_small h]; simp
  · rw [Itoa_big (n := n) (by omega)]; simp

theorem Itoa_digits : ∀ (n : Nat) (c : Char), c ∈ Itoa n → isDigit c = true := by
  intro n
  induction n using Nat.strong_induction_on with
  | _ n ih =>
    intro c hc
    by_cases h : n < 10
    · rw [Itoa_small h] at hc
      simp only [List.mem_singleton] at hc
      rw [hc]; exact digitChar_isDigit n h
    · rw [Itoa_big (n := n) (by omega)] at hc
      rcases List.mem_append.mp hc with hc | hc
      · exact ih (n / 10) (by omega) c hc
      · simp only [List.mem_singleton] at hc
        rw [hc]; exact digitChar_isDigit _ (Nat.mod_lt _ (by omega))

theorem Itoa_injective : ∀ a b : Nat, Itoa a = Itoa b → a = b := by
  intro a
  induction a using Nat.strong_induction_on with
  | _ a ih =>
    intro b hab
    by_cases ha : a < 10 <;> by_cases hb : b < 10
    · rw [Itoa_small ha, Itoa_small hb] at hab
      exact digitChar_inj a ha b hb (List.singleton_inj.mp hab)
    · rw [Itoa_small ha, Itoa_big (n := b) (by omega)] at hab
      have := congrArg List.length hab
      have hlen : 0 < (Itoa (b / 10)).length := List.length_pos.mpr (Itoa_ne_nil _)
      simp only [List.length_append, List.length_singleton] at this
      omega
    · rw [Itoa_big (n := a) (by omega), Itoa_small hb] at hab
      have := congrArg List.length hab
      have hlen : 0 < (Itoa (a / 10)).length := List.length_pos.mpr (Itoa_ne_nil _)
      simp only [List.length_append, List.length_singleton] at this
      omega
    · rw [Itoa_big (n := a) (by omega), Itoa_big (n := b) (by omega)] at hab
      have h1 := List.append_inj' hab rfl
      have h2 := ih (a / 10) (by omega) (b / 10) h1.1
      have h3 := digitChar_inj _ (Nat.mod_lt a (by omega)) _ (Nat.mod_lt b (by omega))
        (List.singleton_inj.mp h1.2)
      omega

/-! ### Replacing a placeholder in a key made of segments -/

theorem HasPrefix_append (old s : Str) : HasPrefix (old ++ s) old = true := by
  induction old with
  | nil => cases s <;> rfl
  | cons c old ih => simp [HasPrefix, ih]

theorem replaceAllAux_skip (old new : Str) :
    ∀ (pre s : Str), replaceAllAux old new pre.length (pre ++ s) = replaceAllAux old new 0 s
  | [], s => rfl
  | c :: pre, s => by
    simp only [List.length_cons, List.cons_append, replaceAllAux]
    exact replaceAllAux_skip old new pre s

theorem replaceAllAux_old (o : Char) (os new s : Str) :
    replaceAllAux (o :: os) new 0 (o :: os ++ s) = new ++ replaceAllAux (o :: os) new 0 s := by
  have h := HasPrefix_append (o :: os) s
  rw [List.cons_append] at h ⊢
  rw [replaceAllAux, if_pos h]
  simp only [List.length_cons, Nat.add_sub_cancel]
  rw [replaceAllAux_skip]

theorem replaceAllAux_cons_ne (o : Char) (os new : Str) (c : Char) (s : Str) (h : c ≠ o) :
    replaceAllAux (o :: os) new 0 (c :: s) = c :: replaceAllAux (o :: os) new 0 s := by
  simp [replaceAllAux, HasPrefix, h]

theorem replaceAllAux_block_ne (o : Char) (os new : Str) :
    ∀ (seg s : Str), (∀ c ∈ seg, c ≠ o) →
      replaceAllAux (o :: os) new 0 (seg ++ s) = seg ++ replaceAllAux (o :: os) new 0 s
  | [], _, _ => rfl
  | c :: seg, s, h => by
    rw [List.cons_append, replaceAllAux_cons_ne o os new c _ (h c (List.mem_cons_self _ _)),
      replaceAllAux_block_ne o os new seg s (fun x hx => h x (List.mem_cons_of_mem _ hx))]
    rfl

theorem wordChar_ne_brace {c : Char} (h : isWordChar c = true) : c ≠ '{' := by
  intro e; subst e; revert h; decide

theorem wordChar_ne_paren {c : Char} (h : isWordChar c = true) : c ≠ '(' := by
  intro e; subst e; revert h; decide

theorem schema_cases_text (schema : Str) {seg : Str} (hseg : IsSegment seg) :
    seg = schema ∨ (seg ≠ schema ∧ (seg = sliceSchema ∨ seg = mapSchema)) ∨
      (seg ≠ schema ∧ ∀ c ∈ seg, isWordChar c = true) := by
  by_cases h : seg = schema
  · exact Or.inl h
  · rcases hseg with h1 | h1 | h1
    · exact Or.inr (Or.inl ⟨h, Or.inl h1⟩)
    · exact Or.inr (Or.inl ⟨h, Or.inr h1⟩)
    · exact Or.inr (Or.inr ⟨h, h1⟩)

/-- Replacing the placeholder `schema` by `new` in a segment followed by more text. -/
theorem replaceAllAux_segment {schema : Str} (hs : schema = sliceSchema ∨ schema = mapSchema)
    (new : Str) {seg : Str} (hseg : IsSegment seg) (s : Str) :
    replaceAllAux schema new 0 (seg ++ s) =
      segText schema new seg ++ replaceAllAux schema new 0 s := by
  rcases schema_cases_text schema hseg with h | ⟨h, h2⟩ | ⟨h, h2⟩
  · subst h
    simp only [segText, if_true]
    rcases hs with hs | hs <;> rw [hs] <;> exact replaceAllAux_old _ _ new s
  · simp only [segText, h, if_false]
    rcases hs with hs | hs <;> rcases h2 with h2 | h2 <;> subst hs <;> subst h2
    · exact absurd rfl h
    · simp [replaceAllAux, HasPrefix, sliceSchema, mapSchema]
    · simp [replaceAllAux, HasPrefix, sliceSchema, mapSchema]
    · exact absurd rfl h
  · simp only [segText, h, if_false]
    rcases hs with hs | hs <;> rw [hs] <;>
      exact replaceAllAux_block_ne _ _ new seg s (fun c hc => wordChar_ne_brace (h2 c hc))

theorem replaceAllAux_dot {schema : Str} (hs : schema = sliceSchema ∨ schema = mapSchema)
    (new s : Str) :
    replaceAllAux schema new 0 ('.' :: s) = '.' :: replaceAllAux schema new 0 s := by
  rcases hs with hs | hs <;> rw [hs] <;>
    exact replaceAllAux_cons_ne _ _ new '.' s (by decide)

theorem replaceAllAux_eq {schema : Str} (hs : schema = sliceSchema ∨ schema = mapSchema)
    (new : Str) :
    replaceAllAux schema new 0 ['='] = ['='] := by
  rcases hs with hs | hs <;> rw [hs] <;>
    exact replaceAllAux_cons_ne _ _ new '=' [] (by decide)

theorem replaceAllAux_key {schema : Str} (hs : schema = sliceSchema ∨ schema = mapSchema)
    (new : Str) :
    ∀ segs : List Str, (∀ seg ∈ segs, IsSegment seg) →
      replaceAllAux schema new 0 (joinDots segs ++ ['=']) =
        joinDots (segs.map (segText schema new)) ++ ['=']
  | [], _ => replaceAllAux_eq hs new
  | [s], h => by
    simp only [joinDots, List.map]
    rw [replaceAllAux_segment hs new (h s (List.mem_cons_self _ _)), replaceAllAux_eq hs]
  | s :: t :: rest, h => by
    simp only [joinDots, List.map, List.append_assoc, List.cons_append]
    rw [replaceAllAux_segment hs new (h s (List.mem_cons_self _ _)), replaceAllAux_dot hs]
    have ih := replaceAllAux_key hs new (t :: rest)
      (fun x hx => h x (List.mem_cons_of_mem _ hx))
    simp only [List.map] at ih
    rw [ih]

theorem schema_ne_nil {schema : Str} (hs : schema = sliceSchema ∨ schema = mapSchema) :
    schema ≠ [] := by
  rcases hs with hs | hs <;> rw [hs] <;> decide

/-- The pattern that `keySuggestion` builds from a key made of segments. -/
theorem ReplaceAll_key {schema : Str} (hs : schema = sliceSchema ∨ schema = mapSchema)
    (new : Str) (segs : List Str) (h : ∀ seg ∈ segs, IsSegment seg) :
    ReplaceAll (joinDots segs ++ ['=']) schema new =
      joinDots (segs.map (segText schema new)) ++ ['='] := by
  simp only [ReplaceAll, schema_ne_nil hs, if_false]
  exact replaceAllAux_key hs new segs h

/-! ### Instantiating the group of a pattern made of segments -/

theorem group_text : "([0-9]+)".toList = '(' :: "[0-9]+)".toList := rfl

theorem segment_no_paren {schema : Str} {seg : Str} (hseg : IsSegment seg) (h : seg ≠ schema) :
    ∀ c ∈ seg, c ≠ '(' := by
  rcases schema_cases_text schema hseg with h1 | ⟨_, h2⟩ | ⟨_, h2⟩
  · exact absurd h1 h
  · rcases h2 with h2 | h2 <;> rw [h2] <;> decide
  · exact fun c hc => wordChar_ne_paren (h2 c hc)

theorem replaceAllAux_group_segment (schema new : Str) {seg : Str} (hseg : IsSegment seg)
    (s : Str) :
    replaceAllAux "([0-9]+)".toList new 0 (segText schema "([0-9]+)".toList seg ++ s) =
      segText schema new seg ++ replaceAllAux "([0-9]+)".toList new 0 s := by
  by_cases h : seg = schema
  · simp only [segText, h, if_true]
    rw [group_text]
    exact replaceAllAux_old _ _ new s
  · simp only [segText, h, if_false]
    rw [group_text]
    exact replaceAllAux_block_ne _ _ new seg s (segment_no_paren hseg h)

theorem replaceAllAux_group_key (schema new : Str) :
    ∀ segs : List Str, (∀ seg ∈ segs, IsSegment seg) →
      replaceAllAux "([0-9]+)".toList new 0
          (joinDots (segs.map (segText schema "([0-9]+)".toList)) ++ ['=']) =
        joinDots (segs.map (segText schema new)) ++ ['=']
  | [], _ => by
    rw [group_text]
    exact replaceAllAux_cons_ne _ _ new '=' [] (by decide)
  | [s], h => by
    simp only [joinDots, List.map]
    rw [replaceAllAux_group_segment schema new (h s (List.mem_cons_self _ _)), group_text]
    rw [replaceAllAux_cons_ne _ _ new '=' [] (by decide)]
    rfl
  | s :: t :: rest, h => by
    simp only [joinDots, List.map, List.append_assoc, List.cons_append]
    rw [replaceAllAux_group_segment schema new (h s (List.mem_cons_self _ _))]
    have hdot : ∀ x : Str, replaceAllAux "([0-9]+)".toList new 0 ('.' :: x) =
        '.' :: replaceAllAux "([0-9]+)".toList new 0 x := by
      intro x
      rw [group_text]
      exact replaceAllAux_cons_ne _ _ new '.' x (by decide)
    rw [hdot]
    have ih := replaceAllAux_group_key schema new (t :: rest)
      (fun x hx => h x (List.mem_cons_of_mem _ hx))
    simp only [List.map] at ih
    rw [ih]

/-- The suggestion that `keySuggestion` builds from the pattern of a key made of
segments. -/
theorem ReplaceAll_group_key (schema new : Str) (segs : List Str)
    (h : ∀ seg ∈ segs, IsSegment seg) :
    ReplaceAll (joinDots (segs.map (segText schema "([0-9]+)".toList)) ++ ['='])
        "([0-9]+)".toList new =
      joinDots (segs.map (segText schema new)) ++ ['='] := by
  have hne : "([0-9]+)".toList ≠ [] := by decide
  simp only [ReplaceAll, hne, if_false]
  exact replaceAllAux_group_key schema new segs h

/-! ### Compiling the pattern of a key made of segments -/

theorem compileAux_wordChar {c : Char} (h : isWordChar c = true) (s : Str) :
    compileAux 0 (c :: s) = (compileAux 0 s).map (Atom.lit c :: ·) := by
  have h1 : c ≠ '(' := wordChar_ne_paren h
  have h2 : c ≠ '[' := by intro e; subst e; revert h; decide
  have h3 : c ≠ '.' := by intro e; subst e; revert h; decide
  have h4 : c ≠ '{' := wordChar_ne_brace h
  have h5 : isMeta c = false := by
    simp only [isMeta, Bool.or_eq_false_iff, beq_eq_false_iff_ne]
    refine ⟨⟨⟨⟨⟨⟨⟨⟨⟨⟨⟨?_, ?_⟩, ?_⟩, ?_⟩, ?_⟩, ?_⟩, ?_⟩, ?_⟩, ?_⟩, ?_⟩, ?_⟩, ?_⟩ <;>
      (intro e; subst e; revert h; decide)
  simp [compileAux, HasPrefix, h1, h2, h3, h4, h5]

theorem compileAux_word :
    ∀ (seg s : Str), (∀ c ∈ seg, isWordChar c = true) →
      compileAux 0 (seg ++ s) = (compileAux 0 s).map (seg.map Atom.lit ++ ·)
  | [], s, _ => by simp
  | c :: seg, s, h => by
    rw [List.cons_append, compileAux_wordChar (h c (List.mem_cons_self _ _)),
      compileAux_word seg s (fun x hx => h x (List.mem_cons_of_mem _ hx))]
    cases compileAux 0 s <;> simp

theorem compileAux_group (s : Str) :
    compileAux 0 ("([0-9]+)".toList ++ s) = (compileAux 0 s).map (Atom.group :: ·) := by
  simp [compileAux, HasPrefix]

theorem compileAux_sliceSchema (s : Str) :
    compileAux 0 (sliceSchema ++ s) = (compileAux 0 s).map (sliceSchema.map Atom.lit ++ ·) := by
  cases h : compileAux 0 s <;>
    simp [compileAux, HasPrefix, sliceSchema, isDigit, isMeta, h]

theorem compileAux_mapSchema (s : Str) :
    compileAux 0 (mapSchema ++ s) = (compileAux 0 s).map (mapSchema.map Atom.lit ++ ·) := by
  cases h : compileAux 0 s <;>
    simp [compileAux, HasPrefix, mapSchema, isDigit, isMeta, h]

theorem compileAux_segment (schema : Str) {seg : Str} (hseg : IsSegment seg) (s : Str) :
    compileAux 0 (segText schema "([0-9]+)".toList seg ++ s) =
      (compileAux 0 s).map (segAtoms schema seg ++ ·) := by
  by_cases h : seg = schema
  · simp only [segText, segAtoms, h, if_true]
    exact compileAux_group s
  · simp only [segText, segAtoms, h, if_false]
    rcases hseg with h1 | h1 | h1
    · rw [h1]; exact compileAux_sliceSchema s
    · rw [h1]; exact compileAux_mapSchema s
    · exact compileAux_word seg s h1

theorem compileAux_dot (s : Str) :
    compileAux 0 ('.' :: s) = (compileAux 0 s).map (Atom.any :: ·) := by
  simp [compileAux, HasPrefix]

theorem compileAux_key (schema : Str) :
    ∀ segs : List Str, (∀ seg ∈ segs, IsSegment seg) →
      compileAux 0 (joinDots (segs.map (segText schema "([0-9]+)".toList)) ++ ['=']) =
        some (joinAtoms schema segs ++ [Atom.lit '='])
  | [], _ => by
    have : compileAux 0 ['='] = some [Atom.lit '='] := by decide
    simpa [joinDots, joinAtoms] using this
  | [s], h => by
    simp only [joinDots, joinAtoms, List.map]
    rw [compileAux_segment schema (h s (List.mem_cons_self _ _))]
    have : compileAux 0 ['='] = some [Atom.lit '='] := by decide
    rw [this]; rfl
  | s :: t :: rest, h => by
    simp only [joinDots, joinAtoms, List.map, List.append_assoc, List.cons_append]
    rw [compileAux_segment schema (h s (List.mem_cons_self _ _)), compileAux_dot]
    have ih := compileAux_key schema (t :: rest) (fun x hx => h x (List.mem_cons_of_mem _ hx))
    simp only [List.map] at ih
    rw [ih]; rfl

/-! ### Matching an instance of a key made of segments -/

theorem plusGreedy_stop {α : Type} (p : Char → Bool) (k : Str → Str → Option α) (acc rest : Str)
    (h : ∀ c t, rest = c :: t → p c = false) : plusGreedy p k acc rest = none := by
  cases rest with
  | nil => rfl
  | cons c t => simp [plusGreedy, h c t rfl]

theorem plusGreedy_run {α : Type} (p : Char → Bool) (k : Str → Str → Option α) (rest : Str)
    (r : α) (hrest : ∀ c t, rest = c :: t → p c = false) :
    ∀ (d acc : Str), d ≠ [] → (∀ c ∈ d, p c = true) → k (acc.reverse ++ d) rest = some r →
      plusGreedy p k acc (d ++ rest) = some r
  | [], _, h, _, _ => absurd rfl h
  | [c], acc, _, hp, hk => by
    have hc : p c = true := hp c (List.mem_cons_self _ _)
    rw [List.singleton_append, plusGreedy]
    simp only [hc, if_true, plusGreedy_stop p k (c :: acc) rest hrest, List.reverse_cons]
    exact hk
  | c :: c' :: d, acc, _, hp, hk => by
    have hc : p c = true := hp c (List.mem_cons_self _ _)
    have ih := plusGreedy_run p k rest r hrest (c' :: d) (c :: acc) (by simp)
      (fun x hx => hp x (List.mem_cons_of_mem _ hx))
      (by simpa [List.reverse_cons] using hk)
    rw [List.cons_append, plusGreedy]
    simp only [hc, if_true, ih]

theorem matchHere_lits (as : List Atom) :
    ∀ (seg s : Str), matchHere (seg.map Atom.lit ++ as) (seg ++ s) = matchHere as s
  | [], _ => rfl
  | c :: seg, s => by
    simp only [List.map, List.cons_append, matchHere, if_true]
    exact matchHere_lits as seg s

theorem matchHere_segment (schema d : Str) (hd : d ≠ []) (hdig : ∀ c ∈ d, isDigit c = true)
    (seg : Str) (as : List Atom) (s : Str) (caps : List Str)
    (hs : ∀ c t, s = c :: t → isDigit c = false) (hm : matchHere as s = some caps) :
    matchHere (segAtoms schema seg ++ as) (segText schema d seg ++ s) =
      some (if seg = schema then d :: caps else caps) := by
  by_cases h : seg = schema
  · simp only [segAtoms, segText, h, if_true, List.singleton_append, matchHere]
    apply plusGreedy_run isDigit _ s _ hs d [] hd hdig
    simp [hm]
  · simp only [segAtoms, segText, h, if_false]
    rw [matchHere_lits, hm]

theorem matchHere_key (schema d : Str) (hd : d ≠ []) (hdig : ∀ c ∈ d, isDigit c = true) :
    ∀ segs : List Str,
      matchHere (joinAtoms schema segs ++ [Atom.lit '='])
          (joinDots (segs.map (segText schema d)) ++ ['=']) =
        some (List.replicate (segs.count schema) d)
  | [] => by simp [joinAtoms, joinDots, matchHere]
  | [s] => by
    simp only [joinAtoms, joinDots, List.map]
    rw [matchHere_segment schema d hd hdig s [Atom.lit '='] ['='] []
      (by intro c t e; cases e; decide) (by simp [matchHere])]
    by_cases h : s = schema <;> simp [h, List.count_cons, List.replicate]
  | s :: t :: rest => by
    have ih := matchHere_key schema d hd hdig (t :: rest)
    simp only [List.map] at ih
    simp only [joinAtoms, joinDots, List.map, List.append_assoc, List.cons_append]
    rw [matchHere_segment schema d hd hdig s _ _ (List.replicate ((t :: rest).count schema) d)
      (by intro c t e; cases e; decide) (by simpa [matchHere] using ih)]
    by_cases h : s = schema
    · subst h; simp [List.count_cons, List.replicate_succ]
    · have h' : (s == schema) = false := by simpa using h
      simp [h, h', List.count_cons]

/-! ### The child keys of a built tree -/

theorem mem_updateAt {α : Type} (f : α → α) :
    ∀ (i : Nat) (l : List α) (x : α), x ∈ updateAt f i l → x ∈ l ∨ ∃ y ∈ l, x = f y
  | _, [], x, h => by simp [updateAt] at h
  | 0, a :: l, x, h => by
    simp only [updateAt, List.mem_cons] at h
    rcases h with h | h
    · exact Or.inr ⟨a, List.mem_cons_self _ _, h⟩
    · exact Or.inl (List.mem_cons_of_mem _ h)
  | i + 1, a :: l, x, h => by
    simp only [updateAt, List.mem_cons] at h
    rcases h with h | h
    · exact Or.inl (h ▸ List.mem_cons_self _ _)
    · rcases mem_updateAt f i l x h with h | ⟨y, hy, hxy⟩
      · exact Or.inl (List.mem_cons_of_mem _ h)
      · exact Or.inr ⟨y, List.mem_cons_of_mem _ hy, hxy⟩

theorem mem_mapSet : ∀ (m : ChildMap) (key : Str) (v : Nat) (e : Str × Nat),
    e ∈ mapSet m key v → e ∈ m ∨ e.1 = key
  | [], key, v, e, h => by
    simp only [mapSet, List.mem_singleton] at h
    exact Or.inr (by rw [h])
  | (k, w) :: m, key, v, e, h => by
    simp only [mapSet] at h
    split at h
    · rename_i hk
      simp only [List.mem_cons] at h
      rcases h with h | h
      · exact Or.inr (by rw [h]; exact hk)
      · exact Or.inl (List.mem_cons_of_mem _ h)
    · simp only [List.mem_cons] at h
      rcases h with h | h
      · exact Or.inl (h ▸ List.mem_cons_self _ _)
      · rcases mem_mapSet m key v e h with h | h
        · exact Or.inl (List.mem_cons_of_mem _ h)
        · exact Or.inr h

theorem KeysOK_setNode {h : Heap} (hk : h.KeysOK) (p : Nat)
    (f : AutoCompleteNode → AutoCompleteNode) : (h.setNode p f).KeysOK := hk

theorem KeysOK_mapSet {h : Heap} (hk : h.KeysOK) (m : Nat) {key : Str} (hkey : KeyOK key)
    (v : Nat) : (h.mapSet m key v).KeysOK := by
  intro cm hcm e he
  rcases mem_updateAt _ m h.maps cm hcm with h1 | ⟨y, hy, hxy⟩
  · exact hk cm h1 e he
  · subst hxy
    rcases mem_mapSet y key v e he with h2 | h2
    · exact hk y hy e h2
    · rw [h2]; exact hkey

theorem KeysOK_new {h : Heap} (hk : h.KeysOK) : (NewAutoCompleteNode h).1.KeysOK := by
  intro cm hcm e he
  simp only [NewAutoCompleteNode, List.mem_append, List.mem_singleton] at hcm
  rcases hcm with h1 | h1
  · exact hk cm h1 e he
  · subst h1; simp at he

theorem KeysOK_addFlagValue {h : Heap} (hk : h.KeysOK) (node parent : Nat) {key : Str}
    (hkey : KeyOK key) (t : AutoCompleteNodeType) :
    (addFlagValue h node parent key t).KeysOK := by
  unfold addFlagValue
  exact KeysOK_setNode (KeysOK_mapSet (KeysOK_new hk) _ hkey _) _ _

theorem KeysOK_foldl_values (node parent : Nat) :
    ∀ (values : List Str) (h : Heap), h.KeysOK → (∀ v ∈ values, KeyOK v) →
      (values.foldl (fun h value =>
        addFlagValue h node parent value AutoCompleteNodeType.FlagValueConst) h).KeysOK
  | [], _, hk, _ => hk
  | v :: values, h, hk, hv => by
    simp only [List.foldl]
    exact KeysOK_foldl_values node parent values _
      (KeysOK_addFlagValue hk node parent (hv v (List.mem_cons_self _ _)) _)
      (fun x hx => hv x (List.mem_cons_of_mem _ hx))

theorem KeysOK_NewFlag {h : Heap} (hk : h.KeysOK) (name : Str) (parent : Nat)
    (values : List Str) (hasVariableValue : Bool) (hv : ∀ v ∈ values, KeyOK v)
    (hvar : KeyOK (name ++ variableFlagValueSuffix)) :
    (NewFlagAutoCompleteNode h name parent values hasVariableValue).1.KeysOK := by
  unfold NewFlagAutoCompleteNode
  simp only
  have h1 := KeysOK_foldl_values (NewAutoCompleteNode h).2 parent values _
    (KeysOK_setNode (KeysOK_new hk) (NewAutoCompleteNode h).2
      (fun n => { n with NodeType := AutoCompleteNodeType.Flag, Name := name })) hv
  split <;> split <;> first
    | exact KeysOK_setNode (KeysOK_addFlagValue h1 _ _ hvar _) _ _
    | exact KeysOK_setNode h1 _ _
    | exact KeysOK_addFlagValue h1 _ _ hvar _
    | exact h1

theorem KeysOK_addFlag {h : Heap} (hk : h.KeysOK) (n : Nat) (name : Str)
    (values : List Str) (hasVariableValue : Bool) (hname : KeyOK name)
    (hv : ∀ v ∈ values, KeyOK v) (hvar : KeyOK (name ++ variableFlagValueSuffix)) :
    (addFlag h n name values hasVariableValue).KeysOK := by
  unfold addFlag
  exact KeysOK_mapSet (KeysOK_NewFlag hk name n values hasVariableValue hv hvar) _ hname _

theorem KeysOK_addFlag_plain {h : Heap} (hk : h.KeysOK) (n : Nat) (name : Str)
    (values : List Str) (hasVariableValue : Bool) (hname : PlainName name)
    (hv : ∀ v ∈ values, PlainName v) (hvar : PlainName (name ++ variableFlagValueSuffix)) :
    (addFlag h n name values hasVariableValue).KeysOK :=
  KeysOK_addFlag hk n name values hasVariableValue (Or.inl hname)
    (fun v hm => Or.inl (hv v hm)) (Or.inl hvar)

theorem KeysOK_addGlobalFlags {h : Heap} (hk : h.KeysOK) (n : Nat) :
    (addGlobalFlags h n).KeysOK := by
  have h1 := KeysOK_addFlag_plain hk n "--access-key".toList [] true
    (by decide) (by decide) (by decide)
  have h2 := KeysOK_addFlag_plain h1 n "-D".toList [] false
    (by decide) (by decide) (by decide)
  have h3 := KeysOK_addFlag_plain h2 n "--debug".toList [] false
    (by decide) (by decide) (by decide)
  have h4 := KeysOK_addFlag_plain h3 n "-h".toList [] false
    (by decide) (by decide) (by decide)
  have h5 := KeysOK_addFlag_plain h4 n "--help".toList [] false
    (by decide) (by decide) (by decide)
  have h6 := KeysOK_addFlag_plain h5 n "-o".toList ["json".toList, "human".toList] false
    (by decide) (by decide) (by decide)
  have h7 := KeysOK_addFlag_plain h6 n "--output".toList ["json".toList, "human".toList] false
    (by decide) (by decide) (by decide)
  have h8 := KeysOK_addFlag_plain h7 n "-p".toList [] false
    (by decide) (by decide) (by decide)
  have h9 := KeysOK_addFlag_plain h8 n "--profile".toList [] false
    (by decide) (by decide) (by decide)
  exact KeysOK_addFlag_plain h9 n "--secret-key".toList [] true
    (by decide) (by decide) (by decide)

theorem KeysOK_GetChildOrCreate {h : Heap} (hk : h.KeysOK) (node : Nat) {name : Str}
    (hname : KeyOK name) : (GetChildOrCreate h node name).1.KeysOK := by
  unfold GetChildOrCreate
  split
  · exact hk
  · exact KeysOK_mapSet (KeysOK_new hk) _ hname _

theorem KeysOK_descendPath :
    ∀ (parts : List Str) (h : Heap) (node : Nat), h.KeysOK → (∀ p ∈ parts, KeyOK p) →
      (descendPath h node parts).1.KeysOK
  | [], _, _, hk, _ => hk
  | part :: parts, h, node, hk, hp => by
    simp only [descendPath]
    split
    · exact KeysOK_descendPath parts _ _
        (KeysOK_addGlobalFlags
          (KeysOK_GetChildOrCreate hk node (hp part (List.mem_cons_self _ _))) _)
        (fun x hx => hp x (List.mem_cons_of_mem _ hx))
    · exact KeysOK_descendPath parts _ _ hk (fun x hx => hp x (List.mem_cons_of_mem _ hx))

theorem KeyOK_segmented {name : Str} (h : SegmentedName name) : KeyOK (name ++ "=".toList) := by
  obtain ⟨segs, hsegs, hname⟩ := h
  exact Or.inr ⟨segs, hsegs, by rw [hname]; rfl⟩

theorem KeysOK_addArgSpecs (node i : Nat) :
    ∀ (specs : List ArgSpec) (h : Heap) (j : Nat), h.KeysOK →
      (∀ spec ∈ specs, SegmentedName spec.Name) → (addArgSpecs node i h j specs).KeysOK
  | [], _, _, hk, _ => hk
  | spec :: specs, h, j, hk, hs => by
    simp only [addArgSpecs, NewArgAutoCompleteNode]
    exact KeysOK_addArgSpecs node i specs _ _
      (KeysOK_mapSet (KeysOK_setNode (KeysOK_new hk) _ _) _
        (KeyOK_segmented (hs spec (List.mem_cons_self _ _))) _)
      (fun x hx => hs x (List.mem_cons_of_mem _ hx))

/-- The hypotheses on a command: its argument names are made of segments and its path
contains no placeholder. -/
theorem KeysOK_addCommand {h : Heap} (hk : h.KeysOK) (scw i : Nat) (cmd : Command)
    (hargs : ∀ spec ∈ cmd.ArgSpecs, SegmentedName spec.Name)
    (hpath : PlainName cmd.Namespace ∧ PlainName cmd.Resource ∧ PlainName cmd.Verb) :
    (addCommand h scw i cmd).KeysOK := by
  unfold addCommand
  have h1 : (descendPath h scw [cmd.Namespace, cmd.Resource, cmd.Verb]).1.KeysOK := by
    apply KeysOK_descendPath _ _ _ hk
    intro p hp
    simp only [List.mem_cons, List.mem_singleton, List.not_mem_nil, or_false] at hp
    rcases hp with hp | hp | hp <;> rw [hp]
    · exact Or.inl hpath.1
    · exact Or.inl hpath.2.1
    · exact Or.inl hpath.2.2
  have h2 := KeysOK_addArgSpecs (descendPath h scw [cmd.Namespace, cmd.Resource, cmd.Verb]).2 i
    cmd.ArgSpecs _ 0
    (KeysOK_setNode h1 (descendPath h scw [cmd.Namespace, cmd.Resource, cmd.Verb]).2
      (fun n => { n with Command := some i })) hargs
  simp only
  split
  · exact KeysOK_addFlag_plain
      (KeysOK_addFlag_plain h2 _ "-w".toList [] false (by decide) (by decide) (by decide))
      _ "--wait".toList [] false (by decide) (by decide) (by decide)
  · exact h2

theorem KeysOK_addCommands (scw : Nat) :
    ∀ (commands : List Command) (h : Heap) (i : Nat), h.KeysOK →
      (∀ cmd ∈ commands, ∀ spec ∈ cmd.ArgSpecs, SegmentedName spec.Name) →
      (∀ cmd ∈ commands,
        PlainName cmd.Namespace ∧ PlainName cmd.Resource ∧ PlainName cmd.Verb) →
      (addCommands scw h i commands).KeysOK
  | [], _, _, hk, _, _ => hk
  | cmd :: commands, h, i, hk, ha, hp => by
    simp only [addCommands]
    exact KeysOK_addCommands scw commands _ _
      (KeysOK_addCommand hk scw i cmd (ha cmd (List.mem_cons_self _ _))
        (hp cmd (List.mem_cons_self _ _)))
      (fun x hx => ha x (List.mem_cons_of_mem _ hx))
      (fun x hx => hp x (List.mem_cons_of_mem _ hx))

theorem KeysOK_BuildAutoCompleteTree (commands : List Command)
    (ha : ∀ cmd ∈ commands, ∀ spec ∈ cmd.ArgSpecs, SegmentedName spec.Name)
    (hp : ∀ cmd ∈ commands,
      PlainName cmd.Namespace ∧ PlainName cmd.Resource ∧ PlainName cmd.Verb) :
    (BuildAutoCompleteTree commands).1.KeysOK := by
  unfold BuildAutoCompleteTree
  simp only
  apply KeysOK_addCommands _ _ _ _ _ ha hp
  apply KeysOK_addGlobalFlags
  apply KeysOK_GetChildOrCreate _ _ (Or.inl (by decide))
  apply KeysOK_new
  intro m hm
  simp at hm

theorem getD_mem_or {α : Type} (d : α) :
    ∀ (l : List α) (i : Nat), l.getD i d ∈ l ∨ l.getD i d = d
  | [], _ => Or.inr (by simp)
  | a :: l, 0 => Or.inl (by simp)
  | a :: l, i + 1 => by
    rcases getD_mem_or d l i with h | h
    · exact Or.inl (by simpa using Or.inr h)
    · exact Or.inr (by simpa using h)

theorem KeysOK_children {h : Heap} (hk : h.KeysOK) (n : Nat) :
    ∀ e ∈ h.children n, KeyOK e.1 := by
  intro e he
  unfold Heap.children at he
  rcases getD_mem_or [] h.maps (h.node n).Children with h1 | h1
  · exact hk _ h1 e he
  · rw [h1] at he; simp at he

/-! ### Freshness of the suggested index -/

theorem nextFreeIndex_not_mem (used : List Str) :
    ∀ (fuel i j : Nat), nextFreeIndex used fuel i = some j → Itoa j ∉ used
  | 0, _, _, h => by simp [nextFreeIndex] at h
  | fuel + 1, i, j, h => by
    simp only [nextFreeIndex] at h
    split at h
    · exact nextFreeIndex_not_mem used fuel (i + 1) j h
    · cases h; assumption

theorem usedIndexes_mem (r : List Atom) :
    ∀ (args used : List Str), usedIndexes r args = .ok used →
      ∀ a ∈ args, ∀ m ms, FindStringSubmatch r a = some (m :: ms) → m ∈ used
  | [], _, _, a, ha, _, _, _ => by simp at ha
  | arg :: rest, used, h, a, ha, m, ms, hm => by
    simp only [usedIndexes] at h
    rcases List.mem_cons.mp ha with e | ha'
    · subst e
      rw [hm] at h
      simp only at h
      split at h
      · cases h; exact List.mem_insert_self _ _
      · cases h
    · split at h
      · exact usedIndexes_mem r rest used h a ha' m ms hm
      · cases h
      · split at h
        · rename_i used' hu
          cases h
          exact List.mem_insert_of_mem (usedIndexes_mem r rest used' hu a ha' m ms hm)
        · cases h

theorem usedIndexes_no_group (r : List Atom) :
    ∀ (args used : List Str), usedIndexes r args = .ok used →
      ∀ a ∈ args, FindStringSubmatch r a ≠ some []
  | [], _, _, a, ha => by simp at ha
  | arg :: rest, used, h, a, ha => by
    simp only [usedIndexes] at h
    rcases List.mem_cons.mp ha with e | ha'
    · subst e
      intro hm
      rw [hm] at h
      cases h
    · split at h
      · exact usedIndexes_no_group r rest used h a ha'
      · cases h
      · split at h
        · rename_i used' hu
          exact usedIndexes_no_group r rest used' hu a ha'
        · cases h

theorem FindStringSubmatch_of_matchHere {r : List Atom} {s : Str} {caps : List Str}
    (h : matchHere r s = some caps) : FindStringSubmatch r s = some caps := by
  cases s with
  | nil => exact h
  | cons c s => simp [FindStringSubmatch, h]

/-- The suggestion that `keySuggestion` returns for an argument key made of segments is not
a completed argument, and it ends with `=`. -/
theorem keySuggestion_fresh {schema : Str} (hs : schema = sliceSchema ∨ schema = mapSchema)
    (segs : List Str) (hsegs : ∀ seg ∈ segs, IsSegment seg) (completed : List Str) (s : Str)
    (h : keySuggestion (joinDots segs ++ ['=']) schema completed = .ok s) :
    s ∉ completed ∧ '=' ∈ s := by
  unfold keySuggestion at h
  simp only [ReplaceAll_key hs _ segs hsegs, regexpCompile, compileAux_key schema segs hsegs]
    at h
  split at h
  · cases h
  · rename_i used hu
    split at h
    · cases h
    · rename_i i hi
      rw [ReplaceAll_group_key schema (Itoa i) segs hsegs] at h
      cases h
      refine ⟨?_, by simp⟩
      intro hmem
      have hm := FindStringSubmatch_of_matchHere
        (matchHere_key schema (Itoa i) (Itoa_ne_nil i) (Itoa_digits i) segs)
      have hfree := nextFreeIndex_not_mem used _ _ _ hi
      cases hc : segs.count schema with
      | zero =>
        rw [hc] at hm
        exact usedIndexes_no_group _ _ _ hu _ hmem hm
      | succ k =>
        rw [hc, List.replicate_succ] at hm
        exact hfree (usedIndexes_mem _ _ _ hu _ hmem _ _ hm)

/-! ### The usage tracker -/

theorem splitFirst_left_not_mem (sep : Char) :
    ∀ (s l r : Str), splitFirst sep s = some (l, r) → sep ∉ l
  | [], _, _, h => by simp [splitFirst] at h
  | c :: s, l, r, h => by
    simp only [splitFirst] at h
    split at h
    · cases h; simp
    · rename_i hc
      split at h
      · cases h
      · rename_i l' r' hs
        have ih := splitFirst_left_not_mem sep s l' r' hs
        cases h
        simp only [List.mem_cons, not_or]
        exact ⟨fun e => hc e.symm, ih⟩

theorem splitFirst_none_not_mem (sep : Char) :
    ∀ (s : Str), splitFirst sep s = none → sep ∉ s
  | [], _ => by simp
  | c :: s, h => by
    simp only [splitFirst] at h
    split at h
    · cases h
    · rename_i hc
      split at h
      · rename_i hs
        have ih := splitFirst_none_not_mem sep s hs
        simp only [List.mem_cons, not_or]
        exact ⟨fun e => hc e.symm, ih⟩
      · cases h

theorem wordKey_no_eq (word : Str) : '=' ∉ wordKey word := by
  unfold wordKey
  split
  · rename_i l r h
    exact splitFirst_left_not_mem '=' word l r h
  · rename_i h
    exact splitFirst_none_not_mem '=' word h

theorem trackWord_flags (h : Heap) (node : Nat) (acc : List Str × List Str) (word : Str)
    (hacc : ∀ f ∈ acc.2, '=' ∉ f) : ∀ f ∈ (trackWord h node acc word).2, '=' ∉ f := by
  unfold trackWord
  split
  · intro f hf
    rcases List.mem_insert_iff.mp hf with e | hf'
    · rw [e]; exact wordKey_no_eq word
    · exact hacc f hf'
  · split
    · exact hacc
    · split
      · split
        · exact hacc
        · exact hacc
      · exact hacc

theorem trackUsage_flags (h : Heap) (node : Nat) :
    ∀ (words : List Str) (acc : List Str × List Str), (∀ f ∈ acc.2, '=' ∉ f) →
      ∀ f ∈ (words.foldl (trackWord h node) acc).2, '=' ∉ f
  | [], _, hacc => hacc
  | w :: words, acc, hacc => by
    simp only [List.foldl]
    exact trackUsage_flags h node words _ (trackWord_flags h node acc w hacc)

/-! ### The name-completion loop -/

/-- Where a suggestion of the name-completion loop comes from. -/
theorem nameSuggestions_mem (w : Str) (cArgs cFlags : List Str) :
    ∀ (m : ChildMap) (l : List Str), nameSuggestions w cArgs cFlags m = .ok l →
      ∀ s ∈ l, ∃ e ∈ m, hasPrefix e.1 w = true ∧
        ((Contains e.1 sliceSchema = true ∧ keySuggestion e.1 sliceSchema cArgs = .ok s) ∨
         (Contains e.1 sliceSchema = false ∧ Contains e.1 mapSchema = true ∧
            keySuggestion e.1 mapSchema cArgs = .ok s) ∨
         (Contains e.1 sliceSchema = false ∧ Contains e.1 mapSchema = false ∧ e.1 = s ∧
            s ∉ cArgs ∧ s ∉ cFlags ∧ (isFlag s && decide (w = [])) = false))
  | [], l, h, s, hs => by
    simp only [nameSuggestions] at h
    cases h
    simp at hs
  | (key, v) :: rest, l, h, s, hs => by
    have ih := nameSuggestions_mem w cArgs cFlags rest
    have lift : (∃ e ∈ rest, hasPrefix e.1 w = true ∧
        ((Contains e.1 sliceSchema = true ∧ keySuggestion e.1 sliceSchema cArgs = .ok s) ∨
         (Contains e.1 sliceSchema = false ∧ Contains e.1 mapSchema = true ∧
            keySuggestion e.1 mapSchema cArgs = .ok s) ∨
         (Contains e.1 sliceSchema = false ∧ Contains e.1 mapSchema = false ∧ e.1 = s ∧
            s ∉ cArgs ∧ s ∉ cFlags ∧ (isFlag s && decide (w = [])) = false))) →
        ∃ e ∈ (key, v) :: rest, hasPrefix e.1 w = true ∧
        ((Contains e.1 sliceSchema = true ∧ keySuggestion e.1 sliceSchema cArgs = .ok s) ∨
         (Contains e.1 sliceSchema = false ∧ Contains e.1 mapSchema = true ∧
            keySuggestion e.1 mapSchema cArgs = .ok s) ∨
         (Contains e.1 sliceSchema = false ∧ Contains e.1 mapSchema = false ∧ e.1 = s ∧
            s ∉ cArgs ∧ s ∉ cFlags ∧ (isFlag s && decide (w = [])) = false)) := by
      rintro ⟨e, he, hp⟩
      exact ⟨e, List.mem_cons_of_mem _ he, hp⟩
    have tailCase : ∀ (x : Str) (l' : List Str),
        nameSuggestions w cArgs cFlags rest = .ok l' → l = x :: l' → s ≠ x →
        ∃ e ∈ rest, hasPrefix e.1 w = true ∧
        ((Contains e.1 sliceSchema = true ∧ keySuggestion e.1 sliceSchema cArgs = .ok s) ∨
         (Contains e.1 sliceSchema = false ∧ Contains e.1 mapSchema = true ∧
            keySuggestion e.1 mapSchema cArgs = .ok s) ∨
         (Contains e.1 sliceSchema = false ∧ Contains e.1 mapSchema = false ∧ e.1 = s ∧
            s ∉ cArgs ∧ s ∉ cFlags ∧ (isFlag s && decide (w = [])) = false)) := by
      intro x l' hl' hl hne
      subst hl
      rcases List.mem_cons.mp hs with e | hs'
      · exact absurd e hne
      · exact ih l' hl' s hs'
    simp only [nameSuggestions] at h
    by_cases hp : hasPrefix key w = true
    · simp only [hp, Bool.not_true, Bool.false_eq_true, if_false] at h
      by_cases h1 : Contains key sliceSchema = true
      · simp only [h1, if_true] at h
        cases hk : keySuggestion key sliceSchema cArgs with
        | error e => rw [hk] at h; cases h
        | ok x =>
          rw [hk] at h
          cases hr : nameSuggestions w cArgs cFlags rest with
          | error e => rw [hr] at h; cases h
          | ok l' =>
            rw [hr] at h
            cases h
            by_cases hsx : s = x
            · subst hsx
              exact ⟨(key, v), List.mem_cons_self _ _, hp, Or.inl ⟨h1, hk⟩⟩
            · exact lift (tailCase x l' hr rfl hsx)
      · have h1' : Contains key sliceSchema = false := by simpa using h1
        simp only [h1', Bool.false_eq_true, if_false] at h
        by_cases h2 : Contains key mapSchema = true
        · simp only [h2, if_true] at h
          cases hk : keySuggestion key mapSchema cArgs with
          | error e => rw [hk] at h; cases h
          | ok x =>
            rw [hk] at h
            cases hr : nameSuggestions w cArgs cFlags rest with
            | error e => rw [hr] at h; cases h
            | ok l' =>
              rw [hr] at h
              cases h
              by_cases hsx : s = x
              · subst hsx
                exact ⟨(key, v), List.mem_cons_self _ _, hp, Or.inr (Or.inl ⟨h1', h2, hk⟩)⟩
              · exact lift (tailCase x l' hr rfl hsx)
        · have h2' : Contains key mapSchema = false := by simpa using h2
          simp only [h2', Bool.false_eq_true, if_false] at h
          by_cases h3 : key ∈ cArgs
          · simp only [h3, if_true] at h
            exact lift (ih l h s hs)
          · simp only [h3, if_false] at h
            by_cases h4 : key ∈ cFlags
            · simp only [h4, if_true] at h
              exact lift (ih l h s hs)
            · simp only [h4, if_false] at h
              by_cases h5 : (isFlag key && decide (w = [])) = true
              · simp only [h5, if_true] at h
                exact lift (ih l h s hs)
              · simp only [h5, if_false] at h
                cases hr : nameSuggestions w cArgs cFlags rest with
                | error e => rw [hr] at h; cases h
                | ok l' =>
                  rw [hr] at h
                  cases h
                  by_cases hsx : s = key
                  · subst hsx
                    exact ⟨(s, v), List.mem_cons_self _ _, hp,
                      Or.inr (Or.inr ⟨h1', h2', rfl, h3, h4, by simpa using h5⟩)⟩
                  · exact lift (tailCase key l' hr rfl hsx)
    · simp only [hp, Bool.not_false, if_true] at h
      exact lift (ih l h s hs)

set_option maxRecDepth 100000 in
/-- Claim C7, refuted on the code: in the registry whose only command has the namespace
`-{idx}` (there is no argument, so every argument name is as the claim requires), completing
`-` after `scw` with the right word `-0` suggests `-0`, which is a completed flag: the used
indices of a key with a placeholder are searched among the completed arguments only. -/
theorem C7_counterexample :
    (∀ cmd ∈ dashRegistry, ∀ spec ∈ cmd.ArgSpecs, SegmentedName spec.Name) ∧
      isCompletingArgValue "-".toList = false ∧
      locate id (BuildAutoCompleteTree dashRegistry).1 (BuildAutoCompleteTree dashRegistry).2
        none ["scw".toList] = .ok (some 1) ∧
      AutoComplete id dashRegistry ["scw".toList] "-".toList ["-0".toList] =
        .ok { Suggestions := ["--access-key".toList, "--debug".toList, "--help".toList,
          "--output".toList, "--profile".toList, "--secret-key".toList, "-0".toList,
          "-D".toList, "-h".toList, "-o".toList, "-p".toList] } ∧
      "-0".toList ∈ (trackUsage (BuildAutoCompleteTree dashRegistry).1 1
        (["scw".toList] ++ ["-0".toList])).2 := by
  refine ⟨?_, ?_, ?_, ?_, ?_⟩
  · intro cmd hcmd spec hspec
    simp only [dashRegistry, List.mem_singleton] at hcmd
    subst hcmd
    simp at hspec
  · decide
  · decide!
  · decide!
  · decide!

/-- Claim C7 as amended: for every registry whose argument names consist of letters,
digits, hyphens, dots and placeholder segments and whose namespaces, resources and verbs
contain no placeholder, in name completion (no `=` in the word to complete) no suggestion of
the response is a member of the completed arguments or of the completed flags computed from
the left and right words at the located node. -/
theorem C7_nothing_supplied_is_resuggested (order : RangeOrder) (hv : order.Valid)
    (commands : List Command)
    (hargs : ∀ cmd ∈ commands, ∀ spec ∈ cmd.ArgSpecs, SegmentedName spec.Name)
    (hpath : ∀ cmd ∈ commands,
      PlainName cmd.Namespace ∧ PlainName cmd.Resource ∧ PlainName cmd.Verb)
    (leftWords : List Str) (wordToComplete : Str) (rightWords : List Str)
    (hword : isCompletingArgValue wordToComplete = false) (node : Nat)
    (hloc : locate order (BuildAutoCompleteTree commands).1 (BuildAutoCompleteTree commands).2
      none leftWords = .ok (some node))
    (r : AutocompleteResponse)
    (hr : AutoComplete order commands leftWords wordToComplete rightWords = .ok r) :
    ∀ s ∈ r.Suggestions,
      s ∉ (trackUsage (BuildAutoCompleteTree commands).1 node (leftWords ++ rightWords)).1 ∧
      s ∉ (trackUsage (BuildAutoCompleteTree commands).1 node (leftWords ++ rightWords)).2 := by
  intro s hs
  unfold AutoComplete at hr
  simp only [hloc] at hr
  unfold suggest at hr
  simp only [hword, Bool.false_eq_true, if_false] at hr
  split at hr
  · cases hr
  · rename_i l hl
    cases hr
    simp only [newAutoCompleteResponse] at hs
    rw [mem_sortStrings] at hs
    obtain ⟨e, he, _, hcase⟩ := nameSuggestions_mem _ _ _ _ l hl s hs
    have hmem : e ∈ (BuildAutoCompleteTree commands).1.children node :=
      (hv _).mem_iff.mp he
    have hkey := KeysOK_children (KeysOK_BuildAutoCompleteTree commands hargs hpath) node e hmem
    have hflags := trackUsage_flags (BuildAutoCompleteTree commands).1 node
      (leftWords ++ rightWords) ([], []) (by simp)
    have viaSegments : ∀ schema : Str, (schema = sliceSchema ∨ schema = mapSchema) →
        Contains e.1 schema = true →
        keySuggestion e.1 schema
          (trackUsage (BuildAutoCompleteTree commands).1 node (leftWords ++ rightWords)).1 =
          .ok s →
        s ∉ (trackUsage (BuildAutoCompleteTree commands).1 node (leftWords ++ rightWords)).1 ∧
        s ∉ (trackUsage (BuildAutoCompleteTree commands).1 node (leftWords ++ rightWords)).2 := by
      intro schema hsch hcont hsug
      rcases hkey with hplain | ⟨segs, hsegs, hform⟩
      · rcases hsch with e1 | e1 <;> rw [e1] at hcont
        · rw [hplain.1] at hcont; cases hcont
        · rw [hplain.2] at hcont; cases hcont
      · rw [hform] at hsug
        have hfresh := keySuggestion_fresh hsch segs hsegs _ s hsug
        exact ⟨hfresh.1, fun hf => hflags s hf hfresh.2⟩
    rcases hcase with ⟨h1, h2⟩ | ⟨_, h1, h2⟩ | ⟨_, _, _, h1, h2, _⟩
    · exact viaSegments sliceSchema (Or.inl rfl) h1 h2
    · exact viaSegments mapSchema (Or.inr rfl) h1 h2
    · exact ⟨h1, h2⟩

set_option maxRecDepth 100000 in
/-- The amended claim applied to the second scenario of the spec: after `tags.0=foo`, the
completion of `tags.` on `instance server list` suggests `tags.1=`, which is not a completed
argument. -/
theorem C7_nothing_supplied_is_resuggested_witness :
    AutoComplete id tagsRegistry (serverListPath ++ ["tags.0=foo".toList]) "tags.".toList [] =
        .ok { Suggestions := ["tags.1=".toList] } ∧
      "tags.1=".toList ∉ (trackUsage (BuildAutoCompleteTree tagsRegistry).1 52
        ((serverListPath ++ ["tags.0=foo".toList]) ++ [])).1 ∧
      "tags.1=".toList ∉ (trackUsage (BuildAutoCompleteTree tagsRegistry).1 52
        ((serverListPath ++ ["tags.0=foo".toList]) ++ [])).2 :=
  ⟨by decide!, C7_nothing_supplied_is_resuggested id (fun m => List.Perm.refl m) tagsRegistry
    (by
      intro cmd hcmd spec hspec
      simp only [tagsRegistry, List.mem_singleton] at hcmd
      subst hcmd
      simp only [serverList, List.mem_singleton] at hspec
      subst hspec
      exact ⟨["tags".toList, "{idx}".toList],
        by
          intro seg hseg
          simp only [List.mem_cons, List.mem_singleton, List.not_mem_nil, or_false] at hseg
          rcases hseg with e | e <;> rw [e]
          · exact Or.inr (Or.inr (by decide))
          · exact Or.inl rfl,
        by decide⟩)
    (by
      intro cmd hcmd
      simp only [tagsRegistry, List.mem_singleton] at hcmd
      subst hcmd
      decide)
    (serverListPath ++ ["tags.0=foo".toList]) "tags.".toList [] (by decide) 52
    (by decide!) { Suggestions := ["tags.1=".toList] } (by decide!) "tags.1=".toList
    (List.mem_singleton.mpr rfl)⟩

/-! ### The repeated argument `tags.{idx}` -/

theorem tags_segments : ∀ seg ∈ ["tags".toList, sliceSchema], IsSegment seg := by
  intro seg hseg
  simp only [List.mem_cons, List.mem_singleton, List.not_mem_nil, or_false] at hseg
  rcases hseg with e | e <;> rw [e]
  · exact Or.inr (Or.inr (by decide))
  · exact Or.inl rfl

theorem tags_key : "tags.{idx}=".toList = joinDots ["tags".toList, sliceSchema] ++ ['='] := by
  decide

theorem tagKey_segments (i : Nat) :
    tagKey i =
      joinDots (["tags".toList, sliceSchema].map (segText sliceSchema (Itoa i))) ++ ['='] := by
  have h1 : segText sliceSchema (Itoa i) "tags".toList = "tags".toList := by
    have : "tags".toList ≠ sliceSchema := by decide
    simp only [segText, this, if_false]
  have h2 : segText sliceSchema (Itoa i) sliceSchema = Itoa i := by
    simp only [segText, if_true]
  simp only [List.map, h1, h2, joinDots, tagKey]
  simp

theorem tagKey_injective {i j : Nat} (h : tagKey i = tagKey j) : i = j := by
  unfold tagKey at h
  have h1 := List.append_cancel_right h
  exact Itoa_injective i j (List.append_cancel_left h1)

theorem tags_pattern :
    regexpCompile (ReplaceAll "tags.{idx}=".toList sliceSchema "([0-9]+)".toList) =
      some (joinAtoms sliceSchema ["tags".toList, sliceSchema] ++ [Atom.lit '=']) := by
  decide

theorem tags_submatch (i : Nat) :
    FindStringSubmatch (joinAtoms sliceSchema ["tags".toList, sliceSchema] ++ [Atom.lit '='])
      (tagKey i) = some [Itoa i] := by
  rw [tagKey_segments]
  have h := FindStringSubmatch_of_matchHere
    (matchHere_key sliceSchema (Itoa i) (Itoa_ne_nil i) (Itoa_digits i)
      ["tags".toList, sliceSchema])
  have hc : ["tags".toList, sliceSchema].count sliceSchema = 1 := by decide
  rw [hc] at h
  exact h

theorem usedIndexes_tagKeys (r : List Atom)
    (hr : ∀ i, FindStringSubmatch r (tagKey i) = some [Itoa i]) :
    ∀ args : List Str, (∀ a ∈ args, ∃ i, a = tagKey i) →
      ∃ used, usedIndexes r args = .ok used ∧
        ∀ x, x ∈ used ↔ ∃ i, tagKey i ∈ args ∧ x = Itoa i
  | [], _ => ⟨[], rfl, by simp⟩
  | a :: args, h => by
    obtain ⟨i, hi⟩ := h a (List.mem_cons_self _ _)
    obtain ⟨used, hu, hmem⟩ := usedIndexes_tagKeys r hr args
      (fun x hx => h x (List.mem_cons_of_mem _ hx))
    subst hi
    refine ⟨used.insert (Itoa i), by simp only [usedIndexes, hr, hu], ?_⟩
    intro x
    rw [List.mem_insert_iff, hmem]
    constructor
    · rintro (e | ⟨j, hj, e⟩)
      · exact ⟨i, List.mem_cons_self _ _, e⟩
      · exact ⟨j, List.mem_cons_of_mem _ hj, e⟩
    · rintro ⟨j, hj, e⟩
      rcases List.mem_cons.mp hj with e2 | hj'
      · left; rw [e, tagKey_injective e2]
      · right; exact ⟨j, hj', e⟩

theorem nextFreeIndex_eq (used : List Str) (n : Nat) (hlow : ∀ j < n, Itoa j ∈ used)
    (hn : Itoa n ∉ used) :
    ∀ (fuel i : Nat), i ≤ n → n - i < fuel → nextFreeIndex used fuel i = some n
  | 0, _, _, h => by omega
  | fuel + 1, i, hi, h => by
    simp only [nextFreeIndex]
    by_cases e : i = n
    · subst e; simp [hn]
    · have : Itoa i ∈ used := hlow i (by omega)
      simp only [this, if_true]
      exact nextFreeIndex_eq used n hlow hn fuel (i + 1) (by omega) (by omega)

theorem length_ge_of_indexes (used : List Str) (n : Nat) (hlow : ∀ j < n, Itoa j ∈ used) :
    n ≤ used.length := by
  have hnodup : ((List.range n).map Itoa).Nodup :=
    (List.nodup_range n).map (fun a b h => Itoa_injective a b h)
  have hsub : (List.range n).map Itoa ⊆ used := by
    intro x hx
    obtain ⟨j, hj, e⟩ := List.mem_map.mp hx
    rw [← e]
    exact hlow j (List.mem_range.mp hj)
  have := (List.subperm_of_subset hnodup hsub).length_le
  simpa using this

/-- The function `keySuggestion` on the key `tags.{idx}=` when the completed arguments are
the keys `tags.i=` for `i < n`. -/
theorem keySuggestion_tags (n : Nat) (completed : List Str)
    (hform : ∀ a ∈ completed, ∃ i, i < n ∧ a = tagKey i)
    (hall : ∀ i < n, tagKey i ∈ completed) :
    keySuggestion "tags.{idx}=".toList sliceSchema completed = .ok (tagKey n) := by
  obtain ⟨used, hu, hmem⟩ := usedIndexes_tagKeys _ tags_submatch completed
    (fun a ha => let ⟨i, _, e⟩ := hform a ha; ⟨i, e⟩)
  have hlow : ∀ j < n, Itoa j ∈ used := fun j hj => (hmem _).mpr ⟨j, hall j hj, rfl⟩
  have hn : Itoa n ∉ used := by
    intro hin
    obtain ⟨j, hj, e⟩ := (hmem _).mp hin
    obtain ⟨i, hi, e2⟩ := hform _ hj
    have := tagKey_injective e2
    have := Itoa_injective _ _ e
    omega
  have hnext := nextFreeIndex_eq used n hlow hn (used.length + 1) 0 (by omega)
    (by have := length_ge_of_indexes used n hlow; omega)
  unfold keySuggestion
  simp only [tags_pattern, hu, hnext]
  rw [tags_key, ReplaceAll_key (Or.inl rfl) _ _ tags_segments,
    ReplaceAll_group_key _ _ _ tags_segments, tagKey_segments]

theorem Itoa_head (i : Nat) : ∃ d ds, Itoa i = d :: ds ∧ isDigit d = true := by
  cases h : Itoa i with
  | nil => exact absurd h (Itoa_ne_nil i)
  | cons d ds => exact ⟨d, ds, rfl, Itoa_digits i d (by rw [h]; exact List.mem_cons_self _ _)⟩

theorem eq_not_mem_Itoa (i : Nat) : '=' ∉ Itoa i := by
  intro h
  have := Itoa_digits i '=' h
  revert this; decide

theorem Contains_of_mem (c : Char) : ∀ s : Str, c ∈ s → Contains s [c] = true
  | [], h => by simp at h
  | x :: s, h => by
    rcases List.mem_cons.mp h with e | h'
    · subst e
      cases s <;> simp [Contains, HasPrefix]
    · simp [Contains, Contains_of_mem c s h']

theorem trackWord_tagWord (h : Heap) (node : Nat) (acc : List Str × List Str) (i : Nat)
    (v : Str) : trackWord h node acc (tagWord i v) = (acc.1.insert (tagKey i), acc.2) := by
  have hflag : isFlag (tagWord i v) = false := by
    simp [isFlag, tagWord, HasPrefix]
  have harg : isArg (tagWord i v) = true := by
    apply Contains_of_mem
    simp [tagWord]
  have hkey : wordKey (tagWord i v) = "tags.".toList ++ Itoa i := by
    unfold wordKey tagWord
    rw [splitFirst_append_eq ("tags.".toList ++ Itoa i) v
      (by
        intro hm
        rcases List.mem_append.mp hm with hm | hm
        · revert hm; decide
        · exact eq_not_mem_Itoa i hm)]
  simp only [trackWord, hflag, harg, hkey, Bool.false_eq_true, if_false, if_true]
  rfl

theorem trackUsage_tagWords (h : Heap) (node : Nat) :
    ∀ (ws : List Str) (acc : List Str × List Str), (∀ w ∈ ws, ∃ i v, w = tagWord i v) →
      (ws.foldl (trackWord h node) acc).2 = acc.2 ∧
      ∀ x, x ∈ (ws.foldl (trackWord h node) acc).1 ↔
        x ∈ acc.1 ∨ ∃ i v, tagWord i v ∈ ws ∧ x = tagKey i
  | [], acc, _ => ⟨rfl, by simp⟩
  | w :: ws, acc, hw => by
    obtain ⟨i, v, e⟩ := hw w (List.mem_cons_self _ _)
    subst e
    obtain ⟨ih1, ih2⟩ := trackUsage_tagWords h node ws (trackWord h node acc (tagWord i v))
      (fun x hx => hw x (List.mem_cons_of_mem _ hx))
    rw [trackWord_tagWord] at ih1 ih2
    simp only [List.foldl, trackWord_tagWord]
    refine ⟨ih1, ?_⟩
    intro x
    rw [ih2, List.mem_insert_iff]
    constructor
    · rintro ((e | hx) | ⟨j, u, hj, e⟩)
      · exact Or.inr ⟨i, v, List.mem_cons_self _ _, e⟩
      · exact Or.inl hx
      · exact Or.inr ⟨j, u, List.mem_cons_of_mem _ hj, e⟩
    · rintro (hx | ⟨j, u, hj, e⟩)
      · exact Or.inl (Or.inr hx)
      · rcases List.mem_cons.mp hj with e2 | hj'
        · left; left
          have : tagKey j = tagKey i := by
            have h4 := congrArg (splitFirst '=') e2
            unfold tagWord at h4
            rw [splitFirst_append_eq _ u (by
                intro hm
                rcases List.mem_append.mp hm with hm | hm
                · revert hm; decide
                · exact eq_not_mem_Itoa j hm),
              splitFirst_append_eq _ v (by
                intro hm
                rcases List.mem_append.mp hm with hm | hm
                · revert hm; decide
                · exact eq_not_mem_Itoa i hm)] at h4
            simp only [Option.some.injEq, Prod.mk.injEq] at h4
            unfold tagKey
            rw [h4.1]
          rw [e, this]
        · exact Or.inr ⟨j, u, hj', e⟩

set_option maxRecDepth 100000 in
theorem tagsRegistry_facts :
    locate id (BuildAutoCompleteTree tagsRegistry).1 (BuildAutoCompleteTree tagsRegistry).2 none
        serverListPath = .ok (some 52) ∧
      isLeafCommand id (BuildAutoCompleteTree tagsRegistry).1 52 = true ∧
      (BuildAutoCompleteTree tagsRegistry).1.children 52 =
        [("--access-key".toList, 53), ("-D".toList, 55), ("--debug".toList, 56),
         ("-h".toList, 57), ("--help".toList, 58), ("-o".toList, 59), ("--output".toList, 62),
         ("-p".toList, 65), ("--profile".toList, 66), ("--secret-key".toList, 67),
         ("tags.{idx}=".toList, 69)] ∧
      trackUsage (BuildAutoCompleteTree tagsRegistry).1 52 serverListPath = ([], []) := by
  decide!

theorem tagWord_not_child (i : Nat) (v : Str) :
    mapGet ((BuildAutoCompleteTree tagsRegistry).1.children 52) (tagWord i v) = none := by
  rw [tagsRegistry_facts.2.2.1]
  obtain ⟨d, ds, hd, hdig⟩ := Itoa_head i
  have hne : ¬ ('{' = d) := by
    intro e; subst e; revert hdig; decide
  simp [mapGet, tagWord, hd, hne]

theorem locate_tagWords :
    ∀ (ws : List Str) (prev : Option Str), (∀ w ∈ ws, ∃ i v, w = tagWord i v) →
      locate id (BuildAutoCompleteTree tagsRegistry).1 52 prev ws = .ok (some 52)
  | [], _, _ => rfl
  | w :: ws, prev, hw => by
    obtain ⟨i, v, e⟩ := hw w (List.mem_cons_self _ _)
    subst e
    simp only [locate, tagWord_not_child, tagsRegistry_facts.2.1, if_true]
    exact locate_tagWords ws _
      (fun x hx => hw x (List.mem_cons_of_mem _ hx))

theorem nameSuggestions_none (w : Str) (cArgs cFlags : List Str) :
    ∀ m : ChildMap, (∀ e ∈ m, hasPrefix e.1 w = false) →
      nameSuggestions w cArgs cFlags m = .ok []
  | [], _ => rfl
  | (key, v) :: m, h => by
    have h1 : hasPrefix key w = false := h (key, v) (List.mem_cons_self _ _)
    simp only [nameSuggestions, h1, Bool.not_false, if_true]
    exact nameSuggestions_none w cArgs cFlags m (fun e he => h e (List.mem_cons_of_mem _ he))

theorem nameSuggestions_single (w : Str) (cArgs cFlags : List Str) (key : Str) (v : Nat)
    (s : Str) (hp : hasPrefix key w = true) (hc : Contains key sliceSchema = true)
    (hk : keySuggestion key sliceSchema cArgs = .ok s) (post : ChildMap)
    (hpost : ∀ e ∈ post, hasPrefix e.1 w = false) :
    ∀ pre : ChildMap, (∀ e ∈ pre, hasPrefix e.1 w = false) →
      nameSuggestions w cArgs cFlags (pre ++ (key, v) :: post) = .ok [s]
  | [], _ => by
    simp only [List.nil_append, nameSuggestions, hp, hc, hk, Bool.not_true, Bool.false_eq_true,
      if_false, if_true, nameSuggestions_none w cArgs cFlags post hpost]
    rfl
  | (k, u) :: pre, h => by
    have h1 : hasPrefix k w = false := h (k, u) (List.mem_cons_self _ _)
    simp only [List.cons_append, nameSuggestions, h1, Bool.not_false, if_true]
    exact nameSuggestions_single w cArgs cFlags key v s hp hc hk post hpost pre
      (fun e he => h e (List.mem_cons_of_mem _ he))

theorem nameSuggestions_tags {order : RangeOrder} (hv : order.Valid) (cArgs cFlags : List Str)
    (s : Str) (hk : keySuggestion "tags.{idx}=".toList sliceSchema cArgs = .ok s) :
    nameSuggestions "tags.".toList cArgs cFlags
      (order ((BuildAutoCompleteTree tagsRegistry).1.children 52)) = .ok [s] := by
  have hperm := hv ((BuildAutoCompleteTree tagsRegistry).1.children 52)
  rw [tagsRegistry_facts.2.2.1] at hperm ⊢
  have hmem : ("tags.{idx}=".toList, 69) ∈
      order [("--access-key".toList, 53), ("-D".toList, 55), ("--debug".toList, 56),
         ("-h".toList, 57), ("--help".toList, 58), ("-o".toList, 59), ("--output".toList, 62),
         ("-p".toList, 65), ("--profile".toList, 66), ("--secret-key".toList, 67),
         ("tags.{idx}=".toList, 69)] := hperm.mem_iff.mpr (by decide)
  have hnodup := hperm.nodup_iff.mpr (by decide)
  obtain ⟨pre, post, hsplit⟩ := List.append_of_mem hmem
  rw [hsplit] at hnodup hperm ⊢
  have hothers : ∀ e ∈ [("--access-key".toList, 53), ("-D".toList, 55), ("--debug".toList, 56),
         ("-h".toList, 57), ("--help".toList, 58), ("-o".toList, 59), ("--output".toList, 62),
         ("-p".toList, 65), ("--profile".toList, 66), ("--secret-key".toList, 67),
         ("tags.{idx}=".toList, (69 : Nat))],
      e ≠ ("tags.{idx}=".toList, 69) → hasPrefix e.1 "tags.".toList = false := by
    decide
  have hne : ∀ e ∈ pre ++ post, e ≠ ("tags.{idx}=".toList, 69) := by
    intro e he heq
    subst heq
    exact (List.nodup_cons.mp (List.nodup_middle.mp hnodup)).1 he
  apply nameSuggestions_single _ _ _ _ _ _ (by decide) (by decide) hk
  · intro e he
    exact hothers e (hperm.mem_iff.mp (by simp [he]))
      (hne e (List.mem_append.mpr (Or.inr he)))
  · intro e he
    exact hothers e (hperm.mem_iff.mp (by simp [he]))
      (hne e (List.mem_append.mpr (Or.inl he)))

theorem tagWord_index {i j : Nat} {v u : Str} (h : tagWord i v = tagWord j u) : i = j := by
  have h4 := congrArg (splitFirst '=') h
  unfold tagWord at h4
  rw [splitFirst_append_eq _ v (by
      intro hm
      rcases List.mem_append.mp hm with hm | hm
      · revert hm; decide
      · exact eq_not_mem_Itoa i hm),
    splitFirst_append_eq _ u (by
      intro hm
      rcases List.mem_append.mp hm with hm | hm
      · revert hm; decide
      · exact eq_not_mem_Itoa j hm)] at h4
  simp only [Option.some.injEq, Prod.mk.injEq] at h4
  exact Itoa_injective i j (List.append_cancel_left h4.1)

/-! ### The bounds on the depth of the loops are never reached -/

theorem splitFirst_length (sep : Char) :
    ∀ (s l r : Str), splitFirst sep s = some (l, r) → l.length + r.length + 1 = s.length
  | [], _, _, h => by simp [splitFirst] at h
  | c :: s, l, r, h => by
    simp only [splitFirst] at h
    split at h
    · cases h; simp
    · split at h
      · cases h
      · rename_i l' r' hs
        have ih := splitFirst_length sep s l' r' hs
        cases h
        simp only [List.length_cons]
        omega

/-- The result of `hasPrefixFuel` does not depend on the fuel once it exceeds the length of
the key: the bound in `hasPrefix` is never reached. -/
theorem hasPrefixFuel_stable :
    ∀ (fuel1 fuel2 : Nat) (key w : Str), key.length < fuel1 → key.length < fuel2 →
      hasPrefixFuel fuel1 key w = hasPrefixFuel fuel2 key w
  | 0, _, _, _, h, _ => by omega
  | _ + 1, 0, _, _, _, h => by omega
  | fuel1 + 1, fuel2 + 1, key, w, h1, h2 => by
    simp only [hasPrefixFuel]
    split
    · rfl
    · split
      · rfl
      · split
        · rfl
        · split
          · rename_i leftKey rightKey leftWord rightWord hk hw
            have hlen := splitFirst_length '.' key leftKey rightKey hk
            split
            · exact hasPrefixFuel_stable fuel1 fuel2 rightKey rightWord (by omega) (by omega)
            · rfl
          · rfl

theorem nextFreeIndex_none (used : List Str) :
    ∀ (fuel i : Nat), nextFreeIndex used fuel i = none →
      ∀ j, i ≤ j → j < i + fuel → Itoa j ∈ used
  | 0, _, _, _, _, _ => by omega
  | fuel + 1, i, h, j, h1, h2 => by
    simp only [nextFreeIndex] at h
    split at h
    · rename_i hi
      by_cases e : j = i
      · rw [e]; exact hi
      · exact nextFreeIndex_none used fuel (i + 1) h j (by omega) (by omega)
    · cases h

/-- The search for the next free index stops within one more turn than there are used
indices. -/
theorem nextFreeIndex_isSome (used : List Str) :
    (nextFreeIndex used (used.length + 1) 0).isSome = true := by
  cases h : nextFreeIndex used (used.length + 1) 0 with
  | some i => rfl
  | none =>
    have hall := nextFreeIndex_none used _ _ h
    have := length_ge_of_indexes used (used.length + 1)
      (fun j hj => hall j (Nat.zero_le _) (by omega))
    omega

/-! ### Unknown words at a leaf command, and words after a flag -/

set_option maxRecDepth 100000 in
/-- Claim C12, evaluated on the code: after `scw instance server list`, typing `-o json`
before the argument word `zone=fr-par-1` (or before the unknown word `bogus`) gives the empty
response, whereas the same flag and value on the right of the cursor leave the suggestions in
place: the node reached after a flag value shares the child mapping of the command but is not
a leaf command, so the next unmatched word stops the locator. -/
theorem C12_word_after_flag_value_stops_completion :
    AutoComplete id zoneRegistry
        (serverListPath ++ ["-o".toList, "json".toList] ++ ["zone=fr-par-1".toList])
        "-".toList [] = .ok { Suggestions := [] } ∧
      AutoComplete id zoneRegistry (serverListPath ++ ["zone=fr-par-1".toList]) "-".toList
        (["-o".toList, "json".toList] ++ []) =
        .ok { Suggestions := ["--access-key".toList, "--debug".toList, "--help".toList,
          "--output".toList, "--profile".toList, "--secret-key".toList, "-D".toList,
          "-h".toList, "-p".toList] } ∧
      AutoComplete id zoneRegistry
        (serverListPath ++ ["-o".toList, "json".toList] ++ ["bogus".toList])
        "z".toList [] = .ok { Suggestions := [] } ∧
      AutoComplete id zoneRegistry (serverListPath ++ ["bogus".toList]) "z".toList
        (["-o".toList, "json".toList] ++ []) = .ok { Suggestions := ["zone=".toList] } := by
  decide!

/-! ### The cursor-position helper -/

theorem wordIndexLoop_spec (charIndex : Int) :
    ∀ (words : List Str) (i : Nat) (charCount : Int),
      match wordIndexLoop charIndex words i charCount with
      | some k => i ≤ k ∧ k - i < words.length ∧
          charIndex ≤ charCount + wordEnd words (k - i) ∧
          ∀ j, j < k - i → ¬ charIndex ≤ charCount + wordEnd words j
      | none => ∀ j, j < words.length → ¬ charIndex ≤ charCount + wordEnd words j
  | [], i, charCount => by
    simp [wordIndexLoop]
  | w :: rest, i, charCount => by
    simp only [wordIndexLoop]
    by_cases h : charIndex ≤ charCount + goLen w
    · simp only [h, if_true]
      refine ⟨Nat.le_refl i, by simp, by simpa [wordEnd] using h, ?_⟩
      intro j hj
      omega
    · simp only [h, if_false]
      have ih := wordIndexLoop_spec charIndex rest (i + 1) (charCount + goLen w + 1)
      cases hr : wordIndexLoop charIndex rest (i + 1) (charCount + goLen w + 1) with
      | none =>
        rw [hr] at ih
        simp only at ih ⊢
        intro j hj
        cases j with
        | zero => simpa [wordEnd] using h
        | succ j =>
          have := ih j (by simpa using hj)
          simp only [wordEnd]
          intro hc
          apply this
          omega
      | some k =>
        rw [hr] at ih
        simp only at ih ⊢
        obtain ⟨h1, h2, h3, h4⟩ := ih
        have hk : k - i = (k - (i + 1)) + 1 := by omega
        refine ⟨by omega, by rw [hk]; simpa using h2, ?_, ?_⟩
        · rw [hk]
          simp only [wordEnd]
          omega
        · intro j hj
          cases j with
          | zero => simpa [wordEnd] using h
          | succ j =>
            have := h4 j (by omega)
            simp only [wordEnd]
            intro hc
            apply this
            omega

/-- Claim C16: for every integer `charIndex` and every list of words, `WordIndex` lies
between 0 and the number of words, no index below it satisfies
`charIndex <= len(words[0]) + ... + len(words[i]) + i`, and when it is below the number of
words it satisfies that inequality itself: it is the smallest such index, and the number of
words when there is none. -/
theorem C16_WordIndex_reference (charIndex : Int) (words : List Str) :
    WordIndex charIndex words ≤ words.length ∧
      (∀ j, j < WordIndex charIndex words → ¬ charIndex ≤ wordEnd words j) ∧
      (WordIndex charIndex words < words.length →
        charIndex ≤ wordEnd words (WordIndex charIndex words)) := by
  have h := wordIndexLoop_spec charIndex words 0 0
  unfold WordIndex
  cases hr : wordIndexLoop charIndex words 0 0 with
  | none =>
    rw [hr] at h
    simp only [Option.getD_none] at h ⊢
    refine ⟨Nat.le_refl _, ?_, fun hlt => absurd hlt (Nat.lt_irrefl _)⟩
    intro j hj
    simpa using h j hj
  | some k =>
    rw [hr] at h
    simp only [Option.getD_some] at h ⊢
    obtain ⟨_, h2, h3, h4⟩ := h
    simp only [Nat.sub_zero, zero_add] at h2 h3 h4
    exact ⟨Nat.le_of_lt h2, h4, fun _ => h3⟩

/-! ### Prefix matching across dotted segments -/

theorem splitDots_ne_nil : ∀ s : Str, splitDots s ≠ []
  | [] => by simp [splitDots]
  | c :: s => by
    simp only [splitDots]
    split
    · simp
    · split <;> simp

theorem splitDots_none : ∀ s : Str, splitFirst '.' s = none → splitDots s = [s]
  | [], _ => rfl
  | c :: s, h => by
    simp only [splitFirst] at h
    split at h
    · cases h
    · rename_i hc
      split at h
      · rename_i hs
        simp only [splitDots, hc, if_false, splitDots_none s hs]
      · cases h

theorem splitDots_some : ∀ (s l r : Str), splitFirst '.' s = some (l, r) →
    splitDots s = l :: splitDots r
  | [], _, _, h => by simp [splitFirst] at h
  | c :: s, l, r, h => by
    simp only [splitFirst] at h
    split at h
    · rename_i hc
      cases h
      simp only [splitDots, hc, if_true]
    · rename_i hc
      split at h
      · cases h
      · rename_i l' r' hs
        have ih := splitDots_some s l' r' hs
        cases h
        simp only [splitDots, hc, if_false, ih]

theorem splitFirst_eq_append (sep : Char) : ∀ (s l r : Str), splitFirst sep s = some (l, r) →
    s = l ++ sep :: r
  | [], _, _, h => by simp [splitFirst] at h
  | c :: s, l, r, h => by
    simp only [splitFirst] at h
    split at h
    · rename_i hc
      cases h
      simp [hc]
    · split at h
      · cases h
      · rename_i l' r' hs
        have ih := splitFirst_eq_append sep s l' r' hs
        cases h
        rw [ih]
        rfl

theorem Contains_dot (s : Str) : Contains s ".".toList = (splitFirst '.' s).isSome := by
  induction s with
  | nil => rfl
  | cons c s ih =>
    by_cases hc : c = '.'
    · subst hc
      cases s <;> simp [Contains, HasPrefix, splitFirst]
    · have h1 : HasPrefix (c :: s) ".".toList = false := by
        simp [HasPrefix, hc]
      simp only [Contains, h1, Bool.false_or, ih, splitFirst, hc, if_false]
      cases splitFirst '.' s with
      | none => rfl
      | some p => cases p; rfl

theorem HasPrefix_append_left : ∀ (k w r : Str), HasPrefix k w = true →
    HasPrefix (k ++ r) w = true
  | _, [], r, _ => by cases r <;> simp [HasPrefix]
  | [], _ :: _, _, h => by simp [HasPrefix] at h
  | c :: k, d :: w, r, h => by
    simp only [HasPrefix, Bool.and_eq_true, beq_iff_eq] at h
    simp only [List.cons_append, HasPrefix, Bool.and_eq_true, beq_iff_eq]
    exact ⟨h.1, HasPrefix_append_left k w r h.2⟩

theorem key_first_segment (key : Str) :
    ∃ k ks r, splitDots key = k :: ks ∧ key = k ++ r ∧
      (ks ≠ [] → ∃ rk, splitFirst '.' key = some (k, rk) ∧ ks = splitDots rk) := by
  cases h : splitFirst '.' key with
  | none =>
    exact ⟨key, [], [], splitDots_none key h, by simp, fun hne => absurd rfl hne⟩
  | some p =>
    obtain ⟨l, r⟩ := p
    exact ⟨l, splitDots r, '.' :: r, splitDots_some key l r h,
      splitFirst_eq_append '.' key l r h, fun _ => ⟨r, rfl, rfl⟩⟩

theorem hasPrefixFuel_dotted :
    ∀ (fuel : Nat) (key word : Str), key.length < fuel →
      dottedPrefix (splitDots key) (splitDots word) = true →
      hasPrefixFuel fuel key word = true
  | 0, _, _, h, _ => by omega
  | fuel + 1, key, word, hlen, hd => by
    obtain ⟨k, ks, r, hk, hkey, hks⟩ := key_first_segment key
    rw [hk] at hd
    simp only [hasPrefixFuel]
    by_cases h1 : HasPrefix key word = true
    · simp [h1]
    · simp only [h1, Bool.false_eq_true, if_false]
      cases hw : splitFirst '.' word with
      | none =>
        rw [splitDots_none word hw] at hd
        simp only [dottedPrefix, Bool.or_eq_true] at hd
        have hcw : Contains word ".".toList = false := by rw [Contains_dot, hw]; rfl
        rcases hd with (hd | hd) | hd
        · exact absurd (hkey ▸ HasPrefix_append_left k word r hd) h1
        · have := HasPrefix_append_left k sliceSchema r hd
          rw [← hkey] at this
          simp only [hcw, this, Bool.not_false, Bool.true_or, Bool.and_self, if_true]
        · have := HasPrefix_append_left k mapSchema r hd
          rw [← hkey] at this
          simp only [hcw, this, Bool.not_false, Bool.or_true, Bool.and_self, if_true]
      | some p =>
        obtain ⟨lw, rw⟩ := p
        rw [splitDots_some word lw rw hw] at hd
        obtain ⟨w2, ws, hrw⟩ : ∃ w2 ws, splitDots rw = w2 :: ws := by
          cases hs : splitDots rw with
          | nil => exact absurd hs (splitDots_ne_nil rw)
          | cons a l => exact ⟨a, l, rfl⟩
        rw [hrw] at hd
        simp only [dottedPrefix, Bool.and_eq_true] at hd
        obtain ⟨hseg, hrest⟩ := hd
        have hne : ks ≠ [] := by
          intro e
          rw [e] at hrest
          simp [dottedPrefix] at hrest
        obtain ⟨rk, hsk, hks2⟩ := hks hne
        have hcw : Contains word ".".toList = true := by rw [Contains_dot, hw]; rfl
        have hck : Contains key ".".toList = true := by rw [Contains_dot, hsk]; rfl
        have hrl := splitFirst_length '.' key k rk hsk
        have hrec := hasPrefixFuel_dotted fuel rk rw (by omega)
          (by rw [← hks2, hrw]; exact hrest)
        have hcond : (decide (k = lw) || decide (k = sliceSchema) || decide (k = mapSchema)) =
            true := by
          simp only [Bool.or_eq_true, decide_eq_true_eq] at hseg ⊢
          rcases hseg with (h | h) | h
          · exact Or.inl (Or.inl h.symm)
          · exact Or.inl (Or.inr h)
          · exact Or.inr h
        simp only [hcw, hck, hsk, hrec, Bool.not_true, Bool.false_and, Bool.or_self,
          Bool.false_eq_true, if_false]
        simp only [Bool.or_eq_true, decide_eq_true_eq] at hcond
        simp [hcond]

/-- Claim C15: for every key and word, split on `.`, if every word segment but the last
equals the key segment at the same place or that key segment is a placeholder, and the last
word segment is a literal prefix of the key segment at the same place or that key segment
begins with a placeholder (so the word has at most as many segments as the key), then
`hasPrefix key word` is true. -/
theorem C15_hasPrefix_dotted (key word : Str)
    (h : dottedPrefix (splitDots key) (splitDots word) = true) : hasPrefix key word = true :=
  hasPrefixFuel_dotted (key.length + 1) key word (Nat.lt_succ_self _) h

/-- The four examples of the source: `security-gr` prefixes `security-group-id`,
`image-ids.0` prefixes `image-ids.{idx}`, `volumes.0.s` prefixes `volumes.{idx}.size` and
`ip.fr-par.c` prefixes `ip.{key}.class`. -/
theorem C15_hasPrefix_dotted_witness :
    hasPrefix "security-group-id".toList "security-gr".toList = true ∧
      hasPrefix "image-ids.{idx}".toList "image-ids.0".toList = true ∧
      hasPrefix "volumes.{idx}.size".toList "volumes.0.s".toList = true ∧
      hasPrefix "ip.{key}.class".toList "ip.fr-par.c".toList = true :=
  ⟨C15_hasPrefix_dotted _ _ (by decide), C15_hasPrefix_dotted _ _ (by decide),
    C15_hasPrefix_dotted _ _ (by decide), C15_hasPrefix_dotted _ _ (by decide)⟩

/-! ### Prefix matching on keys without placeholder -/

theorem HasPrefix_iff_isPrefix : ∀ (s p : Str), HasPrefix s p = true ↔ p <+: s
  | s, [] => by cases s <;> simp [HasPrefix]
  | [], d :: p => by simp [HasPrefix]
  | c :: s, d :: p => by
    simp only [HasPrefix, Bool.and_eq_true, beq_iff_eq, List.cons_prefix_cons,
      HasPrefix_iff_isPrefix s p]
    constructor
    · rintro ⟨h1, h2⟩; exact ⟨h1.symm, h2⟩
    · rintro ⟨h1, h2⟩; exact ⟨h1.symm, h2⟩

theorem HasPrefix_of_Contains_false {s p : Str} (h : Contains s p = false) :
    HasPrefix s p = false := by
  cases s with
  | nil => simpa [Contains] using h
  | cons c s =>
    simp only [Contains, Bool.or_eq_false_iff] at h
    exact h.1

theorem Contains_suffix_false (p : Str) : ∀ (l r : Str), Contains (l ++ r) p = false →
    Contains r p = false
  | [], _, h => h
  | c :: l, r, h => by
    simp only [List.cons_append, Contains, Bool.or_eq_false_iff] at h
    exact Contains_suffix_false p l r h.2

theorem HasPrefix_common : ∀ (l x y : Str), HasPrefix (l ++ x) (l ++ y) = HasPrefix x y
  | [], _, _ => rfl
  | c :: l, x, y => by
    simp only [List.cons_append, HasPrefix, beq_self_eq_true, Bool.true_and]
    exact HasPrefix_common l x y

theorem hasPrefixFuel_plain :
    ∀ (fuel : Nat) (key word : Str), key.length < fuel → PlainName key →
      hasPrefixFuel fuel key word = HasPrefix key word
  | 0, _, _, h, _ => by omega
  | fuel + 1, key, word, hlen, hplain => by
    simp only [hasPrefixFuel]
    by_cases h1 : HasPrefix key word = true
    · simp [h1]
    · have h1' : HasPrefix key word = false := by simpa using h1
      have h2 := HasPrefix_of_Contains_false hplain.1
      have h3 := HasPrefix_of_Contains_false hplain.2
      simp only [h1', h2, h3, Bool.false_eq_true, if_false, Bool.or_self, Bool.and_false]
      split
      · rfl
      · split
        · rename_i leftKey rightKey leftWord rightWord hk hw
          have ek := splitFirst_eq_append '.' key leftKey rightKey hk
          have ew := splitFirst_eq_append '.' word leftWord rightWord hw
          have hlk := splitFirst_length '.' key leftKey rightKey hk
          have hplainR : PlainName rightKey := by
            have e : key = (leftKey ++ ['.']) ++ rightKey := by rw [ek]; simp
            exact ⟨Contains_suffix_false _ _ _ (e ▸ hplain.1),
              Contains_suffix_false _ _ _ (e ▸ hplain.2)⟩
          have hne1 : leftKey ≠ sliceSchema := by
            intro e
            rw [ek, e] at h2
            have := HasPrefix_append sliceSchema ('.' :: rightKey)
            rw [this] at h2
            cases h2
          have hne2 : leftKey ≠ mapSchema := by
            intro e
            rw [ek, e] at h3
            have := HasPrefix_append mapSchema ('.' :: rightKey)
            rw [this] at h3
            cases h3
          by_cases hl : leftKey = leftWord
          · simp only [hl, decide_True, Bool.true_or, if_true]
            rw [hasPrefixFuel_plain fuel rightKey rightWord (by omega) hplainR]
            have : HasPrefix key word = HasPrefix rightKey rightWord := by
              rw [ek, ew, hl]
              have e1 : leftWord ++ '.' :: rightKey = (leftWord ++ ['.']) ++ rightKey := by simp
              have e2 : leftWord ++ '.' :: rightWord = (leftWord ++ ['.']) ++ rightWord := by
                simp
              rw [e1, e2, HasPrefix_common]
            rw [← this, h1']
          · simp [hl, hne1, hne2]
        · rfl

/-- Claim C19: for every key that contains neither the list-index nor the map-key
placeholder and every word, `hasPrefix key word` is true if and only if the word is a literal
prefix of the key. -/
theorem C19_hasPrefix_plain (key word : Str) (hplain : PlainName key) :
    hasPrefix key word = true ↔ word <+: key := by
  unfold hasPrefix
  rw [hasPrefixFuel_plain _ key word (Nat.lt_succ_self _) hplain, HasPrefix_iff_isPrefix]

/-- The claim applied to the key `security-group-id.size`: the word `security-gr` matches,
and the word `security-gr.size`, which the dotted recursion inspects, does not. -/
theorem C19_hasPrefix_plain_witness :
    (hasPrefix "security-group-id.size".toList "security-gr".toList = true ↔
        "security-gr".toList <+: "security-group-id.size".toList) ∧
      hasPrefix "security-group-id.size".toList "security-gr.size".toList = false :=
  ⟨C19_hasPrefix_plain _ _ (by decide), by decide⟩

/-! ### Termination of the index search -/

theorem length_insert_le (a : Str) (l : List Str) : (l.insert a).length ≤ l.length + 1 := by
  by_cases hm : a ∈ l
  · rw [List.length_insert_of_mem hm]; omega
  · rw [List.length_insert_of_not_mem hm]

theorem usedIndexes_length (r : List Atom) :
    ∀ (args used : List Str), usedIndexes r args = .ok used → used.length ≤ args.length
  | [], used, h => by
    simp only [usedIndexes] at h
    cases h
    exact Nat.le_refl _
  | arg :: rest, used, h => by
    simp only [usedIndexes] at h
    split at h
    · exact Nat.le_succ_of_le (usedIndexes_length r rest used h)
    · cases h
    · split at h
      · rename_i used' hu
        cases h
        have ih := usedIndexes_length r rest used' hu
        exact Nat.le_trans (length_insert_le _ _) (Nat.succ_le_succ ih)
      · cases h

theorem nextFreeIndex_below (used : List Str) :
    ∀ (fuel i k : Nat), nextFreeIndex used fuel i = some k →
      i ≤ k ∧ ∀ j, i ≤ j → j < k → Itoa j ∈ used
  | 0, _, _, h => by simp [nextFreeIndex] at h
  | fuel + 1, i, k, h => by
    simp only [nextFreeIndex] at h
    split at h
    · rename_i hi
      obtain ⟨h1, h2⟩ := nextFreeIndex_below used fuel (i + 1) k h
      refine ⟨by omega, ?_⟩
      intro j hj1 hj2
      by_cases e : j = i
      · rw [e]; exact hi
      · exact h2 j (by omega) hj2
    · cases h
      exact ⟨Nat.le_refl _, fun j h1 h2 => by omega⟩

/-- Claim C20: for every key, placeholder and set of completed arguments (a list without
repetition) for which `keySuggestion` reaches its second loop, that loop stops: it finds an
index `i` whose numeral is not used while the numerals of all smaller indices are, `i` is at
most the number of completed arguments, and `keySuggestion` returns the key instantiated
with `i`. -/
theorem C20_index_search_bounded (key keySchema : Str) (completedArg : List Str)
    (r : List Atom) (usedIndex : List Str)
    (hr : regexpCompile (ReplaceAll key keySchema "([0-9]+)".toList) = some r)
    (hu : usedIndexes r completedArg = .ok usedIndex) :
    ∃ i, nextFreeIndex usedIndex (usedIndex.length + 1) 0 = some i ∧
      Itoa i ∉ usedIndex ∧ (∀ j, j < i → Itoa j ∈ usedIndex) ∧
      i ≤ completedArg.length ∧
      keySuggestion key keySchema completedArg =
        .ok (ReplaceAll (ReplaceAll key keySchema "([0-9]+)".toList) "([0-9]+)".toList
          (Itoa i)) := by
  have hsome := nextFreeIndex_isSome usedIndex
  cases hn : nextFreeIndex usedIndex (usedIndex.length + 1) 0 with
  | none => rw [hn] at hsome; cases hsome
  | some i =>
    have hbelow := (nextFreeIndex_below usedIndex _ _ _ hn).2
    have hlow : ∀ j, j < i → Itoa j ∈ usedIndex := fun j hj => hbelow j (Nat.zero_le _) hj
    refine ⟨i, rfl, nextFreeIndex_not_mem usedIndex _ _ _ hn, hlow, ?_, ?_⟩
    · have h1 := length_ge_of_indexes usedIndex i hlow
      have h2 := usedIndexes_length r completedArg usedIndex hu
      omega
    · unfold keySuggestion
      simp only [hr, hu, hn]

/-- The claim applied to the key `tags.{idx}=` and the completed arguments `tags.0=` and
`tags.1=`: the search stops at the index 2, which is the number of completed arguments. -/
theorem C20_index_search_bounded_witness :
    ∃ i, nextFreeIndex ["0".toList, "1".toList] 3 0 = some i ∧
      Itoa i ∉ ["0".toList, "1".toList] ∧ (∀ j, j < i → Itoa j ∈ ["0".toList, "1".toList]) ∧
      i ≤ 2 ∧
      keySuggestion "tags.{idx}=".toList sliceSchema ["tags.0=".toList, "tags.1=".toList] =
        .ok (ReplaceAll (ReplaceAll "tags.{idx}=".toList sliceSchema "([0-9]+)".toList)
          "([0-9]+)".toList (Itoa i)) :=
  C20_index_search_bounded "tags.{idx}=".toList sliceSchema
    ["tags.0=".toList, "tags.1=".toList]
    (joinAtoms sliceSchema ["tags".toList, sliceSchema] ++ [Atom.lit '='])
    ["0".toList, "1".toList] (by decide) (by decide)

/-! ### Flags on a bare tab -/

theorem KeysAll_mapSet {P : Str → Prop} {h : Heap} (hk : h.KeysAll P) (m : Nat) {key : Str}
    (hkey : P key) (v : Nat) : (h.mapSet m key v).KeysAll P := by
  intro cm hcm e he
  rcases mem_updateAt _ m h.maps cm hcm with h1 | ⟨y, hy, hxy⟩
  · exact hk cm h1 e he
  · subst hxy
    rcases mem_mapSet y key v e he with h2 | h2
    · exact hk y hy e h2
    · rw [h2]; exact hkey

theorem KeysAll_setNode {P : Str → Prop} {h : Heap} (hk : h.KeysAll P) (p : Nat)
    (f : AutoCompleteNode → AutoCompleteNode) : (h.setNode p f).KeysAll P := hk

theorem KeysAll_new {P : Str → Prop} {h : Heap} (hk : h.KeysAll P) :
    (NewAutoCompleteNode h).1.KeysAll P := by
  intro cm hcm e he
  simp only [NewAutoCompleteNode, List.mem_append, List.mem_singleton] at hcm
  rcases hcm with h1 | h1
  · exact hk cm h1 e he
  · subst h1; simp at he

theorem KeysAll_addFlagValue {P : Str → Prop} {h : Heap} (hk : h.KeysAll P)
    (node parent : Nat) {key : Str} (hkey : P key) (t : AutoCompleteNodeType) :
    (addFlagValue h node parent key t).KeysAll P := by
  unfold addFlagValue
  exact KeysAll_setNode (KeysAll_mapSet (KeysAll_new hk) _ hkey _) _ _

theorem KeysAll_foldl_values {P : Str → Prop} (node parent : Nat) :
    ∀ (values : List Str) (h : Heap), h.KeysAll P → (∀ v ∈ values, P v) →
      (values.foldl (fun h value =>
        addFlagValue h node parent value AutoCompleteNodeType.FlagValueConst) h).KeysAll P
  | [], _, hk, _ => hk
  | v :: values, h, hk, hv => by
    simp only [List.foldl]
    exact KeysAll_foldl_values node parent values _
      (KeysAll_addFlagValue hk node parent (hv v (List.mem_cons_self _ _)) _)
      (fun x hx => hv x (List.mem_cons_of_mem _ hx))

theorem KeysAll_addFlag {P : Str → Prop} {h : Heap} (hk : h.KeysAll P) (n : Nat) (name : Str)
    (values : List Str) (hasVariableValue : Bool) (hname : P name)
    (hv : ∀ v ∈ values, P v) (hvar : P (name ++ variableFlagValueSuffix)) :
    (addFlag h n name values hasVariableValue).KeysAll P := by
  unfold addFlag NewFlagAutoCompleteNode
  simp only
  have h1 := KeysAll_foldl_values (NewAutoCompleteNode h).2 n values _
    (show ((NewAutoCompleteNode h).1.setNode (NewAutoCompleteNode h).2
      (fun n => { n with NodeType := AutoCompleteNodeType.Flag, Name := name })).KeysAll P
      from KeysAll_new hk) hv
  apply KeysAll_mapSet _ _ hname
  split <;> split <;> first
    | exact KeysAll_setNode (KeysAll_addFlagValue h1 _ _ hvar _) _ _
    | exact KeysAll_setNode h1 _ _
    | exact KeysAll_addFlagValue h1 _ _ hvar _
    | exact h1

theorem KeysAll_addGlobalFlags {P : Str → Prop} {h : Heap} (hk : h.KeysAll P) (n : Nat)
    (hP : ∀ key : Str, PlainName key → P key) : (addGlobalFlags h n).KeysAll P := by
  have h1 := KeysAll_addFlag hk n "--access-key".toList [] true
    (hP _ (by decide)) (by simp) (hP _ (by decide))
  have h2 := KeysAll_addFlag h1 n "-D".toList [] false
    (hP _ (by decide)) (by simp) (hP _ (by decide))
  have h3 := KeysAll_addFlag h2 n "--debug".toList [] false
    (hP _ (by decide)) (by simp) (hP _ (by decide))
  have h4 := KeysAll_addFlag h3 n "-h".toList [] false
    (hP _ (by decide)) (by simp) (hP _ (by decide))
  have h5 := KeysAll_addFlag h4 n "--help".toList [] false
    (hP _ (by decide)) (by simp) (hP _ (by decide))
  have hvals : ∀ v ∈ ["json".toList, "human".toList], P v := by
    intro v hv
    simp only [List.mem_cons, List.mem_singleton, List.not_mem_nil, or_false] at hv
    rcases hv with hv | hv <;> rw [hv] <;> exact hP _ (by decide)
  have h6 := KeysAll_addFlag h5 n "-o".toList ["json".toList, "human".toList] false
    (hP _ (by decide)) hvals (hP _ (by decide))
  have h7 := KeysAll_addFlag h6 n "--output".toList ["json".toList, "human".toList] false
    (hP _ (by decide)) hvals (hP _ (by decide))
  have h8 := KeysAll_addFlag h7 n "-p".toList [] false
    (hP _ (by decide)) (by simp) (hP _ (by decide))
  have h9 := KeysAll_addFlag h8 n "--profile".toList [] false
    (hP _ (by decide)) (by simp) (hP _ (by decide))
  exact KeysAll_addFlag h9 n "--secret-key".toList [] true
    (hP _ (by decide)) (by simp) (hP _ (by decide))

theorem KeysAll_descendPath {P : Str → Prop} (hP : ∀ key : Str, PlainName key → P key) :
    ∀ (parts : List Str) (h : Heap) (node : Nat), h.KeysAll P → (∀ p ∈ parts, p ≠ [] → P p) →
      (descendPath h node parts).1.KeysAll P
  | [], _, _, hk, _ => hk
  | part :: parts, h, node, hk, hp => by
    simp only [descendPath]
    split
    · rename_i hne
      apply KeysAll_descendPath hP parts _ _ _ (fun x hx => hp x (List.mem_cons_of_mem _ hx))
      apply KeysAll_addGlobalFlags _ _ hP
      unfold GetChildOrCreate
      split
      · exact hk
      · exact KeysAll_mapSet (KeysAll_new hk) _ (hp part (List.mem_cons_self _ _) hne) _
    · exact KeysAll_descendPath hP parts _ _ hk (fun x hx => hp x (List.mem_cons_of_mem _ hx))

theorem KeysAll_addArgSpecs {P : Str → Prop} (node i : Nat) :
    ∀ (specs : List ArgSpec) (h : Heap) (j : Nat), h.KeysAll P →
      (∀ spec ∈ specs, P (spec.Name ++ "=".toList)) → (addArgSpecs node i h j specs).KeysAll P
  | [], _, _, hk, _ => hk
  | spec :: specs, h, j, hk, hs => by
    simp only [addArgSpecs, NewArgAutoCompleteNode]
    exact KeysAll_addArgSpecs node i specs _ _
      (KeysAll_mapSet (show ((NewAutoCompleteNode h).1.setNode (NewAutoCompleteNode h).2 _).KeysAll P
        from KeysAll_new hk) _ (hs spec (List.mem_cons_self _ _)) _)
      (fun x hx => hs x (List.mem_cons_of_mem _ hx))

theorem KeysAll_addCommands {P : Str → Prop} (hP : ∀ key : Str, PlainName key → P key)
    (scw : Nat) :
    ∀ (commands : List Command) (h : Heap) (i : Nat), h.KeysAll P →
      (∀ cmd ∈ commands, ∀ spec ∈ cmd.ArgSpecs, P (spec.Name ++ "=".toList)) →
      (∀ cmd ∈ commands, ∀ p ∈ [cmd.Namespace, cmd.Resource, cmd.Verb], p ≠ [] → P p) →
      (addCommands scw h i commands).KeysAll P
  | [], _, _, hk, _, _ => hk
  | cmd :: commands, h, i, hk, ha, hp => by
    simp only [addCommands]
    apply KeysAll_addCommands hP scw commands _ _ _
      (fun x hx => ha x (List.mem_cons_of_mem _ hx))
      (fun x hx => hp x (List.mem_cons_of_mem _ hx))
    unfold addCommand
    have h1 : (descendPath h scw [cmd.Namespace, cmd.Resource, cmd.Verb]).1.KeysAll P :=
      KeysAll_descendPath hP _ _ _ hk (hp cmd (List.mem_cons_self _ _))
    have h2 := KeysAll_addArgSpecs
      (descendPath h scw [cmd.Namespace, cmd.Resource, cmd.Verb]).2 i cmd.ArgSpecs
      ((descendPath h scw [cmd.Namespace, cmd.Resource, cmd.Verb]).1.setNode
        (descendPath h scw [cmd.Namespace, cmd.Resource, cmd.Verb]).2
        (fun n => { n with Command := some i })) 0 h1 (ha cmd (List.mem_cons_self _ _))
    simp only
    split
    · exact KeysAll_addFlag
        (KeysAll_addFlag h2 _ "-w".toList [] false (hP _ (by decide)) (by simp)
          (hP _ (by decide)))
        _ "--wait".toList [] false (hP _ (by decide)) (by simp) (hP _ (by decide))
    · exact h2

theorem KeysAll_BuildAutoCompleteTree {P : Str → Prop} (hP : ∀ key : Str, PlainName key → P key)
    (commands : List Command)
    (ha : ∀ cmd ∈ commands, ∀ spec ∈ cmd.ArgSpecs, P (spec.Name ++ "=".toList))
    (hp : ∀ cmd ∈ commands, ∀ p ∈ [cmd.Namespace, cmd.Resource, cmd.Verb], p ≠ [] → P p) :
    (BuildAutoCompleteTree commands).1.KeysAll P := by
  unfold BuildAutoCompleteTree
  simp only
  apply KeysAll_addCommands hP _ _ _ _ _ ha hp
  apply KeysAll_addGlobalFlags _ _ hP
  unfold GetChildOrCreate
  have h0 : (NewAutoCompleteNode { nodes := [], maps := [] }).1.KeysAll P := by
    apply KeysAll_new
    intro m hm
    simp at hm
  split
  · exact h0
  · exact KeysAll_mapSet (KeysAll_new h0) _ (hP _ (by decide)) _

theorem KeysAll_children {P : Str → Prop} {h : Heap} (hk : h.KeysAll P) (n : Nat) :
    ∀ e ∈ h.children n, P e.1 := by
  intro e he
  unfold Heap.children at he
  rcases getD_mem_or [] h.maps (h.node n).Children with h1 | h1
  · exact hk _ h1 e he
  · rw [h1] at he; simp at he

theorem isFlag_append (a b : Str) (ha : a ≠ []) : isFlag (a ++ b) = isFlag a := by
  cases a with
  | nil => exact absurd rfl ha
  | cons c s => simp [isFlag, HasPrefix]

theorem isFlag_replaceAllAux (old new : Str) (hnew : new ≠ []) (hflag : isFlag new = false) :
    ∀ s : Str, isFlag s = false → isFlag (replaceAllAux old new 0 s) = false
  | [], _ => by simp [replaceAllAux, isFlag, HasPrefix]
  | c :: s, h => by
    simp only [replaceAllAux]
    split
    · rw [isFlag_append _ _ hnew]; exact hflag
    · simpa [isFlag, HasPrefix] using h

theorem isFlag_ReplaceAll (s old new : Str) (hold : old ≠ []) (hnew : new ≠ [])
    (hflag : isFlag new = false) (h : isFlag s = false) :
    isFlag (ReplaceAll s old new) = false := by
  unfold ReplaceAll
  rw [if_neg hold]
  exact isFlag_replaceAllAux old new hnew hflag s h

theorem isFlag_Itoa (i : Nat) : isFlag (Itoa i) = false := by
  have h := Itoa_digits i
  have hne := Itoa_ne_nil i
  cases hI : Itoa i with
  | nil => exact absurd hI hne
  | cons c s =>
    rw [hI] at h
    have hc : isDigit c = true := h c (List.mem_cons_self _ _)
    simp only [isFlag, HasPrefix, Bool.and_true]
    by_cases hcd : c = '-'
    · subst hcd; revert hc; decide
    · simpa using hcd

theorem isFlag_keySuggestion (key schema : Str) (cArgs : List Str) (s : Str)
    (hschema : schema ≠ []) (hkey : isFlag key = false)
    (hs : keySuggestion key schema cArgs = .ok s) : isFlag s = false := by
  unfold keySuggestion at hs
  simp only at hs
  split at hs
  · cases hs
  · split at hs
    · cases hs
    · split at hs
      · cases hs
      · cases hs
        apply isFlag_ReplaceAll _ _ _ (by decide) (Itoa_ne_nil _) (isFlag_Itoa _)
        exact isFlag_ReplaceAll _ _ _ hschema (by decide) (by decide) hkey

/-- Claim C14, refuted on the code: in the registry whose only command has the namespace
`-{idx}` (there is no argument, so no argument name begins with `-`), a bare tab after `scw`
suggests `-0`. -/
theorem C14_counterexample :
    (∀ cmd ∈ dashRegistry, ∀ spec ∈ cmd.ArgSpecs, isFlag spec.Name = false) ∧
      AutoComplete id dashRegistry ["scw".toList] [] [] =
        .ok { Suggestions := ["-0".toList] } ∧
      isFlag "-0".toList = true := by
  refine ⟨?_, ?_, ?_⟩
  · intro cmd hcmd spec hspec
    simp only [dashRegistry, List.mem_singleton] at hcmd
    subst hcmd
    simp at hspec
  · decide!
  · decide

/-- Claim C14 as amended: for every registry whose argument names do not begin with `-` and
whose namespaces, resources and verbs that begin with `-` contain no placeholder, and every
left and right words, when the word to complete is the empty string no returned suggestion
begins with `-`. -/
theorem C14_no_flag_on_bare_tab (order : RangeOrder) (hv : order.Valid)
    (commands : List Command)
    (hargs : ∀ cmd ∈ commands, ∀ spec ∈ cmd.ArgSpecs, isFlag spec.Name = false)
    (hpath : ∀ cmd ∈ commands, ∀ part ∈ [cmd.Namespace, cmd.Resource, cmd.Verb],
      isFlag part = true → PlainName part)
    (leftWords rightWords : List Str) (r : AutocompleteResponse)
    (hr : AutoComplete order commands leftWords [] rightWords = .ok r) :
    ∀ s ∈ r.Suggestions, isFlag s = false := by
  intro s hs
  have hkeys : (BuildAutoCompleteTree commands).1.KeysAll FlagKeyPlain := by
    have hP : ∀ key : Str, PlainName key → FlagKeyPlain key := fun key hk _ => hk
    apply KeysAll_BuildAutoCompleteTree hP
    · intro cmd hcmd spec hspec hflag
      exfalso
      have h1 := hargs cmd hcmd spec hspec
      cases hn : spec.Name with
      | nil => rw [hn] at hflag; revert hflag; decide
      | cons c t =>
        rw [isFlag_append _ _ (by rw [hn]; simp)] at hflag
        rw [h1] at hflag
        cases hflag
    · intro cmd hcmd p hp _
      exact hpath cmd hcmd p hp
  unfold AutoComplete at hr
  simp only at hr
  split at hr
  · cases hr
  · cases hr
    simp at hs
  · rename_i node hloc
    unfold suggest at hr
    have hword : isCompletingArgValue [] = false := by decide
    simp only [hword, Bool.false_eq_true, if_false] at hr
    split at hr
    · cases hr
    · rename_i l hl
      cases hr
      simp only [newAutoCompleteResponse] at hs
      rw [mem_sortStrings] at hs
      obtain ⟨e, he, _, hcase⟩ := nameSuggestions_mem _ _ _ _ l hl s hs
      have hmem : e ∈ (BuildAutoCompleteTree commands).1.children node :=
        (hv _).mem_iff.mp he
      have hkey := KeysAll_children hkeys node e hmem
      have notFlag : ∀ schema : Str, Contains e.1 schema = true →
          (schema = sliceSchema ∨ schema = mapSchema) → isFlag e.1 = false := by
        intro schema hc hsch
        cases hf : isFlag e.1 with
        | false => rfl
        | true =>
          have hplain := hkey hf
          rcases hsch with e1 | e1 <;> rw [e1] at hc
          · rw [hplain.1] at hc; cases hc
          · rw [hplain.2] at hc; cases hc
      rcases hcase with ⟨h1, h2⟩ | ⟨_, h1, h2⟩ | ⟨_, _, _, _, _, h3⟩
      · exact isFlag_keySuggestion _ _ _ _ (by decide) (notFlag _ h1 (Or.inl rfl)) h2
      · exact isFlag_keySuggestion _ _ _ _ (by decide) (notFlag _ h1 (Or.inr rfl)) h2
      · simpa using h3

set_option maxRecDepth 100000 in
/-- The amended claim applied to the first scenario: a bare tab on `instance server list`
suggests the argument `zone=` and no flag. -/
theorem C14_no_flag_on_bare_tab_witness :
    AutoComplete id zoneRegistry serverListPath [] [] =
        .ok { Suggestions := ["zone=".toList] } ∧
      ∀ s ∈ ({ Suggestions := ["zone=".toList] } : AutocompleteResponse).Suggestions,
        isFlag s = false :=
  ⟨by decide!, C14_no_flag_on_bare_tab id (fun m => List.Perm.refl m) zoneRegistry
    (by decide) (by decide) serverListPath [] _ (by decide!)⟩

/-! ### Lists and maps of the heap -/

theorem updateAt_length {α : Type} (f : α → α) :
    ∀ (i : Nat) (l : List α), (updateAt f i l).length = l.length
  | 0, [] => rfl
  | _ + 1, [] => rfl
  | 0, _ :: _ => rfl
  | i + 1, a :: l => by simp [updateAt, updateAt_length f i l]

theorem updateAt_getD {α : Type} (f : α → α) (d : α) :
    ∀ (i : Nat) (l : List α) (j : Nat), i < l.length →
      (updateAt f i l).getD j d = if j = i then f (l.getD j d) else l.getD j d
  | _, [], _, h => by simp at h
  | 0, a :: l, 0, _ => by simp [updateAt]
  | 0, a :: l, j + 1, _ => by simp [updateAt]
  | i + 1, a :: l, 0, _ => by simp [updateAt]
  | i + 1, a :: l, j + 1, h => by
    have ih := updateAt_getD f d i l j (by simpa using h)
    simp only [updateAt, List.getD_cons_succ, ih, Nat.add_right_cancel_iff]

theorem updateAt_append_length {α : Type} (f : α → α) (a : α) (r : List α) :
    ∀ l : List α, updateAt f l.length (l ++ a :: r) = l ++ f a :: r
  | [] => rfl
  | b :: l => by simp [updateAt, updateAt_append_length f a r l]

theorem updateAt_append_left {α : Type} (f : α → α) (r : List α) :
    ∀ (i : Nat) (l : List α), i < l.length → updateAt f i (l ++ r) = updateAt f i l ++ r
  | _, [], h => by simp at h
  | 0, a :: l, _ => rfl
  | i + 1, a :: l, h => by
    simp [updateAt, updateAt_append_left f r i l (by simpa using h)]

theorem getD_append_length {α : Type} (d : α) (l r : List α) (i : Nat) :
    (l ++ r).getD (l.length + i) d = r.getD i d := by
  rw [List.getD_append_right _ _ _ _ (Nat.le_add_right _ _), Nat.add_sub_cancel_left]

theorem mapGet_mapSet : ∀ (m : ChildMap) (key : Str) (v : Nat) (k : Str),
    mapGet (mapSet m key v) k = if k = key then some v else mapGet m k
  | [], key, v, k => by
    simp only [mapSet, mapGet]
    by_cases h : key = k
    · simp [h]
    · have h2 : ¬ k = key := fun e => h e.symm
      simp [h, h2]
  | (k0, w) :: m, key, v, k => by
    simp only [mapSet]
    by_cases h0 : k0 = key
    · simp only [h0, if_true, mapGet]
      by_cases h : key = k
      · simp [h]
      · have h2 : ¬ k = key := fun e => h e.symm
        simp [h, h2]
    · simp only [h0, if_false, mapGet, mapGet_mapSet m key v k]
      by_cases h : k0 = k
      · have : ¬ k = key := fun e => h0 (h.trans e)
        simp [h, this]
      · simp [h]

/-! ### The heap after attaching a flag -/

theorem node_append (h : Heap) (ns : List AutoCompleteNode) (ms : List ChildMap) (p : Nat)
    (hp : p < h.nodes.length) :
    ({ nodes := h.nodes ++ ns, maps := ms } : Heap).node p = h.node p := by
  simp only [Heap.node]
  exact List.getD_append _ _ _ _ hp

theorem node_append_length (l : List AutoCompleteNode) (a : AutoCompleteNode)
    (r : List AutoCompleteNode) (ms : List ChildMap) :
    ({ nodes := l ++ a :: r, maps := ms } : Heap).node l.length = a := by
  simp only [Heap.node]
  rw [List.getD_append_right _ _ _ _ (Nat.le_refl _)]
  simp

theorem addFlagValue_eq (h : Heap) (node parent : Nat) (key : Str) (t : AutoCompleteNodeType)
    (hnode : node < h.nodes.length) (hpar : parent < h.nodes.length)
    (hM : (h.node node).Children < h.maps.length) :
    addFlagValue h node parent key t =
      { nodes := h.nodes ++ [{ Children := (h.node parent).Children, Command := none,
                               ArgSpec := none, NodeType := t, Name := [] }],
        maps := updateAt (fun cm => mapSet cm key h.nodes.length) (h.node node).Children h.maps
          ++ [[]] } := by
  simp only [addFlagValue, NewAutoCompleteNode, Heap.setNode, Heap.mapSet,
    updateAt_append_length, node_append h _ _ _ hnode, node_append h _ _ _ hpar,
    updateAt_append_left _ _ _ _ hM]

theorem flagStart_eq (h : Heap) (name : Str) :
    (NewAutoCompleteNode h).1.setNode (NewAutoCompleteNode h).2
        (fun n => { n with NodeType := AutoCompleteNodeType.Flag, Name := name }) =
      { nodes := h.nodes ++ [{ Children := h.maps.length, Command := none, ArgSpec := none,
                               NodeType := AutoCompleteNodeType.Flag, Name := name }],
        maps := h.maps ++ [[]] } := by
  simp only [NewAutoCompleteNode, Heap.setNode, updateAt_append_length]

theorem addFlag_plain (h : Heap) (n : Nat) (name : Str) (hn : n < h.nodes.length) :
    addFlag h n name [] false =
      { nodes := h.nodes ++ [{ Children := (h.node n).Children, Command := none, ArgSpec := none,
                               NodeType := AutoCompleteNodeType.Flag, Name := name }],
        maps := updateAt (fun cm => mapSet cm name h.nodes.length) (h.node n).Children
          (h.maps ++ [[]]) } := by
  simp only [addFlag, NewFlagAutoCompleteNode, flagStart_eq, List.foldl, Bool.false_eq_true,
    if_false]
  simp only [NewAutoCompleteNode, Heap.children, node_append_length, Heap.setNode, Heap.mapSet,
    updateAt_append_length, node_append h _ _ _ hn]
  simp

theorem addFlagValue_fresh (h : Heap) (n : Nat) (key : Str) (t : AutoCompleteNodeType)
    (flag : AutoCompleteNode) (vs : List AutoCompleteNode) (m : ChildMap) (ms : List ChildMap)
    (hn : n < h.nodes.length) (hflag : flag.Children = h.maps.length) :
    addFlagValue { nodes := h.nodes ++ flag :: vs, maps := h.maps ++ m :: ms } h.nodes.length n
        key t =
      { nodes := h.nodes ++ flag :: (vs ++ [{ Children := (h.node n).Children, Command := none,
                                              ArgSpec := none, NodeType := t, Name := [] }]),
        maps := h.maps ++ mapSet m key (h.nodes.length + (vs.length + 1)) :: (ms ++ [[]]) } := by
  rw [addFlagValue_eq _ _ _ _ _ (by simp) (by simp; omega)
    (by simp only [node_append_length, hflag]; simp)]
  simp only [node_append_length, node_append h _ _ _ hn, hflag, updateAt_append_length,
    List.length_append, List.length_cons, List.append_assoc, List.cons_append]

theorem addFlag_variable (h : Heap) (n : Nat) (name : Str) (hn : n < h.nodes.length) :
    addFlag h n name [] true =
      { nodes := h.nodes ++
          [{ Children := h.maps.length, Command := none, ArgSpec := none,
             NodeType := AutoCompleteNodeType.Flag, Name := name },
           { Children := (h.node n).Children, Command := none, ArgSpec := none,
             NodeType := AutoCompleteNodeType.FlagValueVariable, Name := [] }],
        maps := updateAt (fun cm => mapSet cm name h.nodes.length) (h.node n).Children
          (h.maps ++ [[(name ++ variableFlagValueSuffix, h.nodes.length + 1)], []]) } := by
  simp only [addFlag, NewFlagAutoCompleteNode, flagStart_eq, List.foldl, if_true]
  simp only [NewAutoCompleteNode]
  rw [addFlagValue_fresh h n _ _ _ _ _ _ hn rfl]
  simp only [Heap.children, node_append_length, mapSet, List.nil_append, List.length_nil,
    Nat.zero_add]
  rw [List.getD_append_right _ _ _ _ (Nat.le_refl _)]
  simp [Heap.mapSet]

theorem addFlag_constants (h : Heap) (n : Nat) (name v1 v2 : Str) (hn : n < h.nodes.length) :
    addFlag h n name [v1, v2] false =
      { nodes := h.nodes ++
          [{ Children := h.maps.length, Command := none, ArgSpec := none,
             NodeType := AutoCompleteNodeType.Flag, Name := name },
           { Children := (h.node n).Children, Command := none, ArgSpec := none,
             NodeType := AutoCompleteNodeType.FlagValueConst, Name := [] },
           { Children := (h.node n).Children, Command := none, ArgSpec := none,
             NodeType := AutoCompleteNodeType.FlagValueConst, Name := [] }],
        maps := updateAt (fun cm => mapSet cm name h.nodes.length) (h.node n).Children
          (h.maps ++ [mapSet [(v1, h.nodes.length + 1)] v2 (h.nodes.length + 2), [], []]) } := by
  simp only [addFlag, NewFlagAutoCompleteNode, flagStart_eq, List.foldl, Bool.false_eq_true,
    if_false]
  simp only [NewAutoCompleteNode]
  rw [addFlagValue_fresh h n _ _ _ _ _ _ hn rfl, addFlagValue_fresh h n _ _ _ _ _ _ hn rfl]
  simp only [Heap.children, node_append_length, List.nil_append, List.length_nil,
    List.length_singleton, Nat.zero_add]
  rw [List.getD_append_right _ _ _ _ (Nat.le_refl _)]
  have hlen : (mapSet (mapSet [] v1 (h.nodes.length + 1)) v2 (h.nodes.length + (1 + 1))).length
      ≠ 0 := by
    simp only [mapSet]
    split <;> simp
  simp only [Nat.sub_self, List.getD_cons_zero, hlen, if_false, List.singleton_append]
  rfl

/-! ### The heap holds the described tree -/

theorem mapOf_grows {commands : List Command} {h h2 : Heap} {t t2 : ATree}
    {addr addr2 : List Str → Nat} (hI : Inv commands h t addr)
    (hg : Grows h t addr h2 t2 addr2) (q : List Str) (hq : t.present q = true) :
    h2.mapOf addr2 q = h.mapOf addr q := by
  unfold Heap.mapOf
  rw [(hg.present q hq).2]
  exact hg.children _ (hI.node q hq).1

theorem PrivateMap_grows {commands : List Command} {h h2 : Heap} {t t2 : ATree}
    {addr addr2 : List Str → Nat} (hI : Inv commands h t addr)
    (hg : Grows h t addr h2 t2 addr2) (m : Nat) (hm : PrivateMap h t addr m) :
    PrivateMap h2 t2 addr2 m := by
  refine ⟨Nat.lt_of_lt_of_le hm.1 hg.mapsLen, hm.2.1, ?_⟩
  intro q hq
  cases hq1 : t.present q with
  | true =>
    rw [mapOf_grows hI hg q hq1]
    exact hm.2.2 q hq1
  | false =>
    have := hg.fresh q hq hq1
    have := hm.1
    omega

theorem SharedOK_grows {commands : List Command} {h h2 : Heap} {t t2 : ATree}
    {addr addr2 : List Str → Nat} (hI : Inv commands h t addr)
    (hg : Grows h t addr h2 t2 addr2) (q : List Str) (ty : AutoCompleteNodeType) (c : Nat)
    (hc : SharedOK h t addr q ty c) : SharedOK h2 t2 addr2 q ty c := by
  obtain ⟨h1, h2', h3, h4, h5, h6, h7⟩ := hc
  have hn : h2.node c = h.node c := hg.nodeEq c h2' (by rw [h3]; exact h4)
  refine ⟨(hg.present q h1).1, Nat.lt_of_lt_of_le h2' hg.nodesLen, ?_, h4, ?_, ?_, ?_⟩
  · rw [hn]; exact h3
  · rw [hn, mapOf_grows hI hg q h1]; exact h5
  · rw [hn]; exact h6
  · rw [hn]; exact h7

theorem SharedOpt_grows {commands : List Command} {h h2 : Heap} {t t2 : ATree}
    {addr addr2 : List Str → Nat} (hI : Inv commands h t addr)
    (hg : Grows h t addr h2 t2 addr2) (q : List Str) :
    ∀ (o : Option AutoCompleteNodeType) (r : Option Nat),
      SharedOpt h t addr q o r → SharedOpt h2 t2 addr2 q o r
  | some ty, some c, hc => SharedOK_grows hI hg q ty c hc
  | none, none, _ => trivial
  | some _, none, hc => hc.elim
  | none, some _, hc => hc.elim

theorem Rep_grows {commands : List Command} {h h2 : Heap} {t t2 : ATree}
    {addr addr2 : List Str → Nat} (hI : Inv commands h t addr)
    (hg : Grows h t addr h2 t2 addr2) :
    ∀ (pos : Pos) (c : Nat), Rep commands h t addr pos c → Rep commands h2 t2 addr2 pos c
  | Pos.root, _, hc => hc
  | Pos.cmd q, c, hc => ⟨(hg.present q hc.1).1, by rw [(hg.present q hc.1).2]; exact hc.2⟩
  | Pos.shared q ty, c, hc => SharedOK_grows hI hg q ty c hc
  | Pos.valued q name, c, hc => by
    obtain ⟨h1, h2', h3, h4, h5, h6, h7⟩ := hc
    have hn : h2.node c = h.node c := hg.nodeEq c h2' (by rw [h3]; decide)
    refine ⟨(hg.present q h1).1, Nat.lt_of_lt_of_le h2' hg.nodesLen, ?_, ?_, ?_, ?_, ?_⟩
    · rw [hn]; exact h3
    · rw [hn]; exact h4
    · rw [hn]; exact h5
    · rw [hn]; exact PrivateMap_grows hI hg _ h6
    · intro key
      rw [hn, hg.mapEq _ h6]
      exact SharedOpt_grows hI hg q _ _ (h7 key)
  | Pos.arg spec, c, hc => by
    obtain ⟨h1, h2', h3, h4, h5, h6⟩ := hc
    have hn : h2.node c = h.node c := hg.nodeEq c h1 (by rw [h2']; decide)
    refine ⟨Nat.lt_of_lt_of_le h1 hg.nodesLen, ?_, ?_, ?_, ?_, ?_⟩
    · rw [hn]; exact h2'
    · rw [hn]; exact h3
    · rw [hn]; exact h4
    · rw [hn]; exact PrivateMap_grows hI hg _ h5
    · rw [hn, hg.mapEq _ h5]; exact h6

theorem RepOpt_grows {commands : List Command} {h h2 : Heap} {t t2 : ATree}
    {addr addr2 : List Str → Nat} (hI : Inv commands h t addr)
    (hg : Grows h t addr h2 t2 addr2) :
    ∀ (o : Option Pos) (r : Option Nat),
      RepOpt commands h t addr o r → RepOpt commands h2 t2 addr2 o r
  | some pos, some c, hc => Rep_grows hI hg pos c hc
  | none, none, _ => trivial
  | some _, none, hc => hc.elim
  | none, some _, hc => hc.elim

theorem node_setNode (h : Heap) (p : Nat) (f : AutoCompleteNode → AutoCompleteNode)
    (hp : p < h.nodes.length) (x : Nat) :
    (h.setNode p f).node x = if x = p then f (h.node x) else h.node x := by
  simp only [Heap.setNode, Heap.node]
  exact updateAt_getD f default p h.nodes x hp

theorem node_of_append {h h2 : Heap} (hnodes : ∃ ns, h2.nodes = h.nodes ++ ns) (p : Nat)
    (hp : p < h.nodes.length) : h2.node p = h.node p := by
  obtain ⟨ns, hns⟩ := hnodes
  simp only [Heap.node, hns]
  exact List.getD_append _ _ _ _ hp

/-- The invariant is kept by a step that appends nodes and map objects and sets one entry of
the child mapping of the command node at path `q`. -/
theorem Inv_extend {commands : List Command} {h h2 : Heap} {t t2 : ATree}
    {addr addr2 : List Str → Nat} (hI : Inv commands h t addr)
    (q : List Str) (hq : t.present q = true) (key : Str) (v : Nat) (pos : Pos)
    (hnodes : ∃ ns, h2.nodes = h.nodes ++ ns)
    (hK : h.maps.length ≤ h2.maps.length)
    (hmaps : ∀ m, m < h.maps.length → h2.maps.getD m [] =
      if m = h.mapOf addr q then mapSet (h.maps.getD m []) key v else h.maps.getD m [])
    (hwf : t2.WF)
    (hpres : ∀ x, t.present x = true → t2.present x = true ∧ addr2 x = addr x)
    (hcmd : ∀ x, t.present x = true → t2.command x = t.command x)
    (hchild : ∀ x k, t.present x = true → ¬ (x = q ∧ k = key) → t2.child x k = t.child x k)
    (hchildk : t2.child q key = some pos)
    (hrep : Rep commands h2 t2 addr2 pos v)
    (hnew : ∀ x, t2.present x = true → t.present x = false →
      x = q ++ [key] ∧ h.maps.length ≤ h2.mapOf addr2 x ∧
      (addr2 x < h2.nodes.length ∧ addr2 x ≠ 0 ∧
        (h2.node (addr2 x)).NodeType = AutoCompleteNodeType.Command ∧
        h2.mapOf addr2 x < h2.maps.length ∧ h2.mapOf addr2 x ≠ 0 ∧
        (h2.node (addr2 x)).Command.bind commands.get? = t2.command x ∧
        (h2.node (addr2 x)).ArgSpec = none) ∧
      ∀ k, RepOpt commands h2 t2 addr2 (t2.child x k)
        (mapGet (h2.maps.getD (h2.mapOf addr2 x) []) k)) :
    Inv commands h2 t2 addr2 := by
  have hN : h.nodes.length ≤ h2.nodes.length := by
    obtain ⟨ns, hns⟩ := hnodes
    rw [hns, List.length_append]
    exact Nat.le_add_right _ _
  have hqn := hI.node q hq
  have hg : Grows h t addr h2 t2 addr2 := by
    refine ⟨hN, hK, ?_, ?_, ?_, hpres, ?_⟩
    · intro p hp _
      exact node_of_append hnodes p hp
    · intro p hp
      rw [node_of_append hnodes p hp]
    · intro m hm
      rw [hmaps m hm.1, if_neg (fun e => hm.2.2 q hq e.symm)]
    · intro x hx hx2
      exact (hnew x hx hx2).2.1
  have h0 : 0 < h.nodes.length := Nat.lt_of_le_of_lt (Nat.zero_le _) hqn.1
  have hK0 : 0 < h.maps.length := Nat.lt_of_le_of_lt (Nat.zero_le _) hqn.2.2.2.1
  refine ⟨hwf, ?_, ?_, ?_, ?_, ?_, ?_⟩
  · rw [node_of_append hnodes 0 h0]
    exact hI.rootNode
  · rw [hmaps 0 hK0, if_neg (fun e => hqn.2.2.2.2.1 e.symm)]
    exact hI.rootMap
  · rw [(hpres [] hI.wf.nil).2]
    exact hI.scw
  · intro x hx
    cases hx1 : t.present x with
    | false => exact (hnew x hx hx1).2.2.1
    | true =>
      have hxn := hI.node x hx1
      have hm := mapOf_grows hI hg x hx1
      rw [hm, (hpres x hx1).2, node_of_append hnodes _ hxn.1, hcmd x hx1]
      exact ⟨Nat.lt_of_lt_of_le hxn.1 hN, hxn.2.1, hxn.2.2.1,
        Nat.lt_of_lt_of_le hxn.2.2.2.1 hK, hxn.2.2.2.2⟩
  · intro x y hx hy hxy
    cases hx1 : t.present x with
    | false =>
      cases hy1 : t.present y with
      | false => rw [(hnew x hx hx1).1, (hnew y hy hy1).1]
      | true =>
        have := (hnew x hx hx1).2.1
        have := (hI.node y hy1).2.2.2.1
        rw [mapOf_grows hI hg y hy1] at hxy
        omega
    | true =>
      cases hy1 : t.present y with
      | false =>
        have := (hnew y hy hy1).2.1
        have := (hI.node x hx1).2.2.2.1
        rw [mapOf_grows hI hg x hx1] at hxy
        omega
      | true =>
        rw [mapOf_grows hI hg x hx1, mapOf_grows hI hg y hy1] at hxy
        exact hI.inj x y hx1 hy1 hxy
  · intro x hx k
    cases hx1 : t.present x with
    | false => exact (hnew x hx hx1).2.2.2 k
    | true =>
      have hxn := hI.node x hx1
      rw [mapOf_grows hI hg x hx1, hmaps _ hxn.2.2.2.1]
      by_cases hxq : x = q
      · subst hxq
        rw [if_pos rfl, mapGet_mapSet]
        by_cases hk : k = key
        · subst hk
          rw [if_pos rfl, hchildk]
          exact hrep
        · rw [if_neg hk, hchild x k hx1 (fun e => hk e.2)]
          exact RepOpt_grows hI hg _ _ (hI.entries x hx1 k)
      · rw [if_neg (fun e => hxq (hI.inj x q hx1 hq e)), hchild x k hx1 (fun e => hxq e.1)]
        exact RepOpt_grows hI hg _ _ (hI.entries x hx1 k)

/-- The invariant is kept when a command is attached to the command node at path `q`. -/
theorem Inv_setCommand {commands : List Command} {h : Heap} {t : ATree}
    {addr : List Str → Nat} (hI : Inv commands h t addr)
    (q : List Str) (hq : t.present q = true) (i : Nat) (cmd : Command)
    (hi : commands.get? i = some cmd) :
    Inv commands (h.setNode (addr q) (fun n => { n with Command := some i }))
      (t.setCommand q cmd) addr := by
  have hqn := hI.node q hq
  have hnode := node_setNode h (addr q) (fun n => { n with Command := some i }) hqn.1
  have hch : ∀ p, ((h.setNode (addr q) (fun n => { n with Command := some i })).node p).Children
      = (h.node p).Children := by
    intro p
    rw [hnode]
    split <;> rfl
  have hmo : ∀ x, (h.setNode (addr q) (fun n => { n with Command := some i })).mapOf addr x
      = h.mapOf addr x := fun x => hch _
  have hg : Grows h t addr (h.setNode (addr q) (fun n => { n with Command := some i }))
      (t.setCommand q cmd) addr := by
    refine ⟨?_, Nat.le_refl _, ?_, ?_, ?_, ?_, ?_⟩
    · simp only [Heap.setNode, updateAt_length]
      exact Nat.le_refl _
    · intro p _ hty
      rw [hnode, if_neg]
      intro e
      rw [e] at hty
      exact hty hqn.2.2.1
    · intro p _
      exact hch p
    · intro m _
      rfl
    · intro x hx
      exact ⟨hx, rfl⟩
    · intro x hx hx2
      have : t.present x = true := hx
      rw [this] at hx2
      cases hx2
  have hlen : (h.setNode (addr q) (fun n => { n with Command := some i })).nodes.length
      = h.nodes.length := by
    simp only [Heap.setNode, updateAt_length]
  refine ⟨?_, ?_, hI.rootMap, hI.scw, ?_, ?_, ?_⟩
  · refine ⟨hI.wf.nil, hI.wf.closed, ?_⟩
    intro x hx
    have hxq : x ≠ q := by
      intro e
      rw [e] at hx
      have : t.present q = false := hx
      rw [hq] at this
      cases this
    have := hI.wf.supp x hx
    simp only [ATree.setCommand, if_neg hxq]
    exact this
  · rw [hnode, if_neg (fun e => hqn.2.1 e.symm)]
    exact hI.rootNode
  · intro x hx
    have hxn := hI.node x hx
    rw [hmo, hlen, hnode]
    by_cases hxq : x = q
    · subst hxq
      rw [if_pos rfl]
      refine ⟨hxn.1, hxn.2.1, hxn.2.2.1, hxn.2.2.2.1, hxn.2.2.2.2.1, ?_, hxn.2.2.2.2.2.2⟩
      simp only [ATree.setCommand, if_true, Option.bind]
      exact hi
    · have hne : addr x ≠ addr q := by
        intro e
        apply hxq
        apply hI.inj x q hx hq
        unfold Heap.mapOf
        rw [e]
      rw [if_neg hne]
      simp only [ATree.setCommand, if_neg hxq]
      exact hxn
  · intro x y hx hy hxy
    rw [hmo, hmo] at hxy
    exact hI.inj x y hx hy hxy
  · intro x hx k
    rw [hmo]
    exact RepOpt_grows hI hg _ _ (hI.entries x hx k)

theorem maps_ext_old (g : ChildMap → ChildMap) (l ms : List ChildMap) (M m : Nat)
    (hM : M < l.length) (hm : m < l.length) :
    (updateAt g M (l ++ ms)).getD m [] = if m = M then g (l.getD m []) else l.getD m [] := by
  rw [updateAt_getD g [] M (l ++ ms) m (by rw [List.length_append]; omega),
    List.getD_append _ _ _ _ hm]

theorem maps_ext_new (g : ChildMap → ChildMap) (l ms : List ChildMap) (M j : Nat)
    (hM : M < l.length) :
    (updateAt g M (l ++ ms)).getD (l.length + j) [] = ms.getD j [] := by
  rw [updateAt_getD g [] M (l ++ ms) _ (by rw [List.length_append]; omega),
    if_neg (by omega), getD_append_length]

theorem maps_ext_length (g : ChildMap → ChildMap) (l ms : List ChildMap) (M : Nat) :
    (updateAt g M (l ++ ms)).length = l.length + ms.length := by
  rw [updateAt_length, List.length_append]

theorem node_ext_new (h : Heap) (ns : List AutoCompleteNode) (ms : List ChildMap) (j : Nat) :
    ({ nodes := h.nodes ++ ns, maps := ms } : Heap).node (h.nodes.length + j) =
      ns.getD j default := by
  simp only [Heap.node]
  exact getD_append_length _ _ _ _

theorem flagNames_isFlag : ∀ k ∈ flagNames, isFlag k = true ∧ endsEq k = false := by decide

theorem sanePart_not_flagName {part : Str} (hs : sanePart part = true) : part ∉ flagNames := by
  intro hm
  have h1 := (flagNames_isFlag part hm).1
  simp only [sanePart, h1, Bool.not_true, Bool.false_and] at hs
  cases hs

theorem sanePart_not_endsEq {part : Str} (hs : sanePart part = true) : endsEq part = false := by
  cases he : endsEq part with
  | false => rfl
  | true =>
    simp only [sanePart, he, Bool.not_true, Bool.and_false] at hs
    cases hs

theorem WF_setFlags {t : ATree} (hwf : t.WF) (q : List Str) (hq : t.present q = true)
    (names : List Str) : (t.setFlags q names).WF := by
  refine ⟨hwf.nil, hwf.closed, ?_⟩
  intro x hx
  have hx1 : t.present x = false := hx
  have hxq : x ≠ q := by
    intro e
    rw [e, hq] at hx1
    cases hx1
  have := hwf.supp x hx1
  refine ⟨this.1, fun key => ⟨?_, (this.2 key).2⟩⟩
  simp only [ATree.setFlags, (this.2 key).1, hxq, decide_False, Bool.false_and, Bool.or_false]

theorem child_setFlags_other (t : ATree) (q : List Str) (name : Str) (x : List Str) (k : Str)
    (hne : ¬ (x = q ∧ k = name)) : (t.setFlags q [name]).child x k = t.child x k := by
  have : (decide (x = q) && decide (k ∈ [name])) = false := by
    by_cases hx : x = q
    · have hk : k ≠ name := fun e => hne ⟨hx, e⟩
      simp [hk]
    · simp [hx]
  simp only [ATree.child, ATree.setFlags, this, Bool.or_false]

theorem child_setFlags_self (t : ATree) (q : List Str) (name : Str) (hname : name ∈ flagNames) :
    (t.setFlags q [name]).child q name =
      some (if flagValues name = [] then Pos.shared q AutoCompleteNodeType.Flag
            else Pos.valued q name) := by
  simp [ATree.child, ATree.setFlags, hname]

/-- The invariant is kept by a step that appends nodes and map objects and stores a flag
node under its name in the child mapping of the command node at path `q`. -/
theorem Inv_setFlag {commands : List Command} {h h2 : Heap} {t : ATree}
    {addr : List Str → Nat} (hI : Inv commands h t addr)
    (q : List Str) (hq : t.present q = true) (name : Str) (hname : name ∈ flagNames) (v : Nat)
    (hnodes : ∃ ns, h2.nodes = h.nodes ++ ns)
    (hK : h.maps.length ≤ h2.maps.length)
    (hmaps : ∀ m, m < h.maps.length → h2.maps.getD m [] =
      if m = h.mapOf addr q then mapSet (h.maps.getD m []) name v else h.maps.getD m [])
    (hrep : Rep commands h2 (t.setFlags q [name]) addr
      (if flagValues name = [] then Pos.shared q AutoCompleteNodeType.Flag
       else Pos.valued q name) v) :
    Inv commands h2 (t.setFlags q [name]) addr := by
  apply Inv_extend hI q hq name v _ hnodes hK hmaps (WF_setFlags hI.wf q hq _)
    (fun x hx => ⟨hx, rfl⟩) (fun x _ => rfl)
    (fun x k _ hne => child_setFlags_other t q name x k hne)
    (child_setFlags_self t q name hname) hrep
  intro x hx hx2
  have hx1 : t.present x = true := hx
  rw [hx1] at hx2
  cases hx2

theorem mapOf_append (h : Heap) (ns : List AutoCompleteNode) (ms : List ChildMap)
    (addr : List Str → Nat) (x : List Str) (hx : addr x < h.nodes.length) :
    Heap.mapOf { nodes := h.nodes ++ ns, maps := ms } addr x = h.mapOf addr x := by
  simp only [Heap.mapOf]
  rw [node_append h _ _ _ hx]

theorem Inv_addFlag_plain {commands : List Command} {h : Heap} {t : ATree}
    {addr : List Str → Nat} (hI : Inv commands h t addr)
    (q : List Str) (hq : t.present q = true) (name : Str) (hname : name ∈ flagNames)
    (hv : flagValues name = []) :
    Inv commands (addFlag h (addr q) name [] false) (t.setFlags q [name]) addr := by
  have hqn := hI.node q hq
  rw [addFlag_plain h (addr q) name hqn.1]
  apply Inv_setFlag hI q hq name hname h.nodes.length ⟨_, rfl⟩
  · simp only [maps_ext_length]
    exact Nat.le_add_right _ _
  · intro m hm
    exact maps_ext_old _ _ _ _ _ hqn.2.2.2.1 hm
  · rw [if_pos hv]
    refine ⟨hq, ?_, ?_, ?_, ?_, ?_, ?_⟩
    · simp
    · rw [node_append_length]
    · decide
    · rw [node_append_length]
      simp only [Heap.mapOf]
      rw [node_append h _ _ _ hqn.1]
    · rw [node_append_length]
    · rw [node_append_length]

theorem PrivateMap_new {commands : List Command} {h h2 : Heap} {t t2 : ATree}
    {addr : List Str → Nat} (hI : Inv commands h t addr)
    (hpres : ∀ x, t2.present x = true → t.present x = true)
    (hmo : ∀ x, t.present x = true → h2.mapOf addr x = h.mapOf addr x)
    (m : Nat) (hm : h.maps.length ≤ m) (hm2 : m < h2.maps.length) :
    PrivateMap h2 t2 addr m := by
  have h0 := (hI.node [] hI.wf.nil).2.2.2.1
  refine ⟨hm2, by omega, ?_⟩
  intro x hx
  rw [hmo x (hpres x hx)]
  have := (hI.node x (hpres x hx)).2.2.2.1
  omega

theorem Inv_addFlag_variable {commands : List Command} {h : Heap} {t : ATree}
    {addr : List Str → Nat} (hI : Inv commands h t addr)
    (q : List Str) (hq : t.present q = true) (name : Str) (hname : name ∈ flagNames)
    (hv : flagValues name =
      [(name ++ variableFlagValueSuffix, AutoCompleteNodeType.FlagValueVariable)]) :
    Inv commands (addFlag h (addr q) name [] true) (t.setFlags q [name]) addr := by
  have hqn := hI.node q hq
  rw [addFlag_variable h (addr q) name hqn.1]
  apply Inv_setFlag hI q hq name hname h.nodes.length ⟨_, rfl⟩
  · simp only [maps_ext_length]
    exact Nat.le_add_right _ _
  · intro m hm
    exact maps_ext_old _ _ _ _ _ hqn.2.2.2.1 hm
  · rw [if_neg (by rw [hv]; simp)]
    refine ⟨hq, ?_, ?_, ?_, ?_, ?_, ?_⟩
    · simp
    · rw [node_append_length]
    · rw [node_append_length]
    · rw [node_append_length]
    · rw [node_append_length]
      exact PrivateMap_new hI (fun x hx => hx)
        (fun x hx => mapOf_append h _ _ addr x (hI.node x hx).1) _ (Nat.le_refl _)
        (by simp only [maps_ext_length]; simp)
    · intro key
      rw [node_append_length, hv]
      have e := maps_ext_new (fun cm => mapSet cm name h.nodes.length) h.maps
        [[(name ++ variableFlagValueSuffix, h.nodes.length + 1)], []]
        (h.node (addr q)).Children 0 hqn.2.2.2.1
      simp only [Nat.add_zero, List.getD_cons_zero] at e
      simp only [e]
      by_cases hk : key = name ++ variableFlagValueSuffix
      · subst hk
        simp only [List.lookup, beq_self_eq_true, mapGet, if_true]
        refine ⟨hq, ?_, ?_, ?_, ?_, ?_, ?_⟩
        · simp
        · rw [node_ext_new]; rfl
        · decide
        · rw [node_ext_new, mapOf_append h _ _ addr q hqn.1]; rfl
        · rw [node_ext_new]; rfl
        · rw [node_ext_new]; rfl
      · have hk2 : (key == name ++ variableFlagValueSuffix) = false := by
          simpa using hk
        have hk3 : ¬ name ++ variableFlagValueSuffix = key := fun e => hk e.symm
        simp only [List.lookup, hk2, mapGet, if_neg hk3]
        trivial

theorem Inv_addFlag_constants {commands : List Command} {h : Heap} {t : ATree}
    {addr : List Str → Nat} (hI : Inv commands h t addr)
    (q : List Str) (hq : t.present q = true) (name : Str) (hname : name ∈ flagNames)
    (hv : flagValues name =
      [("json".toList, AutoCompleteNodeType.FlagValueConst),
       ("human".toList, AutoCompleteNodeType.FlagValueConst)]) :
    Inv commands (addFlag h (addr q) name ["json".toList, "human".toList] false)
      (t.setFlags q [name]) addr := by
  have hqn := hI.node q hq
  rw [addFlag_constants h (addr q) name _ _ hqn.1]
  apply Inv_setFlag hI q hq name hname h.nodes.length ⟨_, rfl⟩
  · simp only [maps_ext_length]
    exact Nat.le_add_right _ _
  · intro m hm
    exact maps_ext_old _ _ _ _ _ hqn.2.2.2.1 hm
  · rw [if_neg (by rw [hv]; simp)]
    refine ⟨hq, ?_, ?_, ?_, ?_, ?_, ?_⟩
    · simp
    · rw [node_append_length]
    · rw [node_append_length]
    · rw [node_append_length]
    · rw [node_append_length]
      exact PrivateMap_new hI (fun x hx => hx)
        (fun x hx => mapOf_append h _ _ addr x (hI.node x hx).1) _ (Nat.le_refl _)
        (by simp only [maps_ext_length]; simp)
    · intro key
      rw [node_append_length, hv]
      have e := maps_ext_new (fun cm => mapSet cm name h.nodes.length) h.maps
        [mapSet [("json".toList, h.nodes.length + 1)] "human".toList (h.nodes.length + 2),
          [], []]
        (h.node (addr q)).Children 0 hqn.2.2.2.1
      simp only [Nat.add_zero, List.getD_cons_zero] at e
      simp only [e]
      have hjh : ¬ "json".toList = "human".toList := by decide
      simp only [mapSet, if_neg hjh]
      by_cases hk : key = "json".toList
      · subst hk
        simp only [List.lookup, beq_self_eq_true, mapGet, if_true]
        refine ⟨hq, ?_, ?_, ?_, ?_, ?_, ?_⟩
        · simp
        · rw [node_ext_new]; rfl
        · decide
        · rw [node_ext_new, mapOf_append h _ _ addr q hqn.1]; rfl
        · rw [node_ext_new]; rfl
        · rw [node_ext_new]; rfl
      · have hk2 : (key == "json".toList) = false := by simpa using hk
        have hk3 : ¬ "json".toList = key := fun e => hk e.symm
        by_cases hkh : key = "human".toList
        · subst hkh
          simp only [List.lookup, hk2, beq_self_eq_true, mapGet, if_neg hk3, if_true]
          refine ⟨hq, ?_, ?_, ?_, ?_, ?_, ?_⟩
          · simp
          · rw [node_ext_new]; rfl
          · decide
          · rw [node_ext_new, mapOf_append h _ _ addr q hqn.1]; rfl
          · rw [node_ext_new]; rfl
          · rw [node_ext_new]; rfl
        · have hk4 : (key == "human".toList) = false := by simpa using hkh
          have hk5 : ¬ "human".toList = key := fun e => hkh e.symm
          simp only [List.lookup, hk2, hk4, mapGet, if_neg hk3, if_neg hk5]
          trivial

theorem setFlags_setFlags (t : ATree) (q : List Str) (l1 l2 : List Str) :
    (t.setFlags q l1).setFlags q l2 = t.setFlags q (l1 ++ l2) := by
  simp only [ATree.setFlags]
  congr 1
  funext x key
  by_cases hx : x = q <;> by_cases h1 : key ∈ l1 <;> by_cases h2 : key ∈ l2 <;>
    simp [hx, h1, h2]

theorem present_setFlags (t : ATree) (q : List Str) (names : List Str) (x : List Str) :
    (t.setFlags q names).present x = t.present x := rfl

theorem Inv_addGlobalFlags {commands : List Command} {h : Heap} {t : ATree}
    {addr : List Str → Nat} (hI : Inv commands h t addr)
    (q : List Str) (hq : t.present q = true) :
    Inv commands (addGlobalFlags h (addr q)) (t.setFlags q globalFlagNames) addr := by
  have h1 := Inv_addFlag_variable hI q hq "--access-key".toList (by decide) (by decide)
  have h2 := Inv_addFlag_plain h1 q hq "-D".toList (by decide) (by decide)
  have h3 := Inv_addFlag_plain h2 q hq "--debug".toList (by decide) (by decide)
  have h4 := Inv_addFlag_plain h3 q hq "-h".toList (by decide) (by decide)
  have h5 := Inv_addFlag_plain h4 q hq "--help".toList (by decide) (by decide)
  have h6 := Inv_addFlag_constants h5 q hq "-o".toList (by decide) (by decide)
  have h7 := Inv_addFlag_constants h6 q hq "--output".toList (by decide) (by decide)
  have h8 := Inv_addFlag_plain h7 q hq "-p".toList (by decide) (by decide)
  have h9 := Inv_addFlag_plain h8 q hq "--profile".toList (by decide) (by decide)
  have h10 := Inv_addFlag_variable h9 q hq "--secret-key".toList (by decide) (by decide)
  simp only [setFlags_setFlags] at h10
  exact h10

theorem Inv_addWaitFlags {commands : List Command} {h : Heap} {t : ATree}
    {addr : List Str → Nat} (hI : Inv commands h t addr)
    (q : List Str) (hq : t.present q = true) :
    Inv commands (addFlag (addFlag h (addr q) "-w".toList [] false) (addr q) "--wait".toList
      [] false) (t.setFlags q waitFlagNames) addr := by
  have h1 := Inv_addFlag_plain hI q hq "-w".toList (by decide) (by decide)
  have h2 := Inv_addFlag_plain h1 q hq "--wait".toList (by decide) (by decide)
  simp only [setFlags_setFlags] at h2
  exact h2

theorem GetChildOrCreate_none (h : Heap) (node : Nat) (name : Str)
    (hm : mapGet (h.children node) name = none) :
    GetChildOrCreate h node name =
      ({ nodes := h.nodes ++ [{ Children := h.maps.length, Command := none, ArgSpec := none,
                                NodeType := AutoCompleteNodeType.Command, Name := [] }],
         maps := updateAt (fun cm => mapSet cm name h.nodes.length) (h.node node).Children
           (h.maps ++ [[]]) }, h.nodes.length) := by
  simp only [GetChildOrCreate, hm, NewAutoCompleteNode, Heap.mapSet]

theorem NewArgAutoCompleteNode_eq (h : Heap) (p : Nat × Nat) :
    NewArgAutoCompleteNode h p =
      ({ nodes := h.nodes ++ [{ Children := h.maps.length, Command := none, ArgSpec := some p,
                                NodeType := AutoCompleteNodeType.Argument, Name := [] }],
         maps := h.maps ++ [[]] }, h.nodes.length) := by
  simp only [NewArgAutoCompleteNode, NewAutoCompleteNode, Heap.setNode, updateAt_append_length]

theorem addPos_present (t : ATree) (x : List Str) (hx : t.present x = true) :
    t.addPos x = t := by
  cases t with
  | mk present flags command args =>
    simp only [ATree.addPos, ATree.mk.injEq, and_true]
    funext y
    by_cases hy : y = x
    · subst hy
      simp only at hx
      simp [hx]
    · simp [hy]

theorem child_sane (t : ATree) (q : List Str) (part : Str) (hs : sanePart part = true) :
    t.child q part =
      if t.present (q ++ [part]) then some (Pos.cmd (q ++ [part])) else none := by
  simp only [ATree.child, if_neg (sanePart_not_flagName hs), sanePart_not_endsEq hs,
    Bool.false_eq_true, if_false]

theorem RepOpt_none {commands : List Command} {h : Heap} {t : ATree} {addr : List Str → Nat}
    {r : Option Nat} (hr : RepOpt commands h t addr none r) : r = none := by
  cases r with
  | none => rfl
  | some c => exact hr.elim

theorem RepOpt_some {commands : List Command} {h : Heap} {t : ATree} {addr : List Str → Nat}
    {pos : Pos} {r : Option Nat} (hr : RepOpt commands h t addr (some pos) r) :
    ∃ c, r = some c ∧ Rep commands h t addr pos c := by
  cases r with
  | none => exact hr.elim
  | some c => exact ⟨c, rfl, hr⟩

theorem WF_addPos {t : ATree} (hwf : t.WF) (q : List Str) (hq : t.present q = true)
    (part : Str) (hs : sanePart part = true) : (t.addPos (q ++ [part])).WF := by
  refine ⟨?_, ?_, ?_⟩
  · simp [ATree.addPos, hwf.nil]
  · intro x k hx
    simp only [ATree.addPos, Bool.or_eq_true, decide_eq_true_eq] at hx ⊢
    rcases hx with hx | hx
    · exact ⟨Or.inl (hwf.closed x k hx).1, (hwf.closed x k hx).2⟩
    · have := List.append_inj' hx (by simp)
      rw [this.1]
      have hk : k = part := by simpa using this.2
      rw [hk]
      exact ⟨Or.inl hq, hs⟩
  · intro x hx
    simp only [ATree.addPos, Bool.or_eq_false_iff] at hx
    exact hwf.supp x hx.1

theorem Inv_getChild {commands : List Command} {h : Heap} {t : ATree}
    {addr : List Str → Nat} (hI : Inv commands h t addr)
    (q : List Str) (hq : t.present q = true) (part : Str) (hs : sanePart part = true) :
    ∃ addr2, Inv commands (GetChildOrCreate h (addr q) part).1 (t.addPos (q ++ [part])) addr2 ∧
      addr2 (q ++ [part]) = (GetChildOrCreate h (addr q) part).2 := by
  have hqn := hI.node q hq
  have hent := hI.entries q hq part
  rw [child_sane t q part hs] at hent
  cases hp : t.present (q ++ [part]) with
  | true =>
    rw [hp, if_pos rfl] at hent
    obtain ⟨c, hc, hrep⟩ := RepOpt_some hent
    have hg : GetChildOrCreate h (addr q) part = (h, c) := by
      simp only [GetChildOrCreate, Heap.children]
      have hc2 : mapGet (h.maps.getD (h.node (addr q)).Children []) part = some c := hc
      rw [hc2]
    rw [hg, addPos_present t _ hp]
    exact ⟨addr, hI, hrep.2.symm⟩
  | false =>
    rw [hp] at hent
    have hm : mapGet (h.children (addr q)) part = none := RepOpt_none hent
    rw [GetChildOrCreate_none h (addr q) part hm]
    have hne : ∀ x, t.present x = true → x ≠ q ++ [part] := by
      intro x hx e
      rw [e, hp] at hx
      cases hx
    have h0 := (hI.node [] hI.wf.nil).1
    refine ⟨fun x => if x = q ++ [part] then h.nodes.length else addr x, ?_, if_pos rfl⟩
    apply Inv_extend hI q hq part h.nodes.length (Pos.cmd (q ++ [part])) ⟨_, rfl⟩
    · simp only [maps_ext_length]
      exact Nat.le_add_right _ _
    · intro m hm
      exact maps_ext_old _ _ _ _ _ hqn.2.2.2.1 hm
    · exact WF_addPos hI.wf q hq part hs
    · intro x hx
      refine ⟨?_, if_neg (hne x hx)⟩
      simp [ATree.addPos, hx]
    · intro x _
      rfl
    · intro x k hx hxk
      have : ¬ x ++ [k] = q ++ [part] := by
        intro e
        have := List.append_inj' e (by simp)
        exact hxk ⟨this.1, by simpa using this.2⟩
      simp only [ATree.child, ATree.addPos, this, decide_False, Bool.or_false]
    · rw [child_sane _ q part hs]
      simp [ATree.addPos]
    · exact ⟨by simp [ATree.addPos], (if_pos rfl).symm⟩
    · intro x hx hx2
      have hxe : x = q ++ [part] := by
        simp only [ATree.addPos, Bool.or_eq_true, decide_eq_true_eq] at hx
        rcases hx with hx | hx
        · rw [hx] at hx2; cases hx2
        · exact hx
      subst hxe
      have hsupp := hI.wf.supp _ hp
      simp only [Heap.mapOf, if_pos, node_append_length]
      refine ⟨trivial, Nat.le_refl _, ⟨?_, ?_, trivial, ?_, ?_, ?_, trivial⟩, ?_⟩
      · simp
      · omega
      · simp only [maps_ext_length]; simp
      · have := hqn.2.2.2.1
        omega
      · simp only [ATree.addPos, Option.bind]
        exact hsupp.1.symm
      · intro k
        have e := maps_ext_new (fun cm => mapSet cm part h.nodes.length) h.maps [[]]
          (h.node (addr q)).Children 0 hqn.2.2.2.1
        simp only [Nat.add_zero, List.getD_cons_zero] at e
        rw [e]
        have hc : (t.addPos (q ++ [part])).child (q ++ [part]) k = none := by
          have hpk : t.present (q ++ [part] ++ [k]) = false := by
            cases hpk : t.present (q ++ [part] ++ [k]) with
            | false => rfl
            | true =>
              have := (hI.wf.closed _ _ hpk).1
              rw [hp] at this
              cases this
          have hlen : ¬ q ++ [part] ++ [k] = q ++ [part] := by
            intro e2
            have := congrArg List.length e2
            simp at this
          simp only [ATree.child, ATree.addPos, (hsupp.2 k).1, (hsupp.2 k).2, hpk, hlen,
            decide_False, Bool.or_false, Bool.false_eq_true, if_false, Option.map_none',
            ite_self]
        rw [hc]
        trivial

theorem endsEq_argKey (name : Str) : endsEq (name ++ "=".toList) = true := by
  simp [endsEq]

theorem argKey_not_flagName (name : Str) : name ++ "=".toList ∉ flagNames := by
  intro hm
  have h1 := (flagNames_isFlag _ hm).2
  rw [endsEq_argKey] at h1
  cases h1

theorem WF_setArg {t : ATree} (hwf : t.WF) (q : List Str) (hq : t.present q = true)
    (key : Str) (spec : ArgSpec) : (t.setArg q key spec).WF := by
  refine ⟨hwf.nil, hwf.closed, ?_⟩
  intro x hx
  have hx1 : t.present x = false := hx
  have hxq : x ≠ q := by
    intro e
    rw [e, hq] at hx1
    cases hx1
  have := hwf.supp x hx1
  refine ⟨this.1, fun k => ⟨(this.2 k).1, ?_⟩⟩
  simp only [ATree.setArg, hxq, false_and, if_false]
  exact (this.2 k).2

theorem Inv_addArg {commands : List Command} {h : Heap} {t : ATree}
    {addr : List Str → Nat} (hI : Inv commands h t addr)
    (q : List Str) (hq : t.present q = true) (p : Nat × Nat) (spec : ArgSpec)
    (hspec : argSpecAt commands p = some spec) :
    Inv commands
      ((NewArgAutoCompleteNode h p).1.mapSet (h.node (addr q)).Children
        (spec.Name ++ "=".toList) (NewArgAutoCompleteNode h p).2)
      (t.setArg q (spec.Name ++ "=".toList) spec) addr := by
  have hqn := hI.node q hq
  rw [NewArgAutoCompleteNode_eq]
  simp only [Heap.mapSet]
  apply Inv_extend hI q hq (spec.Name ++ "=".toList) h.nodes.length (Pos.arg spec) ⟨_, rfl⟩
  · simp only [maps_ext_length]
    exact Nat.le_add_right _ _
  · intro m hm
    exact maps_ext_old _ _ _ _ _ hqn.2.2.2.1 hm
  · exact WF_setArg hI.wf q hq _ _
  · intro x hx
    exact ⟨hx, rfl⟩
  · intro x _
    rfl
  · intro x k _ hxk
    simp only [ATree.child, ATree.setArg, if_neg hxk]
  · simp only [ATree.child, ATree.setArg, if_neg (argKey_not_flagName _), endsEq_argKey,
      if_true, and_self, Option.map_some']
  · refine ⟨by simp, ?_, ?_, ?_, ?_, ?_⟩
    · rw [node_append_length]
    · rw [node_append_length]
    · rw [node_append_length]
      exact hspec
    · rw [node_append_length]
      exact PrivateMap_new hI (fun x hx => hx)
        (fun x hx => mapOf_append h _ _ addr x (hI.node x hx).1) _ (Nat.le_refl _)
        (by simp only [maps_ext_length]; simp)
    · rw [node_append_length]
      have e := maps_ext_new (fun cm => mapSet cm (spec.Name ++ "=".toList) h.nodes.length)
        h.maps [[]] (h.node (addr q)).Children 0 hqn.2.2.2.1
      simp only [Nat.add_zero, List.getD_cons_zero] at e
      exact e
  · intro x hx hx2
    have hx1 : t.present x = true := hx
    rw [hx1] at hx2
    cases hx2

theorem Inv_descendPath {commands : List Command} :
    ∀ (parts : List Str) {h : Heap} {t : ATree} {addr : List Str → Nat},
      Inv commands h t addr → ∀ q : List Str, t.present q = true →
      (∀ p ∈ parts, p ≠ [] ∧ sanePart p = true) →
      ∃ addr2, Inv commands (descendPath h (addr q) parts).1 (t.addPath q parts) addr2 ∧
        addr2 (q ++ parts) = (descendPath h (addr q) parts).2 ∧
        (t.addPath q parts).present (q ++ parts) = true
  | [], h, t, addr, hI, q, hq, _ => ⟨addr, hI, by simp [descendPath], by simpa using hq⟩
  | part :: parts, h, t, addr, hI, q, hq, hp => by
    have hpart := hp part (List.mem_cons_self _ _)
    obtain ⟨addr1, hI1, ha1⟩ := Inv_getChild hI q hq part hpart.2
    have hpres1 : (t.addPos (q ++ [part])).present (q ++ [part]) = true := by
      simp [ATree.addPos]
    have hI2 := Inv_addGlobalFlags hI1 (q ++ [part]) hpres1
    obtain ⟨addr2, hI3, ha3, hp3⟩ := Inv_descendPath parts hI2 (q ++ [part]) hpres1
      (fun x hx => hp x (List.mem_cons_of_mem _ hx))
    rw [ha1] at hI3 ha3
    simp only [descendPath, if_pos hpart.1, ATree.addPath]
    rw [List.append_assoc, List.singleton_append] at ha3 hp3
    exact ⟨addr2, hI3, ha3, hp3⟩

theorem descendPath_filter (h : Heap) (node : Nat) :
    ∀ parts : List Str, descendPath h node parts =
      descendPath h node (parts.filter (fun part => decide (part ≠ [])))
  | [] => rfl
  | part :: parts => by
    by_cases hp : part ≠ []
    · simp only [descendPath, if_pos hp, List.filter, decide_eq_true hp]
      exact descendPath_filter _ _ parts
    · simp only [descendPath, if_neg hp, List.filter, decide_eq_false hp]
      exact descendPath_filter _ _ parts

theorem present_addArgs (q : List Str) :
    ∀ (specs : List ArgSpec) (t : ATree), (t.addArgs q specs).present = t.present
  | [], _ => rfl
  | spec :: rest, t => by
    simp only [ATree.addArgs]
    exact present_addArgs q rest _

theorem Inv_addArgSpecs {commands : List Command} (i : Nat) (cmd : Command)
    (hi : commands.get? i = some cmd) :
    ∀ (specs : List ArgSpec) {h : Heap} {t : ATree} {addr : List Str → Nat},
      Inv commands h t addr → ∀ q : List Str, t.present q = true →
      ∀ j : Nat, cmd.ArgSpecs.drop j = specs →
      Inv commands (addArgSpecs (addr q) i h j specs) (t.addArgs q specs) addr
  | [], _, _, _, hI, _, _, _, _ => hI
  | spec :: rest, h, t, addr, hI, q, hq, j, hj => by
    have hspec : argSpecAt commands (i, j) = some spec := by
      simp only [argSpecAt, hi]
      have := List.head?_drop cmd.ArgSpecs j
      rw [hj] at this
      simp only [List.head?_cons] at this
      rw [List.get?_eq_getElem?]
      exact this.symm
    have hrest : cmd.ArgSpecs.drop (j + 1) = rest := by
      have := List.tail_drop cmd.ArgSpecs j
      rw [hj] at this
      simp only [List.tail_cons] at this
      exact this.symm
    simp only [addArgSpecs, ATree.addArgs]
    exact Inv_addArgSpecs i cmd hi rest (Inv_addArg hI q hq (i, j) spec hspec) q hq (j + 1)
      hrest

theorem Inv_addCommand {commands : List Command} {h : Heap} {t : ATree}
    {addr : List Str → Nat} (hI : Inv commands h t addr) (i : Nat) (cmd : Command)
    (hi : commands.get? i = some cmd) (hs : ∀ p ∈ cmdPath cmd, sanePart p = true) :
    ∃ addr2, Inv commands (addCommand h 1 i cmd) (t.addCommand cmd) addr2 := by
  have hp : ∀ p ∈ cmdPath cmd, p ≠ [] ∧ sanePart p = true := by
    intro p hm
    refine ⟨?_, hs p hm⟩
    simp only [cmdPath, List.mem_filter, decide_eq_true_eq] at hm
    exact hm.2
  obtain ⟨addr2, hI2, ha2, hp2⟩ := Inv_descendPath (cmdPath cmd) hI [] hI.wf.nil hp
  rw [List.nil_append] at ha2 hp2
  rw [hI.scw] at hI2 ha2
  have hd : descendPath h 1 [cmd.Namespace, cmd.Resource, cmd.Verb] =
      descendPath h 1 (cmdPath cmd) := descendPath_filter h 1 _
  have h3 := Inv_setCommand hI2 (cmdPath cmd) hp2 i cmd hi
  have hp3 : ((t.addPath [] (cmdPath cmd)).setCommand (cmdPath cmd) cmd).present (cmdPath cmd)
      = true := hp2
  have h4 := Inv_addArgSpecs i cmd hi cmd.ArgSpecs h3 (cmdPath cmd) hp3 0 rfl
  have hp4 : (((t.addPath [] (cmdPath cmd)).setCommand (cmdPath cmd) cmd).addArgs
      (cmdPath cmd) cmd.ArgSpecs).present (cmdPath cmd) = true := by
    rw [present_addArgs]
    exact hp3
  have h5 := Inv_addWaitFlags h4 (cmdPath cmd) hp4
  rw [ha2] at h3 h4 h5
  simp only [addCommand, ATree.addCommand, hd]
  cases hw : cmd.WaitFunc with
  | true => exact ⟨addr2, h5⟩
  | false => exact ⟨addr2, h4⟩

theorem Inv_addCommands {commands : List Command} :
    ∀ (rest done : List Command) {h : Heap} {t : ATree} {addr : List Str → Nat},
      commands = done ++ rest → (∀ cmd ∈ rest, ∀ p ∈ cmdPath cmd, sanePart p = true) →
      Inv commands h t addr →
      ∃ addr2, Inv commands (addCommands 1 h done.length rest)
        (rest.foldl ATree.addCommand t) addr2
  | [], _, _, _, addr, _, _, hI => ⟨addr, hI⟩
  | cmd :: rest, done, h, t, addr, hc, hs, hI => by
    have hi : commands.get? done.length = some cmd := by
      rw [hc, List.get?_eq_getElem?, List.getElem?_append_right (Nat.le_refl _)]
      simp
    obtain ⟨addr1, hI1⟩ := Inv_addCommand hI done.length cmd hi
      (hs cmd (List.mem_cons_self _ _))
    have := Inv_addCommands rest (done ++ [cmd]) (by rw [hc]; simp)
      (fun x hx => hs x (List.mem_cons_of_mem _ hx)) hI1
    simp only [List.length_append, List.length_singleton] at this
    simp only [addCommands, List.foldl]
    exact this

theorem Inv_start (commands : List Command) :
    Inv commands startHeap ATree.start (fun _ => 1) := by
  refine ⟨⟨rfl, ?_, ?_⟩, by decide, by decide, rfl, ?_, ?_, ?_⟩
  · intro q part hq
    simp [ATree.start] at hq
  · intro q _
    exact ⟨rfl, fun _ => ⟨rfl, rfl⟩⟩
  · intro q _
    have e1 : (startHeap.node 1).Children = 1 := by decide
    have e2 : startHeap.maps.length = 2 := by decide
    simp only [Heap.mapOf, e1, e2]
    exact ⟨by decide, by decide, by decide, by decide, by decide, rfl, by decide⟩
  · intro q q2 hq hq2 _
    simp only [ATree.start, decide_eq_true_eq] at hq hq2
    rw [hq, hq2]
  · intro q hq key
    have hc : ATree.start.child q key = none := by
      simp [ATree.child, ATree.start]
    have hm : mapGet (startHeap.maps.getD (startHeap.mapOf (fun _ => 1) q) []) key = none := rfl
    rw [hc, hm]
    trivial

theorem start_setFlags : ATree.start.setFlags [] globalFlagNames = ATree.base := by
  simp only [ATree.setFlags, ATree.start, ATree.base, Bool.false_or]

theorem Build_eq (commands : List Command) :
    BuildAutoCompleteTree commands =
      (addCommands 1 (addGlobalFlags startHeap 1) 0 commands, 0) := rfl

/-- The heap built from a registry whose paths are made of parts that are neither
flag-shaped nor argument-shaped holds the described tree of the registry. -/
theorem Inv_Build (commands : List Command)
    (hs : ∀ cmd ∈ commands, ∀ p ∈ cmdPath cmd, sanePart p = true) :
    ∃ addr, Inv commands (BuildAutoCompleteTree commands).1 (ATree.build commands) addr := by
  have h1 := Inv_addGlobalFlags (Inv_start commands) [] rfl
  rw [start_setFlags] at h1
  have := Inv_addCommands commands [] (by simp) hs h1
  rw [Build_eq]
  exact this

theorem Rep_view {commands : List Command} {h : Heap} {t : ATree} {addr : List Str → Nat}
    (hI : Inv commands h t addr) :
    ∀ (pos : Pos) (n : Nat), Rep commands h t addr pos n → nodeView commands h n = t.view pos
  | Pos.root, n, hn => by
    have e : n = 0 := hn
    subst e
    simp only [nodeView, ATree.view, hI.rootNode.1, hI.rootNode.2.2.1, hI.rootNode.2.2.2,
      Option.none_bind]
  | Pos.cmd q, n, hn => by
    have e : n = addr q := hn.2
    subst e
    have := hI.node q hn.1
    simp only [nodeView, ATree.view, this.2.2.1, this.2.2.2.2.2.1, this.2.2.2.2.2.2,
      Option.none_bind]
  | Pos.shared q ty, n, hn => by
    obtain ⟨_, _, h3, _, _, h6, h7⟩ := hn
    simp only [nodeView, ATree.view, h3, h6, h7, Option.none_bind]
  | Pos.valued q name, n, hn => by
    obtain ⟨_, _, h3, h4, h5, _, _⟩ := hn
    simp only [nodeView, ATree.view, h3, h4, h5, Option.none_bind]
  | Pos.arg spec, n, hn => by
    obtain ⟨_, h2, h3, h4, _, _⟩ := hn
    simp only [nodeView, ATree.view, h2, h3, h4, Option.none_bind]

theorem Rep_step {commands : List Command} {h : Heap} {t : ATree} {addr : List Str → Nat}
    (hI : Inv commands h t addr) :
    ∀ (pos : Pos) (n : Nat), Rep commands h t addr pos n → ∀ key : Str,
      RepOpt commands h t addr (t.step pos key) (mapGet (h.children n) key)
  | Pos.root, n, hn, key => by
    have e : n = 0 := hn
    subst e
    simp only [Heap.children, hI.rootNode.2.1, hI.rootMap, mapGet, ATree.step]
    by_cases hk : key = "scw".toList
    · subst hk
      simp only [if_true]
      exact ⟨hI.wf.nil, hI.scw.symm⟩
    · have hk2 : ¬ "scw".toList = key := fun e => hk e.symm
      simp only [if_neg hk, if_neg hk2]
      trivial
  | Pos.cmd q, n, hn, key => by
    have e : n = addr q := hn.2
    subst e
    exact hI.entries q hn.1 key
  | Pos.shared q ty, n, hn, key => by
    obtain ⟨h1, _, _, _, h5, _, _⟩ := hn
    simp only [Heap.children, h5, ATree.step]
    exact hI.entries q h1 key
  | Pos.valued q name, n, hn, key => by
    obtain ⟨_, _, _, _, _, _, h7⟩ := hn
    have := h7 key
    simp only [Heap.children, ATree.step]
    cases hl : (flagValues name).lookup key with
    | none =>
      rw [hl] at this
      cases hm : mapGet (h.maps.getD (h.node n).Children []) key with
      | none => trivial
      | some c => rw [hm] at this; exact this.elim
    | some ty =>
      rw [hl] at this
      cases hm : mapGet (h.maps.getD (h.node n).Children []) key with
      | none => rw [hm] at this; exact this.elim
      | some c => rw [hm] at this; exact this
  | Pos.arg spec, n, hn, key => by
    obtain ⟨_, _, _, _, _, h6⟩ := hn
    simp only [Heap.children, h6, mapGet, ATree.step]
    trivial

/-- Following child keys in the heap and in the described tree leads to the same views. -/
theorem descend_view {commands : List Command} {h : Heap} {t : ATree}
    {addr : List Str → Nat} (hI : Inv commands h t addr) :
    ∀ (path : List Str) (pos : Pos) (n : Nat), Rep commands h t addr pos n →
      (descend h n path).map (nodeView commands h) = (t.descend pos path).map t.view
  | [], pos, n, hn => by
    simp only [descend, ATree.descend, Option.map_some', Rep_view hI pos n hn]
  | key :: keys, pos, n, hn => by
    have hstep := Rep_step hI pos n hn key
    simp only [descend, ATree.descend]
    cases hs : t.step pos key with
    | none =>
      rw [hs] at hstep
      rw [RepOpt_none hstep]
      rfl
    | some next =>
      rw [hs] at hstep
      obtain ⟨c, hc, hrep⟩ := RepOpt_some hstep
      rw [hc]
      exact descend_view hI keys next c hrep

/-- The views of the tree of a registry are the views of its described tree. -/
theorem viewAt_eq (commands : List Command)
    (hs : ∀ cmd ∈ commands, ∀ p ∈ cmdPath cmd, sanePart p = true) (path : List Str) :
    viewAt commands path =
      ((ATree.build commands).descend Pos.root path).map (ATree.build commands).view := by
  obtain ⟨addr, hI⟩ := Inv_Build commands hs
  exact descend_view hI path Pos.root 0 rfl

/-! ### The described tree does not depend on the order of the commands -/

theorem addPath_eq : ∀ (parts q : List Str) (t : ATree),
    t.addPath q parts =
      { present := fun x => t.present x || onPath q parts x,
        flags := fun x key => t.flags x key ||
          (onPath q parts x && decide (key ∈ globalFlagNames)),
        command := t.command,
        args := t.args }
  | [], q, t => by
    cases t
    simp [ATree.addPath, onPath]
  | part :: parts, q, t => by
    simp only [ATree.addPath]
    rw [addPath_eq parts]
    simp only [ATree.addPos, ATree.setFlags, onPath, ATree.mk.injEq, and_true]
    constructor
    · funext x
      rw [Bool.or_assoc]
    · funext x key
      cases t.flags x key <;> cases decide (x = q ++ [part]) <;>
        cases onPath (q ++ [part]) parts x <;> cases decide (key ∈ globalFlagNames) <;> rfl

theorem addArgs_eq (q : List Str) : ∀ (specs : List ArgSpec) (t : ATree),
    t.addArgs q specs =
      { present := t.present, flags := t.flags, command := t.command,
        args := fun x => if x = q then argsAfter specs (t.args x) else t.args x }
  | [], t => by
    cases t
    simp [ATree.addArgs, argsAfter]
  | spec :: rest, t => by
    simp only [ATree.addArgs]
    rw [addArgs_eq q rest]
    simp only [ATree.setArg, argsAfter, ATree.mk.injEq, true_and]
    funext x
    by_cases hx : x = q
    · simp only [hx, if_true, true_and]
    · simp only [hx, if_false, false_and]

theorem addCommand_eq (t : ATree) (cmd : Command) :
    t.addCommand cmd =
      { present := fun x => t.present x || onPath [] (cmdPath cmd) x,
        flags := fun x key => (t.flags x key ||
          (onPath [] (cmdPath cmd) x && decide (key ∈ globalFlagNames))) ||
          (cmd.WaitFunc && (decide (x = cmdPath cmd) && decide (key ∈ waitFlagNames))),
        command := fun x => if x = cmdPath cmd then some cmd else t.command x,
        args := fun x =>
          if x = cmdPath cmd then argsAfter cmd.ArgSpecs (t.args x) else t.args x } := by
  simp only [ATree.addCommand, addArgs_eq, addPath_eq, ATree.setCommand]
  cases cmd.WaitFunc
  · simp
  · simp [ATree.setFlags]

theorem addCommand_comm (t : ATree) (c1 c2 : Command) (hne : cmdPath c1 ≠ cmdPath c2) :
    (t.addCommand c1).addCommand c2 = (t.addCommand c2).addCommand c1 := by
  simp only [addCommand_eq, ATree.mk.injEq]
  refine ⟨?_, ?_, ?_, ?_⟩
  · funext x
    cases t.present x <;> cases onPath [] (cmdPath c1) x <;>
      cases onPath [] (cmdPath c2) x <;> rfl
  · funext x key
    cases t.flags x key <;> cases onPath [] (cmdPath c1) x <;>
      cases onPath [] (cmdPath c2) x <;> cases decide (key ∈ globalFlagNames) <;>
      cases c1.WaitFunc <;> cases c2.WaitFunc <;> cases decide (x = cmdPath c1) <;>
      cases decide (x = cmdPath c2) <;> cases decide (key ∈ waitFlagNames) <;> rfl
  · funext x
    by_cases h1 : x = cmdPath c1
    · have h2 : x ≠ cmdPath c2 := fun e => hne (h1.symm.trans e)
      simp only [h1, if_true, if_neg hne]
    · by_cases h2 : x = cmdPath c2
      · simp only [h2, if_true, if_neg (Ne.symm hne)]
      · simp only [if_neg h1, if_neg h2]
  · funext x
    by_cases h1 : x = cmdPath c1
    · have h2 : x ≠ cmdPath c2 := fun e => hne (h1.symm.trans e)
      simp only [h1, if_true, if_neg hne]
    · by_cases h2 : x = cmdPath c2
      · simp only [h2, if_true, if_neg (Ne.symm hne)]
      · simp only [if_neg h1, if_neg h2]

/-- The described tree of a registry with pairwise distinct paths is the one of every
rearrangement of the registry. -/
theorem build_perm (commands commands2 : List Command) (hperm : commands.Perm commands2)
    (hd : (commands.map cmdPath).Nodup) : ATree.build commands = ATree.build commands2 := by
  unfold ATree.build
  apply List.Perm.foldl_eq' hperm
  intro x hx y hy z
  by_cases hxy : cmdPath x = cmdPath y
  · have := List.inj_on_of_nodup_map hd hx hy hxy
    rw [this]
  · exact addCommand_comm z x y hxy

/-! ### The shape of the built tree -/

theorem descend_append (h : Heap) : ∀ (a : List Str) (n : Nat) (b : List Str),
    descend h n (a ++ b) = (descend h n a).bind (fun m => descend h m b)
  | [], _, _ => rfl
  | key :: a, n, b => by
    simp only [List.cons_append, descend]
    cases mapGet (h.children n) key with
    | none => rfl
    | some c => exact descend_append h a c b

theorem descend_cmd {commands : List Command} {h : Heap} {t : ATree} {addr : List Str → Nat}
    (hI : Inv commands h t addr) (q : List Str) :
    t.present q = true → descend h 0 ("scw".toList :: q) = some (addr q) := by
  induction q using List.reverseRecOn with
  | nil =>
    intro _
    simp only [descend, Heap.children, hI.rootNode.2.1, hI.rootMap, mapGet, if_true, hI.scw]
  | append_singleton q key ih =>
    intro hq
    have hc := hI.wf.closed q key hq
    rw [← List.cons_append, descend_append, ih hc.1, Option.some_bind]
    have hent := hI.entries q hc.1 key
    rw [child_sane t q key hc.2, hq, if_pos rfl] at hent
    obtain ⟨c, hc2, hrep⟩ := RepOpt_some hent
    have hc3 : mapGet (h.children (addr q)) key = some c := hc2
    simp only [descend, hc3]
    rw [hrep.2]

theorem flag_child {commands : List Command} {h : Heap} {t : ATree} {addr : List Str → Nat}
    (hI : Inv commands h t addr) (q : List Str) (hq : t.present q = true) (name : Str)
    (hname : name ∈ flagNames) (hf : t.flags q name = true) :
    HasChild h (addr q) name AutoCompleteNodeType.Flag := by
  have hent := hI.entries q hq name
  simp only [ATree.child, if_pos hname, hf, if_true] at hent
  obtain ⟨c, hc, hrep⟩ := RepOpt_some hent
  refine ⟨c, hc, ?_⟩
  by_cases hv : flagValues name = []
  · rw [if_pos hv] at hrep
    exact hrep.2.2.1
  · rw [if_neg hv] at hrep
    exact hrep.2.2.1

theorem arg_child {commands : List Command} {h : Heap} {t : ATree} {addr : List Str → Nat}
    (hI : Inv commands h t addr) (q : List Str) (hq : t.present q = true) (name : Str)
    (ha : (t.args q (name ++ "=".toList)).isSome = true) :
    HasChild h (addr q) (name ++ "=".toList) AutoCompleteNodeType.Argument := by
  have hent := hI.entries q hq (name ++ "=".toList)
  obtain ⟨spec, hspec⟩ := Option.isSome_iff_exists.mp ha
  simp only [ATree.child, if_neg (argKey_not_flagName name), endsEq_argKey, if_true, hspec,
    Option.map_some'] at hent
  obtain ⟨c, hc, hrep⟩ := RepOpt_some hent
  exact ⟨c, hc, hrep.2.1⟩

theorem foldl_addCommand_of (P : ATree → Prop)
    (hmono : ∀ (t : ATree) (c : Command), P t → P (t.addCommand c)) :
    ∀ (cs : List Command) (t : ATree), P t → P (cs.foldl ATree.addCommand t)
  | [], _, h => h
  | c :: cs, t, h => foldl_addCommand_of P hmono cs _ (hmono t c h)

theorem foldl_addCommand_mem (P : ATree → Prop)
    (hmono : ∀ (t : ATree) (c : Command), P t → P (t.addCommand c)) (cmd : Command)
    (hadd : ∀ t : ATree, P (t.addCommand cmd)) :
    ∀ (cs : List Command) (t : ATree), cmd ∈ cs → P (cs.foldl ATree.addCommand t)
  | [], _, h => by simp at h
  | c :: cs, t, h => by
    rcases List.mem_cons.mp h with e | hm
    · subst e
      exact foldl_addCommand_of P hmono cs _ (hadd t)
    · exact foldl_addCommand_mem P hmono cmd hadd cs _ hm

theorem argsAfter_mono : ∀ (specs : List ArgSpec) (f : Str → Option ArgSpec) (key : Str),
    (f key).isSome = true → (argsAfter specs f key).isSome = true
  | [], _, _, h => h
  | spec :: rest, f, key, h => by
    apply argsAfter_mono rest
    by_cases hk : key = spec.Name ++ "=".toList
    · rw [if_pos hk]; rfl
    · rw [if_neg hk]; exact h

theorem argsAfter_mem : ∀ (specs : List ArgSpec) (f : Str → Option ArgSpec) (s : ArgSpec),
    s ∈ specs → (argsAfter specs f (s.Name ++ "=".toList)).isSome = true
  | [], _, _, h => by simp at h
  | spec :: rest, f, s, h => by
    rcases List.mem_cons.mp h with e | hm
    · subst e
      apply argsAfter_mono rest
      simp
    · exact argsAfter_mem rest _ s hm

theorem onPath_prefix : ∀ (parts q0 x : List Str), x ≠ [] → x <+: parts →
    onPath q0 parts (q0 ++ x) = true
  | [], _, x, hx, hp => absurd (List.prefix_nil.mp hp) hx
  | part :: parts, q0, [], hx, _ => absurd rfl hx
  | part :: parts, q0, a :: x, _, hp => by
    have := List.cons_prefix_cons.mp hp
    rw [this.1]
    simp only [onPath, Bool.or_eq_true, decide_eq_true_eq]
    by_cases hx : x = []
    · left; rw [hx]
    · right
      have := onPath_prefix parts (q0 ++ [part]) x hx this.2
      rw [List.append_assoc, List.singleton_append] at this
      exact this

/-- What the described tree of a registry holds for each command of the registry. -/
theorem build_facts (commands : List Command) (cmd : Command) (hcmd : cmd ∈ commands) :
    (∀ q, q <+: cmdPath cmd → (ATree.build commands).present q = true ∧
      ∀ name ∈ globalFlagNames, (ATree.build commands).flags q name = true) ∧
    (∀ spec ∈ cmd.ArgSpecs,
      ((ATree.build commands).args (cmdPath cmd) (spec.Name ++ "=".toList)).isSome = true) ∧
    (cmd.WaitFunc = true → ∀ name ∈ waitFlagNames,
      (ATree.build commands).flags (cmdPath cmd) name = true) := by
  have mono1 : ∀ x, ∀ (t : ATree) (c : Command), t.present x = true →
      (t.addCommand c).present x = true := by
    intro x t c h
    rw [addCommand_eq]
    simp [h]
  have mono2 : ∀ x key, ∀ (t : ATree) (c : Command), t.flags x key = true →
      (t.addCommand c).flags x key = true := by
    intro x key t c h
    rw [addCommand_eq]
    simp [h]
  have mono3 : ∀ x key, ∀ (t : ATree) (c : Command), (t.args x key).isSome = true →
      ((t.addCommand c).args x key).isSome = true := by
    intro x key t c h
    rw [addCommand_eq]
    simp only
    split
    · exact argsAfter_mono _ _ _ h
    · exact h
  refine ⟨?_, ?_, ?_⟩
  · intro q hq
    by_cases hq0 : q = []
    · subst hq0
      exact ⟨foldl_addCommand_of _ (mono1 []) _ _ rfl,
        fun name hname => foldl_addCommand_of _ (mono2 [] name) _ _
          (by simp [ATree.base, hname])⟩
    · have hon := onPath_prefix (cmdPath cmd) [] q hq0 hq
      rw [List.nil_append] at hon
      refine ⟨foldl_addCommand_mem _ (mono1 q) cmd ?_ _ _ hcmd,
        fun name hname => foldl_addCommand_mem _ (mono2 q name) cmd ?_ _ _ hcmd⟩
      · intro t
        rw [addCommand_eq]
        simp [hon]
      · intro t
        rw [addCommand_eq]
        simp [hon, hname]
  · intro spec hspec
    apply foldl_addCommand_mem _ (mono3 _ _) cmd _ _ _ hcmd
    intro t
    rw [addCommand_eq]
    simp only [if_true]
    exact argsAfter_mem _ _ _ hspec
  · intro hw name hname
    apply foldl_addCommand_mem _ (mono2 _ _) cmd _ _ _ hcmd
    intro t
    rw [addCommand_eq]
    simp [hw, hname]

set_option maxRecDepth 100000 in
/-- Claim C17, refuted on the code: in the registry `eqRegistry` the path `a b=` of the first
command ends, in the built tree, at an argument node (the child `b=` of `a` is replaced by
the argument `b` of the second command), which has no child at all and so none of the global
flags. -/
theorem C17_counterexample :
    (∃ cmd ∈ eqRegistry, cmdPath cmd = ["a".toList, "b=".toList]) ∧
      descend (BuildAutoCompleteTree eqRegistry).1 (BuildAutoCompleteTree eqRegistry).2
        ["scw".toList, "a".toList, "b=".toList] = some 68 ∧
      ((BuildAutoCompleteTree eqRegistry).1.node 68).NodeType =
        AutoCompleteNodeType.Argument ∧
      (BuildAutoCompleteTree eqRegistry).1.children 68 = [] :=
  ⟨⟨_, List.mem_cons_self _ _, by decide⟩, by decide!⟩

/-- Claim C17 as amended: for every registry whose namespaces, resources and verbs do not
begin with `-` and do not end with `=`, in the built tree the node `scw` and the node at
every prefix of the path of every command (empty segments skipped) have the ten global flag
keys as children of type Flag, and the node at the end of the path of a command has, for
each argument spec of the command, a child keyed `Name ++ "="` of type Argument, and Flag
children `-w` and `--wait` when the command supports wait. -/
theorem C17_tree_shape (commands : List Command)
    (hsane : ∀ cmd ∈ commands, ∀ part ∈ cmdPath cmd, sanePart part = true) :
    (∃ n, descend (BuildAutoCompleteTree commands).1 (BuildAutoCompleteTree commands).2
        ["scw".toList] = some n ∧
      ∀ name ∈ globalFlagNames,
        HasChild (BuildAutoCompleteTree commands).1 n name AutoCompleteNodeType.Flag) ∧
    ∀ cmd ∈ commands,
      (∀ q, q <+: cmdPath cmd →
        ∃ n, descend (BuildAutoCompleteTree commands).1 (BuildAutoCompleteTree commands).2
            ("scw".toList :: q) = some n ∧
          ∀ name ∈ globalFlagNames,
            HasChild (BuildAutoCompleteTree commands).1 n name AutoCompleteNodeType.Flag) ∧
      ∃ n, descend (BuildAutoCompleteTree commands).1 (BuildAutoCompleteTree commands).2
          ("scw".toList :: cmdPath cmd) = some n ∧
        (∀ spec ∈ cmd.ArgSpecs,
          HasChild (BuildAutoCompleteTree commands).1 n (spec.Name ++ "=".toList)
            AutoCompleteNodeType.Argument) ∧
        (cmd.WaitFunc = true → ∀ name ∈ waitFlagNames,
          HasChild (BuildAutoCompleteTree commands).1 n name AutoCompleteNodeType.Flag) := by
  obtain ⟨addr, hI⟩ := Inv_Build commands hsane
  have hroot : (BuildAutoCompleteTree commands).2 = 0 := rfl
  rw [hroot]
  have hglobal : ∀ name ∈ globalFlagNames, name ∈ flagNames :=
    fun name hn => List.mem_append_left _ hn
  have hwait : ∀ name ∈ waitFlagNames, name ∈ flagNames :=
    fun name hn => List.mem_append_right _ hn
  constructor
  · refine ⟨addr [], descend_cmd hI [] hI.wf.nil, ?_⟩
    intro name hname
    apply flag_child hI [] hI.wf.nil name (hglobal name hname)
    exact foldl_addCommand_of (fun t => t.flags [] name = true)
      (fun t c h => by rw [addCommand_eq]; simp [h]) _ _ (by simp [ATree.base, hname])
  · intro cmd hcmd
    obtain ⟨h1, h2, h3⟩ := build_facts commands cmd hcmd
    constructor
    · intro q hq
      refine ⟨addr q, descend_cmd hI q (h1 q hq).1, ?_⟩
      intro name hname
      exact flag_child hI q (h1 q hq).1 name (hglobal name hname) ((h1 q hq).2 name hname)
    · have hp := (h1 (cmdPath cmd) (List.prefix_refl _)).1
      refine ⟨addr (cmdPath cmd), descend_cmd hI _ hp, ?_, ?_⟩
      · intro spec hspec
        exact arg_child hI _ hp spec.Name (h2 spec hspec)
      · intro hw name hname
        exact flag_child hI _ hp name (hwait name hname) (h3 hw name hname)

/-- The amended claim applied to the registry of `instance server list` and
`instance server get`: the node `scw` and every node on the path `instance server get` have
the global flags, and the node of `get` has the two wait flags. -/
theorem C17_tree_shape_witness :
    (∀ cmd ∈ twoRegistry, ∀ part ∈ cmdPath cmd, sanePart part = true) ∧
      (∀ q, q <+: cmdPath serverGet →
        ∃ n, descend (BuildAutoCompleteTree twoRegistry).1 (BuildAutoCompleteTree twoRegistry).2
            ("scw".toList :: q) = some n ∧
          ∀ name ∈ globalFlagNames,
            HasChild (BuildAutoCompleteTree twoRegistry).1 n name AutoCompleteNodeType.Flag) ∧
      ∃ n, descend (BuildAutoCompleteTree twoRegistry).1 (BuildAutoCompleteTree twoRegistry).2
          ("scw".toList :: cmdPath serverGet) = some n ∧
        (∀ spec ∈ serverGet.ArgSpecs,
          HasChild (BuildAutoCompleteTree twoRegistry).1 n (spec.Name ++ "=".toList)
            AutoCompleteNodeType.Argument) ∧
        (serverGet.WaitFunc = true → ∀ name ∈ waitFlagNames,
          HasChild (BuildAutoCompleteTree twoRegistry).1 n name AutoCompleteNodeType.Flag) :=
  ⟨by decide, (C17_tree_shape twoRegistry (by decide)).2 serverGet
    (List.mem_cons_of_mem _ (List.mem_cons_self _ _))⟩

/-! ### The built tree does not depend on the order of the commands -/

set_option maxRecDepth 100000 in
/-- Claim C18, refuted on the code. In `verbRegistry` the two commands have distinct
(namespace, resource, verb) triples but end at the same node `scw a b` (empty segments are
skipped), and the command attached there is the one processed last: its verb is empty in one
order and `b` in the other. In `eqRegistry` the paths are distinct even with the empty
segments skipped, and the node at `scw a b=` has no command in one order and a command in
the other. -/
theorem C18_counterexample :
    (verbRegistry.Perm verbRegistrySwapped ∧
      (verbRegistry.map (fun c => (c.Namespace, c.Resource, c.Verb))).Nodup ∧
      (viewAt verbRegistry ["scw".toList, "a".toList, "b".toList]).map
        (fun v => v.2.1.map (fun c => c.Verb)) = some (some []) ∧
      (viewAt verbRegistrySwapped ["scw".toList, "a".toList, "b".toList]).map
        (fun v => v.2.1.map (fun c => c.Verb)) = some (some "b".toList)) ∧
    (eqRegistry.Perm eqRegistrySwapped ∧
      (eqRegistry.map cmdPath).Nodup ∧
      (viewAt eqRegistry ["scw".toList, "a".toList, "b=".toList]).map
        (fun v => v.2.1.isSome) = some false ∧
      (viewAt eqRegistrySwapped ["scw".toList, "a".toList, "b=".toList]).map
        (fun v => v.2.1.isSome) = some true) :=
  ⟨⟨List.Perm.swap _ _ _, by decide, by decide!, by decide!⟩,
    ⟨List.Perm.swap _ _ _, by decide, by decide!, by decide!⟩⟩

/-- Claim C18 as amended: for every registry whose namespaces, resources and verbs do not
begin with `-` and do not end with `=` and whose commands have pairwise distinct paths
(empty segments skipped), and every rearrangement of its command list, the two built trees
show the same thing at the end of every list of child keys from the root: both have a node
there or none has, and the two nodes have the same type, the same attached command and the
same argument spec. -/
theorem C18_order_independent (commands commands2 : List Command)
    (hperm : commands.Perm commands2)
    (hsane : ∀ cmd ∈ commands, ∀ part ∈ cmdPath cmd, sanePart part = true)
    (hd : (commands.map cmdPath).Nodup) (path : List Str) :
    viewAt commands path = viewAt commands2 path := by
  rw [viewAt_eq commands hsane, viewAt_eq commands2
    (fun cmd hc => hsane cmd (hperm.mem_iff.mpr hc)), build_perm commands commands2 hperm hd]

/-- The amended claim applied to the registry of `instance server list` and
`instance server get` and to the exchange of the two commands, at the node of
`instance server`. -/
theorem C18_order_independent_witness :
    twoRegistry.Perm twoRegistrySwapped ∧
      (∀ cmd ∈ twoRegistry, ∀ part ∈ cmdPath cmd, sanePart part = true) ∧
      (twoRegistry.map cmdPath).Nodup ∧
      viewAt twoRegistry ["scw".toList, "instance".toList, "server".toList] =
        viewAt twoRegistrySwapped ["scw".toList, "instance".toList, "server".toList] :=
  ⟨List.Perm.swap _ _ _, by decide, by decide,
    C18_order_independent twoRegistry twoRegistrySwapped (List.Perm.swap _ _ _) (by decide)
      (by decide) _⟩

/-! ### Completing `-` after `scw` -/

theorem Pres.trans {h h1 h2 : Heap} {n : Nat} (a : Pres h h1 n) (b : Pres h1 h2 n) :
    Pres h h2 n := by
  refine ⟨Nat.le_trans a.nodesLen b.nodesLen, Nat.le_trans a.mapsLen b.mapsLen, ?_, ?_, ?_⟩
  · intro p hp hpn
    rw [b.nodeEq p (Nat.lt_of_lt_of_le hp a.nodesLen) hpn, a.nodeEq p hp hpn]
  · exact ⟨b.self.1.trans a.self.1, b.self.2.trans a.self.2⟩
  · intro k hk hkn
    rw [b.mapEq k (Nat.lt_of_lt_of_le hk a.mapsLen) (by rw [a.self.1]; exact hkn),
      a.mapEq k hk hkn]

theorem Pres_form (h : Heap) (ns : List AutoCompleteNode) (ms : List ChildMap)
    (g : ChildMap → ChildMap) (n : Nat) (hn : n < h.nodes.length)
    (hM : (h.node n).Children < h.maps.length) :
    Pres h { nodes := h.nodes ++ ns, maps := updateAt g (h.node n).Children (h.maps ++ ms) }
      n := by
  refine ⟨?_, ?_, ?_, ?_, ?_⟩
  · simp
  · simp only [maps_ext_length]
    exact Nat.le_add_right _ _
  · intro p hp _
    exact node_append h _ _ p hp
  · rw [node_append h _ _ n hn]
    exact ⟨rfl, rfl⟩
  · intro k hk hkn
    rw [maps_ext_old _ _ _ _ _ hM hk, if_neg hkn]

theorem Pres_addFlag_step {h0 h : Heap} {n : Nat} (hP : Pres h0 h n)
    (hn : n < h0.nodes.length) (hM : (h0.node n).Children < h0.maps.length) (name : Str)
    (values : List Str) (hasVariableValue : Bool)
    (hshape : (values = [] ∧ hasVariableValue = false) ∨
      (values = [] ∧ hasVariableValue = true) ∨
      (values = ["json".toList, "human".toList] ∧ hasVariableValue = false)) :
    Pres h0 (addFlag h n name values hasVariableValue) n := by
  have hn2 : n < h.nodes.length := Nat.lt_of_lt_of_le hn hP.nodesLen
  have hM2 : (h.node n).Children < h.maps.length := by
    rw [hP.self.1]
    exact Nat.lt_of_lt_of_le hM hP.mapsLen
  apply hP.trans
  rcases hshape with ⟨e1, e2⟩ | ⟨e1, e2⟩ | ⟨e1, e2⟩ <;> subst e1 <;> subst e2
  · rw [addFlag_plain h n name hn2]
    exact Pres_form h _ _ _ n hn2 hM2
  · rw [addFlag_variable h n name hn2]
    exact Pres_form h _ _ _ n hn2 hM2
  · rw [addFlag_constants h n name _ _ hn2]
    exact Pres_form h _ _ _ n hn2 hM2

theorem Pres.refl (h : Heap) (n : Nat) : Pres h h n :=
  ⟨Nat.le_refl _, Nat.le_refl _, fun _ _ _ => rfl, ⟨rfl, rfl⟩, fun _ _ _ => rfl⟩

theorem Pres_addGlobalFlags {h0 h : Heap} {n : Nat} (hP : Pres h0 h n)
    (hn : n < h0.nodes.length) (hM : (h0.node n).Children < h0.maps.length) :
    Pres h0 (addGlobalFlags h n) n := by
  have h1 := Pres_addFlag_step hP hn hM "--access-key".toList [] true (by simp)
  have h2 := Pres_addFlag_step h1 hn hM "-D".toList [] false (by simp)
  have h3 := Pres_addFlag_step h2 hn hM "--debug".toList [] false (by simp)
  have h4 := Pres_addFlag_step h3 hn hM "-h".toList [] false (by simp)
  have h5 := Pres_addFlag_step h4 hn hM "--help".toList [] false (by simp)
  have h6 := Pres_addFlag_step h5 hn hM "-o".toList ["json".toList, "human".toList] false
    (by simp)
  have h7 := Pres_addFlag_step h6 hn hM "--output".toList ["json".toList, "human".toList]
    false (by simp)
  have h8 := Pres_addFlag_step h7 hn hM "-p".toList [] false (by simp)
  have h9 := Pres_addFlag_step h8 hn hM "--profile".toList [] false (by simp)
  exact Pres_addFlag_step h9 hn hM "--secret-key".toList [] true (by simp)

theorem Pres_setCommand {h0 h : Heap} {n : Nat} (hP : Pres h0 h n)
    (hn : n < h0.nodes.length) (i : Nat) :
    Pres h0 (h.setNode n (fun x => { x with Command := some i })) n := by
  have hn2 : n < h.nodes.length := Nat.lt_of_lt_of_le hn hP.nodesLen
  apply hP.trans
  refine ⟨?_, Nat.le_refl _, ?_, ?_, ?_⟩
  · simp only [Heap.setNode, updateAt_length]
    exact Nat.le_refl _
  · intro p _ hpn
    rw [node_setNode h n _ hn2, if_neg hpn]
  · rw [node_setNode h n _ hn2, if_pos rfl]
    exact ⟨rfl, rfl⟩
  · intro k _ _
    rfl

theorem strLe_antisymm : ∀ a b : Str, strLe a b = true → strLe b a = true → a = b
  | [], [], _, _ => rfl
  | [], _ :: _, _, h => by simp [strLe] at h
  | _ :: _, [], h, _ => by simp [strLe] at h
  | c :: s, d :: t, h1, h2 => by
    simp only [strLe, Bool.or_eq_true, decide_eq_true_eq, Bool.and_eq_true, beq_iff_eq]
      at h1 h2
    rcases h1 with h1 | ⟨e1, h1⟩
    · rcases h2 with h2 | ⟨e2, _⟩
      · omega
      · rw [e2] at h1; omega
    · rcases h2 with h2 | ⟨_, h2⟩
      · rw [e1] at h2; omega
      · rw [e1, strLe_antisymm s t h1 h2]

theorem sortStrings_perm {l1 l2 : List Str} (h : l1.Perm l2) :
    sortStrings l1 = sortStrings l2 :=
  @List.eq_of_perm_of_sorted Str (fun a b => strLe a b = true) ⟨strLe_antisymm⟩ _ _
    (((List.perm_insertionSort _ l1).trans h).trans (List.perm_insertionSort _ l2).symm)
    (sortStrings_sorted l1) (sortStrings_sorted l2)

theorem mapGet_none_of_keys : ∀ (m : ChildMap) (key : Str), (∀ e ∈ m, e.1 ≠ key) →
    mapGet m key = none
  | [], _, _ => rfl
  | (k, v) :: m, key, h => by
    simp only [mapGet, if_neg (h (k, v) (List.mem_cons_self _ _))]
    exact mapGet_none_of_keys m key (fun e he => h e (List.mem_cons_of_mem _ he))

theorem mapSet_append_of_keys : ∀ (m : ChildMap) (key : Str) (v : Nat),
    (∀ e ∈ m, e.1 ≠ key) → mapSet m key v = m ++ [(key, v)]
  | [], _, _, _ => rfl
  | (k, w) :: m, key, v, h => by
    simp only [mapSet, if_neg (h (k, w) (List.mem_cons_self _ _)), List.cons_append]
    rw [mapSet_append_of_keys m key v (fun e he => h e (List.mem_cons_of_mem _ he))]

/-- The name-completion loop on children whose matching keys have no placeholder: the keys
that match the word, are not completed and are not flags on an empty word. -/
theorem nameSuggestions_plain (w : Str) (cArgs cFlags : List Str) :
    ∀ m : ChildMap, (∀ e ∈ m, hasPrefix e.1 w = true → PlainName e.1) →
      nameSuggestions w cArgs cFlags m =
        .ok ((m.map Prod.fst).filter (fun key => hasPrefix key w && !decide (key ∈ cArgs) &&
          !decide (key ∈ cFlags) && !(isFlag key && decide (w = []))))
  | [], _ => rfl
  | (key, v) :: m, h => by
    have ih := nameSuggestions_plain w cArgs cFlags m
      (fun e he => h e (List.mem_cons_of_mem _ he))
    simp only [nameSuggestions, ih, List.map_cons, List.filter]
    cases hp : hasPrefix key w with
    | false => simp
    | true =>
      have hplain := h (key, v) (List.mem_cons_self _ _) hp
      simp only [hplain.1, hplain.2, Bool.not_true, Bool.false_eq_true, if_false, Bool.true_and]
      by_cases h3 : key ∈ cArgs
      · simp [h3]
      · by_cases h4 : key ∈ cFlags
        · simp [h3, h4]
        · cases h5 : (isFlag key && decide (w = []))
          · simp [h3, h4, Except.map]
          · simp [h3, h4]

theorem GetChildOrCreate_facts (h : Heap) (node : Nat) (name : Str)
    (hm : mapGet (h.children node) name = none)
    (hM : (h.node node).Children < h.maps.length) :
    (GetChildOrCreate h node name).2 = h.nodes.length ∧
      (GetChildOrCreate h node name).1.nodes.length = h.nodes.length + 1 ∧
      (GetChildOrCreate h node name).1.maps.length = h.maps.length + 1 ∧
      (∀ p, p < h.nodes.length → (GetChildOrCreate h node name).1.node p = h.node p) ∧
      ((GetChildOrCreate h node name).1.node h.nodes.length).Children = h.maps.length ∧
      ((GetChildOrCreate h node name).1.node h.nodes.length).NodeType =
        AutoCompleteNodeType.Command ∧
      ∀ k, k < h.maps.length → (GetChildOrCreate h node name).1.maps.getD k [] =
        if k = (h.node node).Children then mapSet (h.maps.getD k []) name h.nodes.length
        else h.maps.getD k [] := by
  rw [GetChildOrCreate_none h node name hm]
  refine ⟨rfl, by simp, by simp [maps_ext_length], fun p hp => node_append h _ _ p hp,
    by rw [node_append_length], by rw [node_append_length], ?_⟩
  intro k hk
  exact maps_ext_old _ _ _ _ _ hM hk

set_option maxRecDepth 100000 in
theorem baseHeap_facts :
    baseHeap.nodes.length = 18 ∧ baseHeap.maps.length = 18 ∧
      (baseHeap.node 0).Children = 0 ∧ (baseHeap.node 1).Children = 1 ∧
      (baseHeap.node 1).NodeType = AutoCompleteNodeType.Command ∧
      baseHeap.maps.getD 0 [] = [("scw".toList, 1)] ∧
      baseHeap.maps.getD 1 [] =
        [("--access-key".toList, 2), ("-D".toList, 4), ("--debug".toList, 5),
         ("-h".toList, 6), ("--help".toList, 7), ("-o".toList, 8), ("--output".toList, 11),
         ("-p".toList, 14), ("--profile".toList, 15), ("--secret-key".toList, 16)] := by
  decide!

theorem descendPath_ns (h : Heap) (scw : Nat) (ns : Str) (hne : ns ≠ []) :
    descendPath h scw [ns, [], []] =
      (addGlobalFlags (GetChildOrCreate h scw ns).1 (GetChildOrCreate h scw ns).2,
        (GetChildOrCreate h scw ns).2) := by
  have hnil : ¬ (([] : Str) ≠ []) := fun e => e rfl
  rw [descendPath, if_pos hne]
  show descendPath _ _ [[], []] = _
  rw [descendPath, if_neg hnil, descendPath, if_neg hnil, descendPath]
  rfl

theorem Pres_addCommand_ns (h : Heap) (scw i : Nat) (ns : Str) (wait : Bool) (hne : ns ≠ [])
    (hn : (GetChildOrCreate h scw ns).2 < (GetChildOrCreate h scw ns).1.nodes.length)
    (hM : ((GetChildOrCreate h scw ns).1.node (GetChildOrCreate h scw ns).2).Children <
      (GetChildOrCreate h scw ns).1.maps.length) :
    Pres (GetChildOrCreate h scw ns).1 (addCommand h scw i (nsCommand ns wait))
      (GetChildOrCreate h scw ns).2 := by
  have h1 := Pres_addGlobalFlags (Pres.refl _ _) hn hM
  have h2 := Pres_setCommand h1 hn i
  have h3 := Pres_addFlag_step h2 hn hM "-w".toList [] false (by simp)
  have h4 := Pres_addFlag_step h3 hn hM "--wait".toList [] false (by simp)
  unfold addCommand
  have e : descendPath h scw [(nsCommand ns wait).Namespace, (nsCommand ns wait).Resource,
      (nsCommand ns wait).Verb] = _ := descendPath_ns h scw ns hne
  rw [e]
  cases wait
  · exact h2
  · exact h4

theorem baseKeys_facts :
    (∀ e ∈ baseHeap.maps.getD 1 [], isFlag e.1 = true ∧ PlainName e.1) ∧
      mapGet (baseHeap.maps.getD 1 []) ("scw".toList ++ "=".toList) = none := by
  rw [baseHeap_facts.2.2.2.2.2.2]
  decide

theorem baseKeys_ne (ns : Str) (hflag : isFlag ns = false) :
    ∀ e ∈ baseHeap.maps.getD 1 [], e.1 ≠ ns := by
  intro e he e1
  have hf := (baseKeys_facts.1 e he).1
  rw [e1, hflag] at hf
  cases hf

theorem nsTree_facts (ns : Str) (wait : Bool) (hne : ns ≠ []) (hflag : isFlag ns = false) :
    (BuildAutoCompleteTree [nsCommand ns wait]).1.children 0 = [("scw".toList, 1)] ∧
      ((BuildAutoCompleteTree [nsCommand ns wait]).1.node 1).NodeType =
        AutoCompleteNodeType.Command ∧
      (BuildAutoCompleteTree [nsCommand ns wait]).1.children 1 =
        baseHeap.maps.getD 1 [] ++ [(ns, 18)] ∧
      ((BuildAutoCompleteTree [nsCommand ns wait]).1.node 18).NodeType =
        AutoCompleteNodeType.Command := by
  obtain ⟨b1, b2, b3, b4, b5, b6, b7⟩ := baseHeap_facts
  have hkeys := baseKeys_ne ns hflag
  have hm : mapGet (baseHeap.children 1) ns = none := by
    unfold Heap.children
    rw [b4]
    exact mapGet_none_of_keys _ _ hkeys
  obtain ⟨g1, g2, g3, g4, g5, g6, g7⟩ := GetChildOrCreate_facts baseHeap 1 ns hm
    (by rw [b4, b2]; decide)
  rw [b1] at g1 g2 g4 g5 g6 g7
  rw [b2] at g3 g5 g7
  have hP := Pres_addCommand_ns baseHeap 1 0 ns wait hne (by rw [g1, g2]; decide)
    (by rw [g1, g5, g3]; decide)
  rw [g1] at hP
  have hF : (BuildAutoCompleteTree [nsCommand ns wait]).1 =
      addCommand baseHeap 1 0 (nsCommand ns wait) := rfl
  rw [hF]
  have n0 := hP.nodeEq 0 (by rw [g2]; decide) (by decide)
  have n1 := hP.nodeEq 1 (by rw [g2]; decide) (by decide)
  rw [g4 0 (by decide)] at n0
  rw [g4 1 (by decide)] at n1
  have m0 := hP.mapEq 0 (by rw [g3]; decide) (by rw [g5]; decide)
  have m1 := hP.mapEq 1 (by rw [g3]; decide) (by rw [g5]; decide)
  rw [g7 0 (by decide), b4, if_neg (by decide)] at m0
  rw [g7 1 (by decide), b4, if_pos rfl, mapSet_append_of_keys _ _ _ hkeys] at m1
  refine ⟨?_, ?_, ?_, ?_⟩
  · unfold Heap.children
    rw [n0, b3, m0, b6]
  · rw [n1, b5]
  · unfold Heap.children
    rw [n1, b4, m1]
  · rw [hP.self.2, g6]

theorem hasPrefix_dash_false (ns : Str) (hflag : isFlag ns = false)
    (hslice : HasPrefix ns sliceSchema = false) (hmap : HasPrefix ns mapSchema = false) :
    hasPrefix ns "-".toList = false := by
  have hc : Contains "-".toList ".".toList = false := by decide
  have hf : HasPrefix ns "-".toList = false := hflag
  simp only [hasPrefix, hasPrefixFuel, hf, hc, hslice, hmap, Bool.false_eq_true, if_false,
    Bool.not_false, Bool.or_false, Bool.and_false, Bool.or_true, if_true]

set_option maxRecDepth 100000 in
/-- Claim C13, refuted on the code: in the registry whose only command is the namespace
`instance`, the completion of `-` with no left words suggests nothing, because the locator
starts at the root of the tree, whose only child is `scw`, and the global flags are attached
to `scw` and below. -/
theorem C13_counterexample :
    AutoComplete id [nsCommand "instance".toList false] [] "-".toList [] =
      .ok { Suggestions := [] } := by
  decide!

set_option maxRecDepth 100000 in
/-- Claim C13 as amended: for every registry that defines only one namespace (no resource,
no verb, no argument) whose name does not begin with `-` nor with a placeholder, and every
enumeration order of the maps, the completion of `-` after the left word `scw` returns
exactly the sorted list of the ten global flag keys, and not the namespace. -/
theorem C13_global_flags_after_scw (order : RangeOrder) (hv : order.Valid) (ns : Str)
    (wait : Bool) (hne : ns ≠ []) (hflag : isFlag ns = false)
    (hslice : HasPrefix ns sliceSchema = false) (hmap : HasPrefix ns mapSchema = false) :
    AutoComplete order [nsCommand ns wait] ["scw".toList] "-".toList [] =
      .ok { Suggestions := ["--access-key".toList, "--debug".toList, "--help".toList,
        "--output".toList, "--profile".toList, "--secret-key".toList, "-D".toList,
        "-h".toList, "-o".toList, "-p".toList] } := by
  obtain ⟨f0, f1, f2, f3⟩ := nsTree_facts ns wait hne hflag
  have b7 := baseHeap_facts.2.2.2.2.2.2
  have hroot : (BuildAutoCompleteTree [nsCommand ns wait]).2 = 0 := rfl
  have hloc : locate order (BuildAutoCompleteTree [nsCommand ns wait]).1 0 none
      ["scw".toList] = .ok (some 1) := by
    simp only [locate, f0, mapGet, if_true, f1]
    rfl
  have htrack : trackUsage (BuildAutoCompleteTree [nsCommand ns wait]).1 1
      (["scw".toList] ++ []) = ([], []) := by
    have hw1 : isFlag "scw".toList = false := by decide
    have hw2 : isArg "scw".toList = false := by decide
    simp only [trackUsage, List.append_nil, List.foldl, trackWord, hw1, hw2,
      Bool.false_eq_true, if_false]
    cases hm : mapGet ((BuildAutoCompleteTree [nsCommand ns wait]).1.children 1)
        ("scw".toList ++ "=".toList) with
    | none => rfl
    | some c =>
      have hc : c = 18 := by
        rw [f2, ← mapSet_append_of_keys _ _ 18 (baseKeys_ne ns hflag), mapGet_mapSet] at hm
        split at hm
        · cases hm; rfl
        · rw [baseKeys_facts.2] at hm
          cases hm
      subst hc
      simp only [f3]
      rfl
  have hperm := hv ((BuildAutoCompleteTree [nsCommand ns wait]).1.children 1)
  have hnone := hasPrefix_dash_false ns hflag hslice hmap
  have hplain : ∀ e ∈ order ((BuildAutoCompleteTree [nsCommand ns wait]).1.children 1),
      hasPrefix e.1 "-".toList = true → PlainName e.1 := by
    intro e he hp
    have he2 := hperm.mem_iff.mp he
    rw [f2] at he2
    rcases List.mem_append.mp he2 with h1 | h1
    · exact (baseKeys_facts.1 e h1).2
    · simp only [List.mem_singleton] at h1
      rw [h1] at hp
      rw [hnone] at hp
      cases hp
  have hsug := nameSuggestions_plain "-".toList [] []
    (order ((BuildAutoCompleteTree [nsCommand ns wait]).1.children 1)) hplain
  have hword : isCompletingArgValue "-".toList = false := by decide
  unfold AutoComplete
  simp only [hroot, hloc, htrack, suggest, hword, Bool.false_eq_true, if_false, hsug,
    newAutoCompleteResponse]
  have hp2 : ((order ((BuildAutoCompleteTree [nsCommand ns wait]).1.children 1)).map
      Prod.fst).filter (fun key => hasPrefix key "-".toList && !decide (key ∈ ([] : List Str))
        && !decide (key ∈ ([] : List Str)) && !(isFlag key && decide ("-".toList = []))) |>.Perm
      ["--access-key".toList, "-D".toList, "--debug".toList, "-h".toList, "--help".toList,
        "-o".toList, "--output".toList, "-p".toList, "--profile".toList,
        "--secret-key".toList] := by
    refine ((hperm.map Prod.fst).filter _).trans ?_
    rw [f2, b7, List.map_append, List.filter_append]
    have e1 : List.filter (fun key => hasPrefix key "-".toList &&
        !decide (key ∈ ([] : List Str)) && !decide (key ∈ ([] : List Str)) &&
        !(isFlag key && decide ("-".toList = []))) (List.map Prod.fst [(ns, 18)]) = [] := by
      simp only [List.map_cons, List.map_nil, List.filter, hnone, Bool.false_and]
    rw [e1, List.append_nil]
    exact List.Perm.of_eq (by decide)
  rw [sortStrings_perm hp2]
  have : sortStrings ["--access-key".toList, "-D".toList, "--debug".toList, "-h".toList,
      "--help".toList, "-o".toList, "--output".toList, "-p".toList, "--profile".toList,
      "--secret-key".toList] = ["--access-key".toList, "--debug".toList, "--help".toList,
        "--output".toList, "--profile".toList, "--secret-key".toList, "-D".toList,
        "-h".toList, "-o".toList, "-p".toList] := by decide!
  rw [this]

/-- The amended claim applied to the namespace `instance` and to the order in which the
children were inserted. -/
theorem C13_global_flags_after_scw_witness :
    "instance".toList ≠ [] ∧ isFlag "instance".toList = false ∧
      AutoComplete id [nsCommand "instance".toList false] ["scw".toList] "-".toList [] =
        .ok { Suggestions := ["--access-key".toList, "--debug".toList, "--help".toList,
          "--output".toList, "--profile".toList, "--secret-key".toList, "-D".toList,
          "-h".toList, "-o".toList, "-p".toList] } :=
  ⟨by decide, by decide, C13_global_flags_after_scw id (fun m => List.Perm.refl m)
    "instance".toList false (by decide) (by decide) (by decide) (by decide)⟩

/-! ### Unknown words at a leaf command, and the enumeration order -/

theorem nameSuggestions_cons_ok (w : Str) (cArgs cFlags : List Str) (key : Str) (v : Nat)
    (rest : ChildMap) (l : List Str) :
    nameSuggestions w cArgs cFlags ((key, v) :: rest) = .ok l ↔
      ∃ o l2, keyEntry w cArgs cFlags key = .ok o ∧
        nameSuggestions w cArgs cFlags rest = .ok l2 ∧ l = o.toList ++ l2 := by
  simp only [nameSuggestions, keyEntry]
  cases hr : nameSuggestions w cArgs cFlags rest with
  | error e =>
    constructor
    · intro h
      exfalso
      split at h
      · cases h
      · split at h
        · split at h <;> cases h
        · split at h
          · split at h <;> cases h
          · split at h
            · cases h
            · split at h
              · cases h
              · split at h <;> cases h
    · rintro ⟨o, l2, _, h2, _⟩
      cases h2
  | ok l2 =>
    by_cases h0 : (!hasPrefix key w) = true
    · simp only [h0, if_true]
      constructor
      · intro h; cases h; exact ⟨none, l, rfl, rfl, rfl⟩
      · rintro ⟨o, l3, h1, h2, h3⟩
        cases h1; cases h2; rw [h3]; rfl
    · simp only [h0, if_false]
      by_cases h1 : Contains key sliceSchema = true
      · simp only [h1, if_true]
        cases hk : keySuggestion key sliceSchema cArgs with
        | error e =>
          constructor
          · intro h; cases h
          · rintro ⟨o, l3, h1, _, _⟩; cases h1
        | ok s =>
          constructor
          · intro h; cases h; exact ⟨some s, l2, rfl, rfl, rfl⟩
          · rintro ⟨o, l3, h1, h2, h3⟩
            cases h1; cases h2; rw [h3]; rfl
      · simp only [h1, if_false]
        by_cases h2 : Contains key mapSchema = true
        · simp only [h2, if_true]
          cases hk : keySuggestion key mapSchema cArgs with
          | error e =>
            constructor
            · intro h; cases h
            · rintro ⟨o, l3, h1, _, _⟩; cases h1
          | ok s =>
            constructor
            · intro h; cases h; exact ⟨some s, l2, rfl, rfl, rfl⟩
            · rintro ⟨o, l3, h1, h2, h3⟩
              cases h1; cases h2; rw [h3]; rfl
        · simp only [h2, if_false]
          by_cases h3 : key ∈ cArgs
          · simp only [h3, if_true]
            constructor
            · intro h; cases h; exact ⟨none, l, rfl, rfl, rfl⟩
            · rintro ⟨o, l3, h1, h2, h3⟩
              cases h1; cases h2; rw [h3]; rfl
          · simp only [h3, if_false]
            by_cases h4 : key ∈ cFlags
            · simp only [h4, if_true]
              constructor
              · intro h; cases h; exact ⟨none, l, rfl, rfl, rfl⟩
              · rintro ⟨o, l3, h1, h2, h3⟩
                cases h1; cases h2; rw [h3]; rfl
            · simp only [h4, if_false]
              by_cases h5 : (isFlag key && decide (w = [])) = true
              · simp only [h5, if_true]
                constructor
                · intro h; cases h; exact ⟨none, l, rfl, rfl, rfl⟩
                · rintro ⟨o, l3, h1, h2, h3⟩
                  cases h1; cases h2; rw [h3]; rfl
              · simp only [h5, if_false]
                constructor
                · intro h; cases h; exact ⟨some key, l2, rfl, rfl, rfl⟩
                · rintro ⟨o, l3, h1, h2, h3⟩
                  cases h1; cases h2; rw [h3]; rfl

/-- The suggestions of the name-completion loop over two enumerations of the same children
are rearrangements of each other, and the loop fails on one when it fails on the other. -/
theorem nameSuggestions_perm (w : Str) (cArgs cFlags : List Str) {m1 m2 : ChildMap}
    (hp : m1.Perm m2) :
    ∀ l1, nameSuggestions w cArgs cFlags m1 = .ok l1 →
      ∃ l2, nameSuggestions w cArgs cFlags m2 = .ok l2 ∧ l1.Perm l2 := by
  induction hp with
  | nil => intro l1 h; exact ⟨l1, h, List.Perm.refl _⟩
  | cons x _ ih =>
    intro l1 h
    obtain ⟨key, v⟩ := x
    obtain ⟨o, l, h1, h2, h3⟩ := (nameSuggestions_cons_ok w cArgs cFlags key v _ l1).mp h
    obtain ⟨l', h4, h5⟩ := ih l h2
    exact ⟨o.toList ++ l', (nameSuggestions_cons_ok w cArgs cFlags key v _ _).mpr
      ⟨o, l', h1, h4, rfl⟩, by rw [h3]; exact h5.append_left _⟩
  | swap x y m =>
    intro l1 h
    obtain ⟨kx, vx⟩ := x
    obtain ⟨ky, vy⟩ := y
    obtain ⟨oy, l, h1, h2, h3⟩ := (nameSuggestions_cons_ok w cArgs cFlags ky vy _ l1).mp h
    obtain ⟨ox, l', h4, h5, h6⟩ := (nameSuggestions_cons_ok w cArgs cFlags kx vx _ l).mp h2
    refine ⟨ox.toList ++ (oy.toList ++ l'), (nameSuggestions_cons_ok w cArgs cFlags kx vx _ _).mpr
      ⟨ox, oy.toList ++ l', h4, (nameSuggestions_cons_ok w cArgs cFlags ky vy _ _).mpr
        ⟨oy, l', h1, h5, rfl⟩, rfl⟩, ?_⟩
    rw [h3, h6, ← List.append_assoc, ← List.append_assoc]
    exact List.Perm.append_right _ List.perm_append_comm
  | trans _ _ ih1 ih2 =>
    intro l1 h
    obtain ⟨l2, h2, p2⟩ := ih1 l1 h
    obtain ⟨l3, h3, p3⟩ := ih2 l2 h2
    exact ⟨l3, h3, p2.trans p3⟩

/-- In name completion the response does not depend on the enumeration order: two valid
orders give the same response, or fail both. -/
theorem AutoComplete_name_order {order order2 : RangeOrder} (hv : order.Valid)
    (hv2 : order2.Valid) (commands : List Command) (L : List Str) (w : Str) (R : List Str)
    (hw : isCompletingArgValue w = false) (r : AutocompleteResponse)
    (h : AutoComplete order commands L w R = .ok r) :
    AutoComplete order2 commands L w R = .ok r := by
  unfold AutoComplete at h ⊢
  simp only [locate_order hv] at h
  simp only [locate_order hv2]
  cases hl : locate id (BuildAutoCompleteTree commands).1 (BuildAutoCompleteTree commands).2
      none L with
  | error e => rw [hl] at h; cases h
  | ok o =>
    rw [hl] at h
    cases o with
    | none => exact h
    | some node =>
      simp only [suggest, hw, Bool.false_eq_true, if_false] at h ⊢
      have hperm : (order ((BuildAutoCompleteTree commands).1.children node)).Perm
          (order2 ((BuildAutoCompleteTree commands).1.children node)) :=
        (hv _).trans (hv2 _).symm
      split at h
      · cases h
      · rename_i l hl1
        obtain ⟨l2, hl2, hp⟩ := nameSuggestions_perm w _ _ hperm l hl1
        rw [hl2]
        simp only [newAutoCompleteResponse] at h ⊢
        rw [← sortStrings_perm hp]
        exact h

set_option maxRecDepth 100000 in
/-- Claim C11, refuted on the code: in the registry with the arguments `id` and `project-id`
of `instance server list`, the left words `scw instance server list` lead to a leaf command
node, and `bogus` is a word as the claim requires; yet the value completion of `project-id=`
with `bogus`, the children being enumerated in one order, gives `project-id=11`, and without
`bogus`, the children being enumerated in the reverse order, gives `project-id=22`: each call
enumerates the child mapping in an order of its own, and `GetChildMatch` returns the first
matching child. -/
theorem C11_counterexample :
    RangeOrder.Valid id ∧ RangeOrder.Valid List.reverse ∧
      locate id (BuildAutoCompleteTree idRegistry).1 (BuildAutoCompleteTree idRegistry).2 none
        serverListPath = .ok (some 52) ∧
      isLeafCommand id (BuildAutoCompleteTree idRegistry).1 52 = true ∧
      mapGet ((BuildAutoCompleteTree idRegistry).1.children 52) "bogus".toList = none ∧
      isFlag "bogus".toList = false ∧ isArg "bogus".toList = false ∧
      mapGet ((BuildAutoCompleteTree idRegistry).1.children 52)
        ("bogus".toList ++ "=".toList) = none ∧
      AutoComplete id idRegistry (serverListPath ++ ["bogus".toList]) "project-id=".toList [] =
        .ok { Suggestions := ["project-id=11".toList] } ∧
      AutoComplete List.reverse idRegistry serverListPath "project-id=".toList [] =
        .ok { Suggestions := ["project-id=22".toList] } := by
  refine ⟨fun m => List.Perm.refl m, fun m => List.reverse_perm m, ?_, ?_, ?_, ?_, ?_, ?_, ?_,
    ?_⟩ <;> decide!

/-- Claim C11 as amended: for every registry, every left-word list `L` that the locator
resolves to a leaf command node `n`, and every word `b` that is not a child key of `n`, does
not start with `-`, contains no `=` and for which `b=` is not a child key of `n`, adding `b`
at the end of the left words does not change the result of `AutoComplete` when the two calls
enumerate the child mappings in the same order, whatever the word to complete; and in name
completion (a word to complete without `=`) the call with `b` and the call without `b`
return the same response, or fail both, whatever the two enumeration orders. -/
theorem C11_unknown_word_at_leaf_ignored (order order2 : RangeOrder)
    (commands : List Command) (L : List Str) (b w : Str) (R : List Str) (n : Nat)
    (hloc : locate order (BuildAutoCompleteTree commands).1 (BuildAutoCompleteTree commands).2
      none L = .ok (some n))
    (hleaf : isLeafCommand order (BuildAutoCompleteTree commands).1 n = true)
    (hchild : mapGet ((BuildAutoCompleteTree commands).1.children n) b = none)
    (hflag : isFlag b = false) (harg : isArg b = false)
    (hbool : mapGet ((BuildAutoCompleteTree commands).1.children n) (b ++ "=".toList) = none) :
    AutoComplete order commands (L ++ [b]) w R = AutoComplete order commands L w R ∧
      (order.Valid → order2.Valid → isCompletingArgValue w = false →
        ∀ r, AutoComplete order commands (L ++ [b]) w R = .ok r ↔
          AutoComplete order2 commands L w R = .ok r) := by
  have hloc2 : locate order (BuildAutoCompleteTree commands).1
      (BuildAutoCompleteTree commands).2 none (L ++ [b]) = .ok (some n) := by
    rw [locate_append, hloc]
    simp only [locate, hchild, hleaf, if_true]
  have hword : ∀ acc, trackWord (BuildAutoCompleteTree commands).1 n acc b = acc := by
    intro acc
    simp only [trackWord, hflag, harg, hbool, Bool.false_eq_true, if_false]
  have husage : trackUsage (BuildAutoCompleteTree commands).1 n ((L ++ [b]) ++ R) =
      trackUsage (BuildAutoCompleteTree commands).1 n (L ++ R) := by
    simp only [trackUsage, List.foldl_append, List.foldl_cons, List.foldl_nil, hword]
  have hsame : AutoComplete order commands (L ++ [b]) w R =
      AutoComplete order commands L w R := by
    unfold AutoComplete
    simp only [hloc, hloc2, husage]
  refine ⟨hsame, ?_⟩
  intro hv hv2 hw r
  rw [hsame]
  exact ⟨AutoComplete_name_order hv hv2 commands L w R hw r,
    AutoComplete_name_order hv2 hv commands L w R hw r⟩

set_option maxRecDepth 100000 in
/-- The scenario of the spec: after `scw instance server list`, the unknown left word
`bogus` is ignored and the completion of `z` offers `zone=` with it, and also without it when
the children are enumerated in the reverse order. -/
theorem C11_unknown_word_at_leaf_ignored_witness :
    AutoComplete id zoneRegistry (serverListPath ++ ["bogus".toList]) "z".toList [] =
        .ok { Suggestions := ["zone=".toList] } ∧
      AutoComplete id zoneRegistry serverListPath "z".toList [] =
        .ok { Suggestions := ["zone=".toList] } ∧
      AutoComplete List.reverse zoneRegistry serverListPath "z".toList [] =
        .ok { Suggestions := ["zone=".toList] } :=
  have h := C11_unknown_word_at_leaf_ignored id List.reverse zoneRegistry serverListPath
    "bogus".toList "z".toList [] 52 (by decide!) (by decide!) (by decide!) (by decide)
    (by decide) (by decide!)
  have h1 : AutoComplete id zoneRegistry (serverListPath ++ ["bogus".toList]) "z".toList [] =
      .ok { Suggestions := ["zone=".toList] } := by decide!
  ⟨h1, h.1 ▸ h1,
    (h.2 (fun m => List.Perm.refl m) (fun m => List.reverse_perm m) (by decide) _).mp h1⟩

/-! ### The keys of a map object are pairwise distinct -/

theorem KeysNodup_mapSet : ∀ (m : ChildMap) (key : Str) (v : Nat),
    KeysNodup m → KeysNodup (mapSet m key v)
  | [], key, v, _ => by simp [KeysNodup, mapSet]
  | (k, w) :: m, key, v, h => by
    unfold KeysNodup at h ⊢
    simp only [List.map_cons, List.nodup_cons] at h
    simp only [mapSet]
    split
    · simp only [List.map_cons, List.nodup_cons]
      exact h
    · rename_i hk
      simp only [List.map_cons, List.nodup_cons]
      refine ⟨?_, KeysNodup_mapSet m key v h.2⟩
      intro hm
      obtain ⟨e, he, hek⟩ := List.mem_map.mp hm
      rcases mem_mapSet m key v e he with h1 | h1
      · exact h.1 (List.mem_map.mpr ⟨e, h1, hek⟩)
      · exact hk (hek.symm.trans h1)

theorem MapsAll_mapSet {P : ChildMap → Prop} (hset : ∀ m key v, P m → P (mapSet m key v))
    {h : Heap} (hk : h.MapsAll P) (m : Nat) (key : Str) (v : Nat) :
    (h.mapSet m key v).MapsAll P := by
  intro cm hcm
  rcases mem_updateAt _ m h.maps cm hcm with h1 | ⟨y, hy, hxy⟩
  · exact hk cm h1
  · subst hxy
    exact hset y key v (hk y hy)

theorem MapsAll_setNode {P : ChildMap → Prop} {h : Heap} (hk : h.MapsAll P) (p : Nat)
    (f : AutoCompleteNode → AutoCompleteNode) : (h.setNode p f).MapsAll P := hk

theorem MapsAll_new {P : ChildMap → Prop} (hnil : P []) {h : Heap} (hk : h.MapsAll P) :
    (NewAutoCompleteNode h).1.MapsAll P := by
  intro cm hcm
  simp only [NewAutoCompleteNode, List.mem_append, List.mem_singleton] at hcm
  rcases hcm with h1 | h1
  · exact hk cm h1
  · subst h1; exact hnil

theorem MapsAll_addFlagValue {P : ChildMap → Prop} (hnil : P [])
    (hset : ∀ m key v, P m → P (mapSet m key v)) {h : Heap} (hk : h.MapsAll P)
    (node parent : Nat) (key : Str) (t : AutoCompleteNodeType) :
    (addFlagValue h node parent key t).MapsAll P := by
  unfold addFlagValue
  exact MapsAll_setNode (MapsAll_mapSet hset (MapsAll_new hnil hk) _ _ _) _ _

theorem MapsAll_foldl_values {P : ChildMap → Prop} (hnil : P [])
    (hset : ∀ m key v, P m → P (mapSet m key v)) (node parent : Nat) :
    ∀ (values : List Str) (h : Heap), h.MapsAll P →
      (values.foldl (fun h value =>
        addFlagValue h node parent value AutoCompleteNodeType.FlagValueConst) h).MapsAll P
  | [], _, hk => hk
  | v :: values, h, hk => by
    simp only [List.foldl]
    exact MapsAll_foldl_values hnil hset node parent values _
      (MapsAll_addFlagValue hnil hset hk node parent v _)

theorem MapsAll_addFlag {P : ChildMap → Prop} (hnil : P [])
    (hset : ∀ m key v, P m → P (mapSet m key v)) {h : Heap} (hk : h.MapsAll P) (n : Nat)
    (name : Str) (values : List Str) (hasVariableValue : Bool) :
    (addFlag h n name values hasVariableValue).MapsAll P := by
  unfold addFlag NewFlagAutoCompleteNode
  simp only
  have h1 := MapsAll_foldl_values hnil hset (NewAutoCompleteNode h).2 n values _
    (show ((NewAutoCompleteNode h).1.setNode (NewAutoCompleteNode h).2
      (fun n => { n with NodeType := AutoCompleteNodeType.Flag, Name := name })).MapsAll P
      from MapsAll_new hnil hk)
  apply MapsAll_mapSet hset
  split <;> split <;> first
    | exact MapsAll_setNode (MapsAll_addFlagValue hnil hset h1 _ _ _ _) _ _
    | exact MapsAll_setNode h1 _ _
    | exact MapsAll_addFlagValue hnil hset h1 _ _ _ _
    | exact h1

theorem MapsAll_addGlobalFlags {P : ChildMap → Prop} (hnil : P [])
    (hset : ∀ m key v, P m → P (mapSet m key v)) {h : Heap} (hk : h.MapsAll P) (n : Nat) :
    (addGlobalFlags h n).MapsAll P := by
  unfold addGlobalFlags
  exact MapsAll_addFlag hnil hset (MapsAll_addFlag hnil hset (MapsAll_addFlag hnil hset
    (MapsAll_addFlag hnil hset (MapsAll_addFlag hnil hset (MapsAll_addFlag hnil hset
    (MapsAll_addFlag hnil hset (MapsAll_addFlag hnil hset (MapsAll_addFlag hnil hset
    (MapsAll_addFlag hnil hset hk _ _ _ _) _ _ _ _) _ _ _ _) _ _ _ _) _ _ _ _) _ _ _ _)
    _ _ _ _) _ _ _ _) _ _ _ _) _ _ _ _

theorem MapsAll_GetChildOrCreate {P : ChildMap → Prop} (hnil : P [])
    (hset : ∀ m key v, P m → P (mapSet m key v)) {h : Heap} (hk : h.MapsAll P) (node : Nat)
    (name : Str) : (GetChildOrCreate h node name).1.MapsAll P := by
  unfold GetChildOrCreate
  split
  · exact hk
  · exact MapsAll_mapSet hset (MapsAll_new hnil hk) _ _ _

theorem MapsAll_descendPath {P : ChildMap → Prop} (hnil : P [])
    (hset : ∀ m key v, P m → P (mapSet m key v)) :
    ∀ (parts : List Str) (h : Heap) (node : Nat), h.MapsAll P →
      (descendPath h node parts).1.MapsAll P
  | [], _, _, hk => hk
  | part :: parts, h, node, hk => by
    simp only [descendPath]
    split
    · exact MapsAll_descendPath hnil hset parts _ _
        (MapsAll_addGlobalFlags hnil hset (MapsAll_GetChildOrCreate hnil hset hk node part) _)
    · exact MapsAll_descendPath hnil hset parts _ _ hk

theorem MapsAll_addArgSpecs {P : ChildMap → Prop} (hnil : P [])
    (hset : ∀ m key v, P m → P (mapSet m key v)) (node i : Nat) :
    ∀ (specs : List ArgSpec) (h : Heap) (j : Nat), h.MapsAll P →
      (addArgSpecs node i h j specs).MapsAll P
  | [], _, _, hk => hk
  | spec :: specs, h, j, hk => by
    simp only [addArgSpecs, NewArgAutoCompleteNode]
    exact MapsAll_addArgSpecs hnil hset node i specs _ _
      (MapsAll_mapSet hset
        (show ((NewAutoCompleteNode h).1.setNode (NewAutoCompleteNode h).2 _).MapsAll P
          from MapsAll_new hnil hk) _ _ _)

theorem MapsAll_addCommands {P : ChildMap → Prop} (hnil : P [])
    (hset : ∀ m key v, P m → P (mapSet m key v)) (scw : Nat) :
    ∀ (commands : List Command) (h : Heap) (i : Nat), h.MapsAll P →
      (addCommands scw h i commands).MapsAll P
  | [], _, _, hk => hk
  | cmd :: commands, h, i, hk => by
    simp only [addCommands]
    apply MapsAll_addCommands hnil hset scw commands
    unfold addCommand
    have h1 : (descendPath h scw [cmd.Namespace, cmd.Resource, cmd.Verb]).1.MapsAll P :=
      MapsAll_descendPath hnil hset _ _ _ hk
    have h2 := MapsAll_addArgSpecs hnil hset
      (descendPath h scw [cmd.Namespace, cmd.Resource, cmd.Verb]).2 i cmd.ArgSpecs
      ((descendPath h scw [cmd.Namespace, cmd.Resource, cmd.Verb]).1.setNode
        (descendPath h scw [cmd.Namespace, cmd.Resource, cmd.Verb]).2
        (fun n => { n with Command := some i })) 0 h1
    simp only
    split
    · exact MapsAll_addFlag hnil hset (MapsAll_addFlag hnil hset h2 _ _ _ _) _ _ _ _
    · exact h2

theorem MapsAll_BuildAutoCompleteTree {P : ChildMap → Prop} (hnil : P [])
    (hset : ∀ m key v, P m → P (mapSet m key v)) (commands : List Command) :
    (BuildAutoCompleteTree commands).1.MapsAll P := by
  unfold BuildAutoCompleteTree
  simp only
  apply MapsAll_addCommands hnil hset
  apply MapsAll_addGlobalFlags hnil hset
  apply MapsAll_GetChildOrCreate hnil hset
  apply MapsAll_new hnil
  intro m hm
  simp at hm

/-- The keys of every child mapping of a built tree are pairwise distinct. -/
theorem KeysNodup_children (commands : List Command) (n : Nat) :
    KeysNodup ((BuildAutoCompleteTree commands).1.children n) := by
  have hk := MapsAll_BuildAutoCompleteTree (P := KeysNodup) (by simp [KeysNodup])
    KeysNodup_mapSet commands
  unfold Heap.children
  rcases getD_mem_or [] (BuildAutoCompleteTree commands).1.maps
    ((BuildAutoCompleteTree commands).1.node n).Children with h1 | h1
  · exact hk _ h1
  · rw [h1]; simp [KeysNodup]

theorem mapGet_of_mem : ∀ (m : ChildMap), KeysNodup m → ∀ e ∈ m, mapGet m e.1 = some e.2
  | [], _, e, he => by simp at he
  | (k, v) :: m, hn, e, he => by
    unfold KeysNodup at hn
    simp only [List.map_cons, List.nodup_cons] at hn
    rcases List.mem_cons.mp he with h1 | h1
    · subst h1
      simp [mapGet]
    · have hne : k ≠ e.1 := by
        intro e1
        exact hn.1 (List.mem_map.mpr ⟨e, h1, e1.symm⟩)
      simp only [mapGet, if_neg hne]
      exact mapGet_of_mem m hn.2 e h1

theorem mem_of_mapGet : ∀ (m : ChildMap) (key : Str) (v : Nat),
    mapGet m key = some v → (key, v) ∈ m
  | [], _, _, h => by simp [mapGet] at h
  | (k, w) :: m, key, v, h => by
    simp only [mapGet] at h
    split at h
    · rename_i hk
      cases h
      rw [hk]
      exact List.mem_cons_self _ _
    · exact List.mem_cons_of_mem _ (mem_of_mapGet m key v h)

/-! ### The node of a leaf command -/

theorem onPath_inv : ∀ (parts q0 x : List Str), onPath q0 parts x = true →
    ∃ y, y ≠ [] ∧ y <+: parts ∧ x = q0 ++ y
  | [], _, _, h => by simp [onPath] at h
  | part :: parts, q0, x, h => by
    simp only [onPath, Bool.or_eq_true, decide_eq_true_eq] at h
    rcases h with h | h
    · exact ⟨[part], by simp, by simp, h⟩
    · obtain ⟨y, _, hy2, hy3⟩ := onPath_inv parts (q0 ++ [part]) x h
      refine ⟨part :: y, by simp, List.cons_prefix_cons.mpr ⟨rfl, hy2⟩, ?_⟩
      rw [hy3, List.append_assoc, List.singleton_append]

theorem foldl_present_inv : ∀ (cs : List Command) (t : ATree) (x : List Str),
    (cs.foldl ATree.addCommand t).present x = true →
      t.present x = true ∨ ∃ c ∈ cs, onPath [] (cmdPath c) x = true
  | [], _, _, h => Or.inl h
  | c :: cs, t, x, h => by
    rcases foldl_present_inv cs (t.addCommand c) x h with h1 | ⟨c2, hc2, h2⟩
    · rw [addCommand_eq] at h1
      simp only [Bool.or_eq_true] at h1
      rcases h1 with h1 | h1
      · exact Or.inl h1
      · exact Or.inr ⟨c, List.mem_cons_self _ _, h1⟩
    · exact Or.inr ⟨c2, List.mem_cons_of_mem _ hc2, h2⟩

theorem argsAfter_inv : ∀ (specs : List ArgSpec) (f : Str → Option ArgSpec) (key : Str)
    (s : ArgSpec), argsAfter specs f key = some s →
      f key = some s ∨ ∃ s2 ∈ specs, key = s2.Name ++ "=".toList
  | [], _, _, _, h => Or.inl h
  | spec :: rest, f, key, s, h => by
    rcases argsAfter_inv rest _ key s h with h1 | ⟨s2, hs2, h2⟩
    · by_cases hk : key = spec.Name ++ "=".toList
      · exact Or.inr ⟨spec, List.mem_cons_self _ _, hk⟩
      · rw [if_neg hk] at h1
        exact Or.inl h1
    · exact Or.inr ⟨s2, List.mem_cons_of_mem _ hs2, h2⟩

theorem foldl_args_inv : ∀ (cs : List Command) (t : ATree) (x : List Str) (key : Str)
    (s : ArgSpec), (cs.foldl ATree.addCommand t).args x key = some s →
      t.args x key = some s ∨
        ∃ c ∈ cs, cmdPath c = x ∧ ∃ s2 ∈ c.ArgSpecs, key = s2.Name ++ "=".toList
  | [], _, _, _, _, h => Or.inl h
  | c :: cs, t, x, key, s, h => by
    rcases foldl_args_inv cs (t.addCommand c) x key s h with h1 | ⟨c2, hc2, h2⟩
    · rw [addCommand_eq] at h1
      simp only at h1
      by_cases hx : x = cmdPath c
      · rw [if_pos hx] at h1
        rcases argsAfter_inv _ _ _ _ h1 with h3 | h3
        · exact Or.inl h3
        · exact Or.inr ⟨c, List.mem_cons_self _ _, hx.symm, h3⟩
      · rw [if_neg hx] at h1
        exact Or.inl h1
    · exact Or.inr ⟨c2, List.mem_cons_of_mem _ hc2, h2⟩

/-- The described tree of a registry has no command node below the path of a command that
no other path extends. -/
theorem build_leaf (commands : List Command) (p : List Str)
    (hleaf : ∀ c ∈ commands, p <+: cmdPath c → cmdPath c = p) (key : Str) :
    (ATree.build commands).present (p ++ [key]) = false := by
  cases hp : (ATree.build commands).present (p ++ [key]) with
  | false => rfl
  | true =>
    exfalso
    rcases foldl_present_inv commands ATree.base _ hp with h1 | ⟨c, hc, h2⟩
    · simp [ATree.base] at h1
    · obtain ⟨y, _, hy2, hy3⟩ := onPath_inv _ _ _ h2
      rw [List.nil_append] at hy3
      rw [← hy3] at hy2
      have h3 : p <+: cmdPath c := (List.prefix_append p [key]).trans hy2
      rw [hleaf c hc h3] at hy2
      have := hy2.length_le
      simp at this

/-- The described tree of a registry has, at a path all of whose commands only have the
argument `name`, no other argument key than `name ++ "="`. -/
theorem build_args_only (commands : List Command) (p : List Str) (name : Str)
    (hargs : ∀ c ∈ commands, cmdPath c = p → ∀ s ∈ c.ArgSpecs, s.Name = name) (key : Str)
    (s : ArgSpec) (h : (ATree.build commands).args p key = some s) :
    key = name ++ "=".toList := by
  rcases foldl_args_inv commands ATree.base p key s h with h1 | ⟨c, hc, hp, s2, hs2, hk⟩
  · simp [ATree.base] at h1
  · rw [hk, hargs c hc hp s2 hs2]

/-- The children of the command node at a path without command node below it, all of whose
argument keys are `argKey`: flags, of type Flag, and the argument, of type Argument. -/
theorem children_of_leaf {commands : List Command} {h : Heap} {t : ATree}
    {addr : List Str → Nat} (hI : Inv commands h t addr) (p : List Str)
    (hp : t.present p = true) (hnone : ∀ key, t.present (p ++ [key]) = false) (argKey : Str)
    (honly : ∀ key s, t.args p key = some s → key = argKey)
    (hnodup : KeysNodup (h.children (addr p))) :
    ∀ e ∈ h.children (addr p),
      (e.1 ∈ flagNames ∧ (h.node e.2).NodeType = AutoCompleteNodeType.Flag) ∨
      (e.1 = argKey ∧ (h.node e.2).NodeType = AutoCompleteNodeType.Argument) := by
  intro e he
  have hget := mapGet_of_mem _ hnodup e he
  have hent := hI.entries p hp e.1
  have hget2 : mapGet (h.maps.getD (h.mapOf addr p) []) e.1 = some e.2 := hget
  rw [hget2] at hent
  unfold ATree.child at hent
  by_cases hf : e.1 ∈ flagNames
  · left
    refine ⟨hf, ?_⟩
    rw [if_pos hf] at hent
    cases hfl : t.flags p e.1 with
    | false =>
      rw [hfl] at hent
      exact hent.elim
    | true =>
      rw [hfl] at hent
      simp only [if_true] at hent
      by_cases hv : flagValues e.1 = []
      · rw [if_pos hv] at hent
        exact hent.2.2.1
      · rw [if_neg hv] at hent
        exact hent.2.2.1
  · right
    rw [if_neg hf] at hent
    cases he2 : endsEq e.1 with
    | true =>
      rw [he2] at hent
      simp only [if_true] at hent
      cases ha : t.args p e.1 with
      | none =>
        rw [ha] at hent
        exact hent.elim
      | some s =>
        rw [ha] at hent
        exact ⟨honly _ _ ha, hent.2.1⟩
    | false =>
      rw [he2, hnone e.1] at hent
      exact hent.elim

theorem locate_cmd {commands : List Command} {h : Heap} {t : ATree} {addr : List Str → Nat}
    (hI : Inv commands h t addr) (q : List Str) :
    t.present q = true → locate id h 0 none ("scw".toList :: q) = .ok (some (addr q)) := by
  induction q using List.reverseRecOn with
  | nil =>
    intro _
    have h1 := (hI.node [] hI.wf.nil).2.2.1
    rw [hI.scw] at h1
    have hne : ¬ (h.node 1).NodeType = AutoCompleteNodeType.Argument := by
      rw [h1]; decide
    simp only [locate, Heap.children, hI.rootNode.2.1, hI.rootMap, mapGet, if_true, if_neg hne,
      hI.scw]
  | append_singleton q key ih =>
    intro hq
    have hc := hI.wf.closed q key hq
    rw [← List.cons_append, locate_append, ih hc.1]
    have hent := hI.entries q hc.1 key
    rw [child_sane t q key hc.2, hq, if_pos rfl] at hent
    obtain ⟨c, hc2, hrep⟩ := RepOpt_some hent
    have hc3 : mapGet (h.children (addr q)) key = some c := hc2
    have hty := (hI.node _ hq).2.2.1
    rw [← hrep.2] at hty
    have hne : ¬ (h.node c).NodeType = AutoCompleteNodeType.Argument := by
      rw [hty]; decide
    simp only [locate, hc3, if_neg hne]
    rw [hrep.2]

theorem locate_skip (order : RangeOrder) (h : Heap) (n : Nat)
    (hleaf : isLeafCommand order h n = true) :
    ∀ (ws : List Str) (prev : Option Str), (∀ w ∈ ws, mapGet (h.children n) w = none) →
      locate order h n prev ws = .ok (some n)
  | [], _, _ => rfl
  | w :: ws, prev, hw => by
    simp only [locate, hw w (List.mem_cons_self _ _), hleaf, if_true]
    exact locate_skip order h n hleaf ws _ (fun x hx => hw x (List.mem_cons_of_mem _ hx))

/-! ### The index-allocation law on a leaf command -/

set_option maxRecDepth 100000 in
/-- Claim C4, refuted on the code. In `subRegistry` the command `x` has the single argument
`tags.{idx}` and the left words `scw x` lead to it, but `x` has a sub-command and so is not a
leaf command: the supplied word `tags.0=foo` on the left of the cursor makes the locator
return the empty response. And on `instance server list`, a leaf command, the flag `-o json`
typed before `tags.0=a` leaves the locator on the flag-value node, where the same happens. -/
theorem C4_counterexample :
    locate id (BuildAutoCompleteTree subRegistry).1 (BuildAutoCompleteTree subRegistry).2 none
        ["scw".toList, "x".toList] = .ok (some 18) ∧
      ((BuildAutoCompleteTree subRegistry).1.node 18).Command.bind subRegistry.get? =
        subRegistry.get? 0 ∧
      AutoComplete id subRegistry ["scw".toList, "x".toList, "tags.0=foo".toList]
        "tags.".toList [] = .ok { Suggestions := [] } ∧
      AutoComplete id tagsRegistry
        (serverListPath ++ ["-o".toList, "json".toList, "tags.0=a".toList])
        "tags.".toList [] = .ok { Suggestions := [] } := by
  refine ⟨by decide!, ?_, by decide!, by decide!⟩
  have h : ((BuildAutoCompleteTree subRegistry).1.node 18).Command = some 0 := by decide!
  rw [h]
  rfl

theorem pathWord_untracked {commands : List Command} {h : Heap} {t : ATree}
    {addr : List Str → Nat} (hI : Inv commands h t addr) (p : List Str)
    (hp : t.present p = true) (hnone : ∀ key, t.present (p ++ [key]) = false)
    (honly : ∀ key s, t.args p key = some s → key = "tags.{idx}=".toList)
    (hnodup : KeysNodup (h.children (addr p))) (w : Str) (hflag : isFlag w = false)
    (harg : isArg w = false) (hplain : PlainName w) (acc : List Str × List Str) :
    trackWord h (addr p) acc w = acc := by
  have hm : mapGet (h.children (addr p)) (w ++ "=".toList) = none := by
    cases hm : mapGet (h.children (addr p)) (w ++ "=".toList) with
    | none => rfl
    | some v =>
      exfalso
      rcases children_of_leaf hI p hp hnone _ honly hnodup _ (mem_of_mapGet _ _ _ hm)
        with ⟨h1, _⟩ | ⟨h1, _⟩
      · exact argKey_not_flagName w h1
      · have h2 : w ++ "=".toList = "tags.{idx}".toList ++ "=".toList := h1
        have h3 := List.append_cancel_right h2
        rw [h3] at hplain
        revert hplain
        decide
  simp only [trackWord, hflag, harg, hm, Bool.false_eq_true, if_false]

theorem tagWord_not_key (i : Nat) (v : Str) :
    isFlag (tagWord i v) = false ∧ tagWord i v ≠ "tags.{idx}=".toList := by
  constructor
  · simp [isFlag, tagWord, HasPrefix]
  · obtain ⟨d, ds, hd, hdig⟩ := Itoa_head i
    have hne : ¬ (d = '{') := by
      intro e; subst e; revert hdig; decide
    simp [tagWord, hd, hne]

/-- Claim C4 as amended: for every registry whose namespaces, resources and verbs do not
begin with `-` and do not end with `=`, every enumeration order, and every command of the
registry that is a leaf command (no path of the registry extends its path), whose path
contains no `=` and no placeholder, and at whose path the only argument is `tags.{idx}`: for
every `n` and all words `tags.i=v` with `i < n`, every index below `n` being supplied, placed
in any order after the left words `scw` and the path of the command, and among the right
words, completing `tags.` returns exactly the suggestion `tags.n=`: the list contains
`tags.n=` and no `tags.i=` with `i < n`. -/
theorem C4_index_allocation (order : RangeOrder) (hv : order.Valid)
    (commands : List Command) (cmd : Command) (hcmd : cmd ∈ commands)
    (hsane : ∀ c ∈ commands, ∀ part ∈ cmdPath c, sanePart part = true)
    (hpath : ∀ part ∈ cmdPath cmd, isArg part = false ∧ PlainName part)
    (hleaf : ∀ c ∈ commands, cmdPath cmd <+: cmdPath c → cmdPath c = cmdPath cmd)
    (hargs : ∀ c ∈ commands, cmdPath c = cmdPath cmd →
      ∀ s ∈ c.ArgSpecs, s.Name = "tags.{idx}".toList)
    (hhas : cmd.ArgSpecs ≠ []) (n : Nat) (leftTags rightWords : List Str)
    (hwords : ∀ w ∈ leftTags ++ rightWords, ∃ i v, i < n ∧ w = tagWord i v)
    (hall : ∀ i < n, ∃ v, tagWord i v ∈ leftTags ++ rightWords) :
    ∃ r, AutoComplete order commands ("scw".toList :: cmdPath cmd ++ leftTags) "tags.".toList
        rightWords = .ok r ∧
      r.Suggestions = [tagKey n] ∧ tagKey n ∈ r.Suggestions ∧
      ∀ i < n, tagKey i ∉ r.Suggestions := by
  obtain ⟨addr, hI⟩ := Inv_Build commands hsane
  have hroot : (BuildAutoCompleteTree commands).2 = 0 := rfl
  obtain ⟨b1, b2, _⟩ := build_facts commands cmd hcmd
  have hp := (b1 (cmdPath cmd) (List.prefix_refl _)).1
  have hnone := build_leaf commands (cmdPath cmd) hleaf
  have honly : ∀ key s, (ATree.build commands).args (cmdPath cmd) key = some s →
      key = "tags.{idx}=".toList := by
    intro key s h
    exact build_args_only commands (cmdPath cmd) "tags.{idx}".toList hargs key s h
  have hnodup := KeysNodup_children commands (addr (cmdPath cmd))
  have hclass := children_of_leaf hI (cmdPath cmd) hp hnone _ honly hnodup
  -- the argument child
  obtain ⟨spec, hspec⟩ := List.exists_mem_of_ne_nil _ hhas
  have hname := hargs cmd hcmd rfl spec hspec
  obtain ⟨a, ha, _⟩ := arg_child hI (cmdPath cmd) hp spec.Name (b2 spec hspec)
  rw [hname] at ha
  have hamem : ("tags.{idx}=".toList, a) ∈
      (BuildAutoCompleteTree commands).1.children (addr (cmdPath cmd)) :=
    mem_of_mapGet _ _ _ ha
  -- the node is a leaf command
  have hleafNode : isLeafCommand order (BuildAutoCompleteTree commands).1
      (addr (cmdPath cmd)) = true := by
    rw [isLeafCommand_order hv]
    unfold isLeafCommand
    have hty := (hI.node _ hp).2.2.1
    simp only [hty, ne_eq, not_true_eq_false, if_false, id, List.all_eq_true,
      decide_eq_true_eq]
    intro e he
    rcases hclass e he with ⟨_, h2⟩ | ⟨_, h2⟩ <;> rw [h2] <;> decide
  -- the tag words are no child keys
  have htagNone : ∀ w ∈ leftTags, mapGet ((BuildAutoCompleteTree commands).1.children
      (addr (cmdPath cmd))) w = none := by
    intro w hw
    obtain ⟨i, v, _, e⟩ := hwords w (List.mem_append.mpr (Or.inl hw))
    subst e
    cases hm : mapGet ((BuildAutoCompleteTree commands).1.children (addr (cmdPath cmd)))
        (tagWord i v) with
    | none => rfl
    | some c =>
      exfalso
      rcases hclass _ (mem_of_mapGet _ _ _ hm) with ⟨h1, _⟩ | ⟨h1, _⟩
      · have := (flagNames_isFlag _ h1).1
        rw [(tagWord_not_key i v).1] at this
        cases this
      · exact (tagWord_not_key i v).2 h1
  have hloc : locate order (BuildAutoCompleteTree commands).1 0 none
      ("scw".toList :: cmdPath cmd ++ leftTags) = .ok (some (addr (cmdPath cmd))) := by
    rw [locate_append, locate_order hv _ ("scw".toList :: cmdPath cmd), locate_cmd hI _ hp]
    exact locate_skip order _ _ hleafNode leftTags _ htagNone
  -- the usage tracker
  have hpathWords : ∀ w ∈ "scw".toList :: cmdPath cmd,
      ∀ acc, trackWord (BuildAutoCompleteTree commands).1 (addr (cmdPath cmd)) acc w = acc := by
    intro w hw acc
    rcases List.mem_cons.mp hw with e | hw2
    · subst e
      exact pathWord_untracked hI _ hp hnone honly hnodup _ (by decide) (by decide) (by decide)
        acc
    · have hs := hsane cmd hcmd w hw2
      have hfl : isFlag w = false := by
        cases hf : isFlag w with
        | false => rfl
        | true => simp [sanePart, hf] at hs
      exact pathWord_untracked hI _ hp hnone honly hnodup w hfl (hpath w hw2).1
        (hpath w hw2).2 acc
  have hfold : ∀ (ws : List Str) (acc : List Str × List Str),
      (∀ w ∈ ws, ∀ acc, trackWord (BuildAutoCompleteTree commands).1 (addr (cmdPath cmd)) acc w
        = acc) →
      ws.foldl (trackWord (BuildAutoCompleteTree commands).1 (addr (cmdPath cmd))) acc = acc := by
    intro ws
    induction ws with
    | nil => intro acc _; rfl
    | cons w ws ih =>
      intro acc hw
      simp only [List.foldl, hw w (List.mem_cons_self _ _)]
      exact ih acc (fun x hx => hw x (List.mem_cons_of_mem _ hx))
  have husage : trackUsage (BuildAutoCompleteTree commands).1 (addr (cmdPath cmd))
      (("scw".toList :: cmdPath cmd ++ leftTags) ++ rightWords) =
      (leftTags ++ rightWords).foldl
        (trackWord (BuildAutoCompleteTree commands).1 (addr (cmdPath cmd))) ([], []) := by
    unfold trackUsage
    rw [List.append_assoc, List.foldl_append, hfold _ _ hpathWords]
  obtain ⟨_, hargsT⟩ := trackUsage_tagWords (BuildAutoCompleteTree commands).1
    (addr (cmdPath cmd)) (leftTags ++ rightWords) ([], [])
    (fun w hw => let ⟨i, v, _, e⟩ := hwords w hw; ⟨i, v, e⟩)
  have hkey := keySuggestion_tags n
    ((leftTags ++ rightWords).foldl
      (trackWord (BuildAutoCompleteTree commands).1 (addr (cmdPath cmd))) ([], [])).1
    (by
      intro x hx
      rcases (hargsT x).mp hx with h0 | ⟨i, v, hmem, e⟩
      · simp at h0
      · obtain ⟨j, u, hj, e2⟩ := hwords _ hmem
        exact ⟨i, by rw [tagWord_index e2]; exact hj, e⟩)
    (by
      intro i hi
      obtain ⟨v, hmem⟩ := hall i hi
      exact (hargsT _).mpr (Or.inr ⟨i, v, hmem, rfl⟩))
  -- the name-completion loop
  have hperm := hv ((BuildAutoCompleteTree commands).1.children (addr (cmdPath cmd)))
  have hmem2 := hperm.mem_iff.mpr hamem
  have hnodup2 : KeysNodup (order ((BuildAutoCompleteTree commands).1.children
      (addr (cmdPath cmd)))) := (hperm.map Prod.fst).nodup_iff.mpr hnodup
  obtain ⟨pre, post, hsplit⟩ := List.append_of_mem hmem2
  have hflagsNo : ∀ k ∈ flagNames, hasPrefix k "tags.".toList = false := by decide
  have hothers : ∀ e ∈ pre ++ post, hasPrefix e.1 "tags.".toList = false := by
    intro e he
    have he2 : e ∈ order ((BuildAutoCompleteTree commands).1.children (addr (cmdPath cmd))) := by
      rw [hsplit]
      rcases List.mem_append.mp he with h1 | h1
      · exact List.mem_append.mpr (Or.inl h1)
      · exact List.mem_append.mpr (Or.inr (List.mem_cons_of_mem _ h1))
    rcases hclass e (hperm.mem_iff.mp he2) with ⟨h1, _⟩ | ⟨h1, _⟩
    · exact hflagsNo _ h1
    · exfalso
      unfold KeysNodup at hnodup2
      rw [hsplit, List.map_append, List.map_cons] at hnodup2
      have hnd := List.nodup_middle.mp hnodup2
      rw [List.nodup_cons, ← List.map_append] at hnd
      exact hnd.1 (List.mem_map.mpr ⟨e, he, h1⟩)
  have hname : nameSuggestions "tags.".toList
      ((leftTags ++ rightWords).foldl
        (trackWord (BuildAutoCompleteTree commands).1 (addr (cmdPath cmd))) ([], [])).1
      ((leftTags ++ rightWords).foldl
        (trackWord (BuildAutoCompleteTree commands).1 (addr (cmdPath cmd))) ([], [])).2
      (order ((BuildAutoCompleteTree commands).1.children (addr (cmdPath cmd)))) =
      .ok [tagKey n] := by
    rw [hsplit]
    exact nameSuggestions_single _ _ _ _ a _ (by decide) (by decide) hkey post
      (fun e he => hothers e (List.mem_append.mpr (Or.inr he))) pre
      (fun e he => hothers e (List.mem_append.mpr (Or.inl he)))
  have hword : isCompletingArgValue "tags.".toList = false := by decide
  refine ⟨{ Suggestions := [tagKey n] }, ?_, rfl, List.mem_singleton.mpr rfl, ?_⟩
  · unfold AutoComplete
    simp only [hroot, hloc, husage]
    unfold suggest
    simp only [hword, Bool.false_eq_true, if_false, hname, newAutoCompleteResponse,
      sortStrings, List.insertionSort, List.orderedInsert]
  · intro i hi hmem
    have := tagKey_injective (List.mem_singleton.mp hmem)
    omega

/-- The index-allocation law of the spec on `instance server list`: with `tags.1=b` on the
left of the cursor and `tags.0=a` on its right, the suggested index is exactly 2. -/
theorem C4_index_allocation_witness :
    ∃ r, AutoComplete id tagsRegistry (serverListPath ++ ["tags.1=b".toList])
        "tags.".toList ["tags.0=a".toList] = .ok r ∧
      r.Suggestions = ["tags.2=".toList] ∧ "tags.2=".toList ∈ r.Suggestions ∧
      "tags.0=".toList ∉ r.Suggestions ∧ "tags.1=".toList ∉ r.Suggestions :=
  have h := C4_index_allocation id (fun m => List.Perm.refl m) tagsRegistry
    (serverList [enumArg "tags.{idx}" []]) (List.mem_cons_self _ _)
    (by
      intro c hc
      simp only [tagsRegistry, List.mem_singleton] at hc
      subst hc
      decide)
    (by decide)
    (by
      intro c hc _
      simp only [tagsRegistry, List.mem_singleton] at hc
      rw [hc])
    (by
      intro c hc _ s hs
      simp only [tagsRegistry, List.mem_singleton] at hc
      subst hc
      simp only [serverList, List.mem_singleton] at hs
      subst hs
      rfl)
    (List.cons_ne_nil _ _) 2 [tagWord 1 "b".toList] [tagWord 0 "a".toList]
    (by
      intro w hw
      simp only [List.singleton_append, List.mem_cons, List.mem_singleton, List.not_mem_nil,
        or_false] at hw
      rcases hw with e | e
      · exact ⟨1, "b".toList, by decide, e⟩
      · exact ⟨0, "a".toList, by decide, e⟩)
    (by
      intro i hi
      have hcases : i = 0 ∨ i = 1 := by omega
      rcases hcases with e | e <;> subst e
      · exact ⟨"a".toList, by simp⟩
      · exact ⟨"b".toList, by simp⟩)
  let ⟨r, h1, h2, h3, h4⟩ := h
  ⟨r, h1, h2, h3, h4 0 (by decide), h4 1 (by decide)⟩

end Core
